import Mathlib

/-!
# Table engine and file manager of the paged relational store

A shallow embedding of `src/backend/table/table.c` (select, join, projection,
update and delete by predicate, lookup of a row, drop) over an abstract
picture of the database file, and of `src/backend/io/file_manager.c` over the
globals of that file.

The operators are translated from the source.  The layers below them
(chunk allocator, linked-block allocator, schema catalog, metatable, the
iteration macros of `table.h`, the comparator) are not part of the available
sources; each of them is either a parameter (the comparator, the answer of the
schema catalog to a repeated field name) or a definition whose doc comment
starts with `Modelled from the spec:`.

Conventions
* a byte is a natural number, a buffer is a list of bytes;
* an in-memory struct (`table_t`, `schema_t`, `field_t`) is a Lean value; the
  content of the file is the state `db_t`, passed explicitly;
* `NULL`, `CHBLIX_FAIL` are `none`; integer status codes are `Int`.
-/

namespace LLP

/-! ## Data model -/

abbrev Byte := Nat

/-- Datatypes of a field, as enumerated by the `switch` of `tab_print`. -/
inductive datatype_t where
  | DT_INT
  | DT_FLOAT
  | DT_CHAR
  | DT_BOOL
  | DT_VARCHAR
  deriving DecidableEq, Repr

/-- Comparison conditions.  Only `COND_EQ` is spelled out in the available
sources; the other five are the conditions listed in the spec (NEQ, LT, LE, GT, GE). -/
inductive condition_t where
  | COND_EQ
  | COND_NEQ
  | COND_LT
  | COND_LTE
  | COND_GT
  | COND_GTE
  deriving DecidableEq, Repr

/-- Field descriptor: name, datatype, size in bytes, offset in the row slot. -/
structure field_t where
  name : String
  type : datatype_t
  size : Nat
  offset : Nat
  deriving DecidableEq, Repr

/-- Block handle `(chunk_idx, block_idx)`. The failure value `CHBLIX_FAIL` is
represented by `none : Option chblix_t`. -/
structure chblix_t where
  chunk_idx : Nat
  block_idx : Nat
  deriving DecidableEq, Repr

/-- Modelled from the spec: the chunk (one page) of a linked collection, whose
declaration is not in the available sources.  `first_free_block` is the free list
(the head is the next block handed out), `blocks` is the payload: `none` for a
free block, `some bytes` for an allocated one.  The link `next_page` is the
order of the chunks in the chain that holds them. -/
structure chunk_t where
  chunk_idx : Nat
  capacity : Nat
  first_free_block : List Nat
  blocks : List (Option (List Byte))
  deriving DecidableEq, Repr

/-- Number of free blocks of a chunk (header field `num_of_free_blocks`). -/
def chunk_t.num_of_free_blocks (c : chunk_t) : Nat := c.first_free_block.length

/-- In-memory schema header (`schema_t`): index of the field chain and the
running slot size. -/
structure schema_t where
  schidx : Nat
  slot_size : Nat
  deriving DecidableEq, Repr

/-- In-memory table header (`table_t`): table index (root chunk of the row
chain) and index of its schema. -/
structure table_t where
  tabidx : Nat
  schidx : Nat
  deriving DecidableEq, Repr

/-- Stored schema: slot size and the chain of field records in chain order. -/
structure schema_rec where
  slot_size : Nat
  fields : List field_t
  deriving DecidableEq, Repr

/-- Stored table: name, schema index, block size (= slot size) and the row
chain, a list of chunks in chain order. -/
structure table_rec where
  name : String
  schidx : Nat
  block_size : Nat
  chunks : List chunk_t
  deriving DecidableEq, Repr

/-- The database: the content of the file seen through the layers below the
table engine.  `page_size` is the page size recorded in the superblock,
`num_pages` the number of pages of the file (the index of the next new chunk),
`schemas` and `tables` the live schemas and tables by index, `meta_table` the
rows `(name, table index)` of the metatable.  `sch_unique_names` is the answer
of the schema catalog, whose code is not in the available sources, to a field
name that a chain already holds: `true` when `sch_add_field` rejects it (spec,
schema catalog: "adding a duplicate is rejected"), `false` when it appends the
field (spec, join: "duplicate field names across sides are permitted").  No
operation changes it, and the theorems hold for both answers unless they say
otherwise. -/
structure db_t where
  page_size : Nat
  num_pages : Nat
  schemas : List (Nat × schema_rec)
  tables : List (Nat × table_rec)
  meta_table : List (String × Nat)
  sch_unique_names : Bool
  deriving DecidableEq, Repr

/-- Status codes of the table layer.  The enum is not in the available sources;
the values follow `FileStatus` of `file_manager.c` (success 0, failure -1). -/
def TABLE_SUCCESS : Int := 0

def TABLE_FAIL : Int := -1

/-- Size in bytes of the chunk header: six 64-bit fields (spec, file format). -/
def CHUNK_HEADER_SIZE : Nat := 48

/-! ## Association lists by index -/

/-- First entry stored under index `k`. -/
def idx_load {β : Type} (k : Nat) : List (Nat × β) → Option β
  | [] => none
  | (k', v) :: rest => if k' = k then some v else idx_load k rest

/-- Replaces the first entry stored under index `k` by `v`. -/
def idx_store {β : Type} (k : Nat) (v : β) : List (Nat × β) → List (Nat × β)
  | [] => []
  | (k', v') :: rest => if k' = k then (k', v) :: rest else (k', v') :: idx_store k v rest

/-! ## Buffers -/

/-- The bytes `[off, off + n)` of a buffer: `memcpy(el, (char*)row + off, n)`. -/
def slice (buf : List Byte) (off n : Nat) : List Byte := (buf.drop off).take n

/-- Effect on `dst` of `memcpy(dst + doff, src + soff, n)`. -/
def memcpy (dst : List Byte) (doff : Nat) (src : List Byte) (soff n : Nat) : List Byte :=
  dst.take doff ++ slice src soff n ++ dst.drop (doff + n)

/-- A buffer of `n` bytes from `malloc(n)`.  Every buffer of the operators is
overwritten in full before it is read, so its initial content is taken to be
zero. -/
def malloc (n : Nat) : List Byte := List.replicate n 0

/-! ## Chunks and linked blocks -/

/-- Modelled from the spec: capacity of a chunk,
`floor((page_size - header_size) / block_size)`; the macro is not in the
available sources.  A block size of 0 gives capacity 0. -/
def chunk_capacity (db : db_t) (block_size : Nat) : Nat :=
  (db.page_size - CHUNK_HEADER_SIZE) / block_size

/-- Modelled from the spec: `chunk_init`, missing from the available sources.
Allocates a new page at the end of the file and initialises the free list
to `[0, 1, ..., capacity - 1]`. -/
def chunk_init (db : db_t) (block_size : Nat) : chunk_t × db_t :=
  let cap := chunk_capacity db block_size
  ({ chunk_idx := db.num_pages, capacity := cap,
     first_free_block := List.range cap, blocks := List.replicate cap none },
   { db with num_pages := db.num_pages + 1 })

/-- Modelled from the spec: allocation inside one chunk (pop the head of the
free list and write the block), missing from the available sources. -/
def chunk_alloc (c : chunk_t) (data : List Byte) : Option (Nat × chunk_t) :=
  match c.first_free_block with
  | [] => none
  | i :: rest => some (i, { c with first_free_block := rest, blocks := c.blocks.set i (some data) })

/-- Modelled from the spec: `alloc(head)` of the linked-block allocator followed
by `write_block`, missing from the available sources.  The last chunk of the chain
is tried; when it is full a new chunk of the same block size is initialised,
appended, and allocated from.  A chain always has a head chunk. -/
def lb_alloc (db : db_t) (block_size : Nat) (data : List Byte) :
    List chunk_t → Option (chblix_t × List chunk_t × db_t)
  | [] => none
  | c :: [] =>
    match chunk_alloc c data with
    | some (i, c') => some ({ chunk_idx := c.chunk_idx, block_idx := i }, [c'], db)
    | none =>
      match chunk_alloc (chunk_init db block_size).1 data with
      | some (i, n') =>
        some ({ chunk_idx := (chunk_init db block_size).1.chunk_idx, block_idx := i },
              [c, n'], (chunk_init db block_size).2)
      | none => none
  | c :: c2 :: cs =>
    match lb_alloc db block_size data (c2 :: cs) with
    | some (h, cs', db') => some (h, c :: cs', db')
    | none => none

/-- Allocated blocks of a payload from block index `i` on, in block order. -/
def blocks_rows (cidx : Nat) : Nat → List (Option (List Byte)) → List (chblix_t × List Byte)
  | _, [] => []
  | i, none :: bs => blocks_rows cidx (i + 1) bs
  | i, some r :: bs => ({ chunk_idx := cidx, block_idx := i }, r) :: blocks_rows cidx (i + 1) bs

/-- Allocated blocks of a chunk with their handles, in block order. -/
def chunk_rows (c : chunk_t) : List (chblix_t × List Byte) := blocks_rows c.chunk_idx 0 c.blocks

/-- Modelled from the spec: `iterate(head)`, every allocated block in chunk
order, block order. -/
def chain_rows : List chunk_t → List (chblix_t × List Byte)
  | [] => []
  | c :: cs => chunk_rows c ++ chain_rows cs

/-- Block `i` of a payload overwritten by `f` of its content; `none` when the
block is free or out of range. -/
def blocks_modify (f : List Byte → List Byte) :
    Nat → List (Option (List Byte)) → Option (List (Option (List Byte)))
  | _, [] => none
  | 0, none :: _ => none
  | 0, some r :: bs => some (some (f r) :: bs)
  | i + 1, b :: bs =>
    match blocks_modify f i bs with
    | some bs' => some (b :: bs')
    | none => none

/-- Modelled from the spec: `write_block` on an existing handle: the block of
the first chunk of the chain with the handle's chunk index is rewritten; `none`
(invalid handle) when the chunk is not in the chain or the block is free. -/
def chain_modify (f : List Byte → List Byte) (h : chblix_t) : List chunk_t → Option (List chunk_t)
  | [] => none
  | c :: cs =>
    if c.chunk_idx = h.chunk_idx then
      match blocks_modify f h.block_idx c.blocks with
      | some bs' => some ({ c with blocks := bs' } :: cs)
      | none => none
    else
      match chain_modify f h cs with
      | some cs' => some (c :: cs')
      | none => none

/-- Content of the allocated block `i` of a payload. -/
def blocks_read : Nat → List (Option (List Byte)) → Option (List Byte)
  | _, [] => none
  | 0, b :: _ => b
  | i + 1, _ :: bs => blocks_read i bs

/-- Modelled from the spec: `read_block`, the content of the block named by a
handle, `none` when the handle is invalid. -/
def chain_read (h : chblix_t) : List chunk_t → Option (List Byte)
  | [] => none
  | c :: cs => if c.chunk_idx = h.chunk_idx then blocks_read h.block_idx c.blocks else chain_read h cs

/-! ## Schema catalog -/

def SCHEMA_SUCCESS : Int := 0

def SCHEMA_FAIL : Int := -1

/-- Field records of the schema chain `schidx`, in chain order: what
`sch_for_each(schema, chunk, field, chblix, schidx)` iterates over. -/
def sch_fields (db : db_t) (schidx : Nat) : List field_t :=
  match idx_load schidx db.schemas with
  | some s => s.fields
  | none => []

/-- Modelled from the spec: `sch_init`, missing from the available sources:
creates an empty field chain on a new page; slot size 0. -/
def sch_init (db : db_t) : Option schema_t × db_t :=
  (some { schidx := db.num_pages, slot_size := 0 },
   { db with num_pages := db.num_pages + 1,
             schemas := (db.num_pages, { slot_size := 0, fields := [] }) :: db.schemas })

/-- Modelled from the spec: `sch_add_field`, missing from the available sources:
"each add_field allocates a block, appends the field record, and updates the
running slot_size and offset".  For a name that the chain already holds the
spec has two answers ("adding a duplicate is rejected" in the schema catalog,
"duplicate field names across sides are permitted" in the join); which one
applies is the field `sch_unique_names` of the database: the field is rejected
when it is `true` and appended like any other when it is `false`.  The pages
taken by the field records themselves are not counted. -/
def sch_add_field (db : db_t) (schema : schema_t) (name : String) (type : datatype_t)
    (size : Nat) : Int × schema_t × db_t :=
  match idx_load schema.schidx db.schemas with
  | none => (SCHEMA_FAIL, schema, db)
  | some s =>
    if db.sch_unique_names = true ∧ name ∈ s.fields.map (fun f => f.name) then
      (SCHEMA_FAIL, schema, db)
    else
      let field : field_t := { name := name, type := type, size := size, offset := schema.slot_size }
      let s1 : schema_rec := { slot_size := schema.slot_size + size, fields := s.fields ++ [field] }
      (SCHEMA_SUCCESS, { schema with slot_size := schema.slot_size + size },
       { db with schemas := idx_store schema.schidx s1 db.schemas })

/-- Modelled from the spec: `sch_get_field`, missing from the available sources:
"get_field(name) linearly scans the chain"; `none` is `SCHEMA_FAIL`. -/
def sch_get_field (db : db_t) (schema : schema_t) (name : String) : Option field_t :=
  (sch_fields db schema.schidx).find? (fun f => f.name = name)

/-- Modelled from the spec: `sch_load`, missing from the available sources:
the in-memory header of the stored schema, `none` (NULL) when absent. -/
def sch_load (db : db_t) (schidx : Nat) : Option schema_t :=
  match idx_load schidx db.schemas with
  | some s => some { schidx := schidx, slot_size := s.slot_size }
  | none => none

/-! ## Metatable and table primitives -/

/-- Modelled from the spec: `mtab_add`, missing from the available sources: adds
the row `(name, index)`; inserting an existing name is a name collision and
adds nothing. -/
def mtab_add (db : db_t) (name : String) (tabidx : Nat) : Int × db_t :=
  if name ∈ db.meta_table.map (fun r => r.1) then (TABLE_FAIL, db)
  else (TABLE_SUCCESS, { db with meta_table := db.meta_table ++ [(name, tabidx)] })

/-- Modelled from the spec: `tab_base_init`, missing from the available sources:
creates the table header and the head chunk of its row chain, whose block size
is the slot size of the schema; the table index is the index of that chunk. -/
def tab_base_init (db : db_t) (name : String) (schema : schema_t) : Option table_t × db_t :=
  (some { tabidx := db.num_pages, schidx := schema.schidx },
   { (chunk_init db schema.slot_size).2 with
       tables := (db.num_pages,
                  { name := name, schidx := schema.schidx, block_size := schema.slot_size,
                    chunks := [(chunk_init db schema.slot_size).1] }) :: db.tables })

/-- Source `tab_init` (table.c 13-21): initialise the table and add it to the
metatable; the result of `mtab_add` is not looked at. -/
def tab_init (db : db_t) (name : String) (schema : schema_t) : Option table_t × db_t :=
  match tab_base_init db name schema with
  | (none, db1) => (none, db1)
  | (some table, db1) => (some table, (mtab_add db1 name table.tabidx).2)

/-- Modelled from the spec: `tab_load`, missing from the available sources:
the in-memory header of the stored table, `none` (NULL) when absent. -/
def tab_load (db : db_t) (tablix : Nat) : Option table_t :=
  match idx_load tablix db.tables with
  | some t => some { tabidx := tablix, schidx := t.schidx }
  | none => none

/-- Row chain of a stored table (empty when the table is absent). -/
def tab_chunks (db : db_t) (tabidx : Nat) : List chunk_t :=
  match idx_load tabidx db.tables with
  | some t => t.chunks
  | none => []

/-- Rows of a table with their handles in scan order (chunk order, block
order). -/
def tab_rows (db : db_t) (tabidx : Nat) : List (chblix_t × List Byte) :=
  chain_rows (tab_chunks db tabidx)

/-- Row stored under a handle of a table, `none` when the handle names no
allocated block. -/
def tab_read_row (db : db_t) (tabidx : Nat) (h : chblix_t) : Option (List Byte) :=
  chain_read h (tab_chunks db tabidx)

/-- Modelled from the spec: `tab_insert(table, schema, row)`, missing from the
available sources: allocates a block in the row chain and writes the first
`slot_size` bytes of `row` into it; `none` is `CHBLIX_FAIL`. -/
def tab_insert (db : db_t) (table : table_t) (schema : schema_t) (row : List Byte) :
    Option chblix_t × db_t :=
  match idx_load table.tabidx db.tables with
  | none => (none, db)
  | some t =>
    match lb_alloc db t.block_size (row.take schema.slot_size) t.chunks with
    | none => (none, db)
    | some (h, cs, db1) =>
      (some h, { db1 with tables := idx_store table.tabidx { t with chunks := cs } db1.tables })

/-- Modelled from the spec: `tab_update_row(tablix, chblix, row)`, missing from
the available sources: overwrites the whole slot of an existing row; an invalid
handle is `TABLE_FAIL`. -/
def tab_update_row (db : db_t) (tablix : Nat) (h : chblix_t) (row : List Byte) : Int × db_t :=
  match idx_load tablix db.tables with
  | none => (TABLE_FAIL, db)
  | some t =>
    match chain_modify (fun _ => row.take t.block_size) h t.chunks with
    | none => (TABLE_FAIL, db)
    | some cs => (TABLE_SUCCESS, { db with tables := idx_store tablix { t with chunks := cs } db.tables })

/-- Modelled from the spec: `tab_update_element(tablix, chblix, field, element)`,
missing from the available sources: overwrites the bytes
`[offset, offset + size)` of an existing row by the element. -/
def tab_update_element (db : db_t) (tablix : Nat) (h : chblix_t) (field : field_t)
    (element : List Byte) : Int × db_t :=
  match idx_load tablix db.tables with
  | none => (TABLE_FAIL, db)
  | some t =>
    match chain_modify (fun old => memcpy old field.offset element 0 field.size) h t.chunks with
    | none => (TABLE_FAIL, db)
    | some cs => (TABLE_SUCCESS, { db with tables := idx_store tablix { t with chunks := cs } db.tables })

/-- Modelled from the spec: the macro `tab_for_each_row(table, chunk, chblix,
row, schema)` of `table.h`, missing from the available sources.  The handles are
those of the allocated blocks at loop entry, in chunk order, block order; at
each handle the first `slot_size` bytes of the block are read from the current
state into the row buffer and the body runs.  A body result `some r` is a `return r` out of the enclosing function. -/
def tab_for_each_row {ρ : Type} (table : table_t) (schema : schema_t)
    (body : chblix_t → List Byte → db_t → Option ρ × db_t) :
    List chblix_t → db_t → Option ρ × db_t
  | [], db => (none, db)
  | h :: hs, db =>
    match tab_read_row db table.tabidx h with
    | none => tab_for_each_row table schema body hs db
    | some block =>
      match body h (block.take schema.slot_size) db with
      | (some r, db1) => (some r, db1)
      | (none, db1) => tab_for_each_row table schema body hs db1

/-- Handles of the allocated blocks of a table, in scan order. -/
def tab_handles (db : db_t) (tabidx : Nat) : List chblix_t := (tab_rows db tabidx).map (fun p => p.1)

/-! ## Relational operators (table.c) -/

/-- Loop `sch_for_each(...) { if (sch_add_field(new, f.name, f.type, f.size) ==
SCHEMA_FAIL) return ...; }` of `tab_select_op_nova`, `tab_join` and
`tab_projection`: `false` when the function returns from inside the loop. -/
def add_fields : List field_t → schema_t → db_t → Bool × schema_t × db_t
  | [], schema, db => (true, schema, db)
  | f :: fs, schema, db =>
    match sch_add_field db schema f.name f.type f.size with
    | (st, schema1, db1) =>
      if st = SCHEMA_FAIL then (false, schema1, db1) else add_fields fs schema1 db1

/-- Body of the loop of `tab_select_op_nova` (table.c 280-290): copy the
compared field out of the row, and when the comparison holds insert the first
`slot_size` bytes of the row into the new table. -/
def select_body (comp_compare : datatype_t → List Byte → List Byte → condition_t → Bool)
    (table : table_t) (schema : schema_t) (select_field : field_t) (condition : condition_t)
    (comp_val : List Byte) (type : datatype_t) :
    chblix_t → List Byte → db_t → Option Unit × db_t :=
  fun _ el_row dbi =>
    let el := memcpy (malloc select_field.size) 0 el_row select_field.offset select_field.size
    if comp_compare type el comp_val condition then
      let row := memcpy (malloc schema.slot_size) 0 el_row 0 schema.slot_size
      match tab_insert dbi table schema row with
      | (none, dbj) => (some (), dbj)
      | (some _, dbj) => (none, dbj)
    else (none, dbi)

/-- Source `tab_select_op_nova` (table.c 237-296).  `comp_compare` is the
comparator of the comparator module, not in the available sources. -/
def tab_select_op_nova
    (comp_compare : datatype_t → List Byte → List Byte → condition_t → Bool)
    (db : db_t) (sel_table : table_t) (sel_schema : schema_t) (select_field : field_t)
    (name : String) (condition : condition_t) (value : List Byte) (type : datatype_t) :
    Option table_t × db_t :=
  match sch_init db with
  | (none, db1) => (none, db1)
  | (some schema0, db1) =>
    match add_fields (sch_fields db1 sel_table.schidx) schema0 db1 with
    | (false, _, db2) => (none, db2)
    | (true, schema, db2) =>
      match tab_init db2 name schema with
      | (none, db3) => (none, db3)
      | (some table, db3) =>
        if type ≠ select_field.type then (none, db3)
        else
          let comp_val := memcpy (malloc select_field.size) 0 value 0 select_field.size
          match tab_for_each_row sel_table sel_schema
              (select_body comp_compare table schema select_field condition comp_val type)
              (tab_handles db3 sel_table.tabidx) db3 with
          | (some _, db4) => (none, db4)
          | (none, db4) => (some table, db4)

/-- Body of the inner loop of `tab_join` (table.c 203-214), for the left row
`left_row` whose join key is `elleft`. -/
def join_inner_body (comp_eq : datatype_t → List Byte → List Byte → Bool)
    (table : table_t) (new_schema left_schema right_schema : schema_t)
    (join_field_left_f join_field_right_f : field_t) (left_row elleft : List Byte) :
    chblix_t → List Byte → db_t → Option Int × db_t :=
  fun _ right_row dbj =>
    let elright := memcpy (malloc join_field_right_f.size) 0 right_row
                     join_field_right_f.offset join_field_right_f.size
    if comp_eq join_field_left_f.type elleft elright then
      let row0 := memcpy (malloc new_schema.slot_size) 0 left_row 0 left_schema.slot_size
      let row := memcpy row0 left_schema.slot_size right_row 0 right_schema.slot_size
      match tab_insert dbj table new_schema row with
      | (none, dbk) => (some TABLE_FAIL, dbk)
      | (some _, dbk) => (none, dbk)
    else (none, dbj)

/-- Body of the outer loop of `tab_join` (table.c 201-215): copy the join key
of the left row and scan the right table. -/
def join_outer_body (comp_eq : datatype_t → List Byte → List Byte → Bool)
    (right table : table_t) (new_schema left_schema right_schema : schema_t)
    (join_field_left_f join_field_right_f : field_t) :
    chblix_t → List Byte → db_t → Option Int × db_t :=
  fun _ left_row dbi =>
    let elleft := memcpy (malloc join_field_left_f.size) 0 left_row
                    join_field_left_f.offset join_field_left_f.size
    tab_for_each_row right right_schema
      (join_inner_body comp_eq table new_schema left_schema right_schema
        join_field_left_f join_field_right_f left_row elleft)
      (tab_handles dbi right.tabidx) dbi

/-- Source `tab_join` (table.c 126-222).  `comp_eq` is the equality comparator,
not in the available sources.  `junk` is the indeterminate content of the two
uninitialised locals `join_field_left_f`, `join_field_right_f`, which stays in
place when `sch_get_field` fails (its result is not looked at). -/
def tab_join (comp_eq : datatype_t → List Byte → List Byte → Bool) (junk : field_t)
    (db : db_t) (leftidx rightidx : Nat) (join_field_left join_field_right name : String) :
    Int × db_t :=
  match tab_load db leftidx with
  | none => (TABLE_FAIL, db)
  | some left =>
  match tab_load db rightidx with
  | none => (TABLE_FAIL, db)
  | some right =>
  match sch_load db left.schidx with
  | none => (TABLE_FAIL, db)
  | some left_schema =>
  match sch_load db right.schidx with
  | none => (TABLE_FAIL, db)
  | some right_schema =>
  match sch_init db with
  | (none, db1) => (TABLE_FAIL, db1)
  | (some schema0, db1) =>
  match add_fields (sch_fields db1 left.schidx) schema0 db1 with
  | (false, _, db2) => (TABLE_FAIL, db2)
  | (true, schema1, db2) =>
  match add_fields (sch_fields db2 right.schidx) schema1 db2 with
  | (false, _, db3) => (TABLE_FAIL, db3)
  | (true, new_schema, db3) =>
  match tab_init db3 name new_schema with
  | (none, db4) => (TABLE_FAIL, db4)
  | (some table, db4) =>
    let join_field_left_f := (sch_get_field db4 left_schema join_field_left).getD junk
    let join_field_right_f := (sch_get_field db4 right_schema join_field_right).getD junk
    match tab_for_each_row left left_schema
        (join_outer_body comp_eq right table new_schema left_schema right_schema
          join_field_left_f join_field_right_f)
        (tab_handles db4 left.tabidx) db4 with
    | (some r, db5) => (r, db5)
    | (none, db5) => ((table.tabidx : Int), db5)

/-- Body of the loop of `tab_projection` (table.c 628-637): every projected
field of the buffer `row` is copied onto itself, then the first `slot_size`
bytes of `row` are inserted into the new table. -/
def projection_body (new_table : table_t) (new_schema : schema_t) (fields : List field_t)
    (num_of_fields : Nat) : chblix_t → List Byte → db_t → Option Unit × db_t :=
  fun _ row dbi =>
    let row1 := (fields.take num_of_fields).foldl
                  (fun r f => memcpy r f.offset r f.offset f.size) row
    match tab_insert dbi new_table new_schema row1 with
    | (none, dbj) => (some (), dbj)
    | (some _, dbj) => (none, dbj)

/-- Source `tab_projection` (table.c 596-640).  The array `fields` with
`num_of_fields` entries is the list `fields.take num_of_fields`.  The macro
reads each row of the source table into the buffer `row`. -/
def tab_projection (db : db_t) (table : table_t) (schema : schema_t) (fields : List field_t)
    (num_of_fields : Nat) (name : String) : Option table_t × db_t :=
  match sch_init db with
  | (none, db1) => (none, db1)
  | (some schema0, db1) =>
    match add_fields (fields.take num_of_fields) schema0 db1 with
    | (false, _, db2) => (none, db2)
    | (true, new_schema, db2) =>
      match tab_init db2 name new_schema with
      | (none, db3) => (none, db3)
      | (some new_table, db3) =>
        match tab_for_each_row table schema
            (projection_body new_table new_schema fields num_of_fields)
            (tab_handles db3 table.tabidx) db3 with
        | (some _, db4) => (none, db4)
        | (none, db4) => (some new_table, db4)

/-- Body of the loop of `tab_update_row_op` (table.c 441-450). -/
def update_row_body (comp_compare : datatype_t → List Byte → List Byte → condition_t → Bool)
    (tablix : Nat) (upd_schema : schema_t) (upd_field : field_t) (condition : condition_t)
    (comp_val : List Byte) (type : datatype_t) (row : List Byte) :
    chblix_t → List Byte → db_t → Option Int × db_t :=
  fun upd_chblix el_row dbi =>
    let el := memcpy (malloc upd_field.size) 0 el_row upd_field.offset upd_field.size
    if comp_compare type el comp_val condition then
      let el_row1 := memcpy el_row 0 row 0 upd_schema.slot_size
      match tab_update_row dbi tablix upd_chblix el_row1 with
      | (st, dbj) => if st = TABLE_FAIL then (some TABLE_FAIL, dbj) else (none, dbj)
    else (none, dbi)

/-- Source `tab_update_row_op` (table.c 401-455). -/
def tab_update_row_op
    (comp_compare : datatype_t → List Byte → List Byte → condition_t → Bool)
    (db : db_t) (tablix : Nat) (row : List Byte) (field_name : String)
    (condition : condition_t) (value : List Byte) (type : datatype_t) : Int × db_t :=
  match tab_load db tablix with
  | none => (TABLE_FAIL, db)
  | some upd_tab =>
  match sch_load db upd_tab.schidx with
  | none => (TABLE_FAIL, db)
  | some upd_schema =>
  match sch_get_field db upd_schema field_name with
  | none => (TABLE_FAIL, db)
  | some upd_field =>
    if type ≠ upd_field.type then (TABLE_FAIL, db)
    else
      let comp_val := memcpy (malloc upd_field.size) 0 value 0 upd_field.size
      match tab_for_each_row upd_tab upd_schema
          (update_row_body comp_compare tablix upd_schema upd_field condition comp_val type row)
          (tab_handles db upd_tab.tabidx) db with
      | (some r, db1) => (r, db1)
      | (none, db1) => (TABLE_SUCCESS, db1)

/-- Body of the loop of `tab_update_element_op` (table.c 518-527). -/
def update_element_body
    (comp_compare : datatype_t → List Byte → List Byte → condition_t → Bool)
    (tablix : Nat) (comp_field upd_field : field_t) (condition : condition_t)
    (comp_val : List Byte) (type : datatype_t) (element : List Byte) :
    chblix_t → List Byte → db_t → Option Int × db_t :=
  fun upd_chblix el_row dbi =>
    let el := memcpy (malloc comp_field.size) 0 el_row comp_field.offset comp_field.size
    if comp_compare type el comp_val condition then
      let upd_el := memcpy (malloc upd_field.size) 0 element 0 upd_field.size
      match tab_update_element dbi tablix upd_chblix upd_field upd_el with
      | (st, dbj) => if st = TABLE_FAIL then (some TABLE_FAIL, dbj) else (none, dbj)
    else (none, dbi)

/-- Source `tab_update_element_op` (table.c 470-534). -/
def tab_update_element_op
    (comp_compare : datatype_t → List Byte → List Byte → condition_t → Bool)
    (db : db_t) (tablix : Nat) (element : List Byte) (field_name field_comp : String)
    (condition : condition_t) (value : List Byte) (type : datatype_t) : Int × db_t :=
  match tab_load db tablix with
  | none => (TABLE_FAIL, db)
  | some upd_tab =>
  match sch_load db upd_tab.schidx with
  | none => (TABLE_FAIL, db)
  | some upd_schema =>
  match sch_get_field db upd_schema field_comp with
  | none => (TABLE_FAIL, db)
  | some comp_field =>
  match sch_get_field db upd_schema field_name with
  | none => (TABLE_FAIL, db)
  | some upd_field =>
    if type ≠ comp_field.type then (TABLE_FAIL, db)
    else
      let comp_val := memcpy (malloc comp_field.size) 0 value 0 comp_field.size
      match tab_for_each_row upd_tab upd_schema
          (update_element_body comp_compare tablix comp_field upd_field condition comp_val
            type element)
          (tab_handles db upd_tab.tabidx) db with
      | (some r, db1) => (r, db1)
      | (none, db1) => (TABLE_SUCCESS, db1)

/-- Source `tab_select_op` (table.c 310-339).  The value `table_index(NULL)`
returned when `tab_select_op_nova` fails is undefined in C; it is taken to be
`TABLE_FAIL`. -/
def tab_select_op
    (comp_compare : datatype_t → List Byte → List Byte → condition_t → Bool)
    (db : db_t) (sel_tabidx : Nat) (name select_field : String)
    (condition : condition_t) (value : List Byte) (type : datatype_t) : Int × db_t :=
  match tab_load db sel_tabidx with
  | none => (TABLE_FAIL, db)
  | some sel_tab =>
  match sch_load db sel_tab.schidx with
  | none => (TABLE_FAIL, db)
  | some sel_schema =>
  match sch_get_field db sel_schema select_field with
  | none => (TABLE_FAIL, db)
  | some select_field_f =>
    match tab_select_op_nova comp_compare db sel_tab sel_schema select_field_f name condition
        value type with
    | (some table, db1) => ((table.tabidx : Int), db1)
    | (none, db1) => (TABLE_FAIL, db1)

/-- Modelled from the spec: the macro `tab_for_each_element(table, chunk,
chblix, element, field)` of `table.h`, missing from the available sources: the
loop of `tab_for_each_row` with the bytes `[offset, offset + size)` of the field
read into the buffer `element`. -/
def tab_for_each_element {ρ : Type} (table : table_t) (field : field_t)
    (body : chblix_t → List Byte → db_t → Option ρ × db_t) :
    List chblix_t → db_t → Option ρ × db_t
  | [], db => (none, db)
  | h :: hs, db =>
    match tab_read_row db table.tabidx h with
    | none => tab_for_each_element table field body hs db
    | some block =>
      match body h (slice block field.offset field.size) db with
      | (some r, db1) => (some r, db1)
      | (none, db1) => tab_for_each_element table field body hs db1

/-- Body of the loop of `tab_get_row` (table.c 46-51): return the handle of the
row whose element equals the value. -/
def get_row_body (comp_eq : datatype_t → List Byte → List Byte → Bool) (value : List Byte)
    (type : datatype_t) : chblix_t → List Byte → db_t → Option chblix_t × db_t :=
  fun chblix element dbi =>
    if comp_eq type element value then (some chblix, dbi) else (none, dbi)

/-- Source `tab_get_row` (table.c 33-54); `none` is `CHBLIX_FAIL`.  The function
only reads the database. -/
def tab_get_row (comp_eq : datatype_t → List Byte → List Byte → Bool) (db : db_t)
    (tablix : Nat) (field : field_t) (value : List Byte) (type : datatype_t) :
    Option chblix_t :=
  match tab_load db tablix with
  | none => none
  | some table =>
    match sch_load db table.schidx with
    | none => none
    | some _ =>
      match tab_for_each_element table field (get_row_body comp_eq value type)
          (tab_handles db table.tabidx) db with
      | (some chblix, _) => some chblix
      | (none, _) => none

/-- Status codes of the page pool.  The enum is not in the available sources;
the values follow `FileStatus` of `file_manager.c` (success 0, failure -1). -/
def PPL_SUCCESS : Int := 0

def PPL_FAIL : Int := -1

/-- The rows of a metatable without the first row that carries the index. -/
def mtab_erase (tabidx : Nat) : List (String × Nat) → List (String × Nat)
  | [] => []
  | r :: rest => if r.2 = tabidx then rest else r :: mtab_erase tabidx rest

/-- Modelled from the spec: `mtab_delete`, missing from the available sources:
`delete(idx)` removes the row of the table index; an index that is not in the
metatable is `TABLE_FAIL` and removes nothing. -/
def mtab_delete (db : db_t) (tabidx : Nat) : Int × db_t :=
  if tabidx ∈ db.meta_table.map (fun r => r.2) then
    (TABLE_SUCCESS, { db with meta_table := mtab_erase tabidx db.meta_table })
  else (TABLE_FAIL, db)

/-- An index list without the first entry stored under index `k`. -/
def idx_erase {β : Type} (k : Nat) : List (Nat × β) → List (Nat × β)
  | [] => []
  | (k', v) :: rest => if k' = k then rest else (k', v) :: idx_erase k rest

/-- Modelled from the spec: `sch_delete`, missing from the available sources:
`delete(schema)` frees the field chain of the schema. -/
def sch_delete (db : db_t) (schidx : Nat) : db_t :=
  { db with schemas := idx_erase schidx db.schemas }

/-- Modelled from the spec: `lb_ppl_destroy`, missing from the available
sources: destroys the row chain of the table index; `PPL_FAIL` when there is no
such chain.  The pages of the chain go to the free-chunk pool, which the state
does not record. -/
def lb_ppl_destroy (db : db_t) (tabidx : Nat) : Int × db_t :=
  match idx_load tabidx db.tables with
  | none => (PPL_FAIL, db)
  | some _ => (PPL_SUCCESS, { db with tables := idx_erase tabidx db.tables })

/-- Source `tab_drop` (table.c 348-355). -/
def tab_drop (db : db_t) (table : table_t) : Int × db_t :=
  match mtab_delete db table.tabidx with
  | (st, db1) =>
    if st = TABLE_FAIL then (PPL_FAIL, db1)
    else lb_ppl_destroy (sch_delete db1 table.schidx) table.tabidx

/-- Source `tab_update_row_op_nova` (table.c 357-386): the loop of
`tab_update_row_op` on a table, schema and field descriptor supplied by the
caller; `table_index(table)` is the table index.  The type is not compared with
the type of the field. -/
def tab_update_row_op_nova
    (comp_compare : datatype_t → List Byte → List Byte → condition_t → Bool)
    (db : db_t) (table : table_t) (schema : schema_t) (field : field_t)
    (condition : condition_t) (value : List Byte) (type : datatype_t) (row : List Byte) :
    Int × db_t :=
  let comp_val := memcpy (malloc field.size) 0 value 0 field.size
  match tab_for_each_row table schema
      (update_row_body comp_compare table.tabidx schema field condition comp_val type row)
      (tab_handles db table.tabidx) db with
  | (some r, db1) => (r, db1)
  | (none, db1) => (TABLE_SUCCESS, db1)

/-! ## Delete by predicate (table.c 547-594)

The loop of `tab_delete_op_nova` assigns to the loop variables of
`tab_for_each_row` (`del_chblix`, `del_chunk`), so here the macro is taken
with its cursor: the loop variable is a position in the chain, and each step
moves to the first allocated block after it in the current chain. -/

/-- Position of the row loop: a chunk index and a block index; the block index
`-1` is the position before the first block of the chunk, the chunk index `-1`
is no chunk (`next_page` of the last chunk). -/
structure cursor_t where
  chunk_idx : Int
  block_idx : Int
  deriving DecidableEq, Repr

/-- The position of a handle. -/
def cursor_of (h : chblix_t) : cursor_t := { chunk_idx := h.chunk_idx, block_idx := h.block_idx }

/-- Position before the first block of the head chunk of a chain. -/
def cursor_start : List chunk_t → cursor_t
  | [] => { chunk_idx := -1, block_idx := -1 }
  | c :: _ => { chunk_idx := c.chunk_idx, block_idx := -1 }

/-- Modelled from the spec: the rest of `iterate` from a position: the allocated
blocks after the block index of the position in its chunk, then those of the
chunks that follow in the chain; nothing when the chunk is not in the chain. -/
def rows_after (cur : cursor_t) : List chunk_t → List (chblix_t × List Byte)
  | [] => []
  | c :: rest =>
    if (c.chunk_idx : Int) = cur.chunk_idx then
      (chunk_rows c).filter (fun p => decide (cur.block_idx < (p.1.block_idx : Int))) ++
        chain_rows rest
    else rows_after cur rest

/-- Modelled from the spec: `chunk_load(idx)` within a chain: the chunk with
the given index and its link `next_page` (the index of the chunk that follows
it, `-1` for the last chunk). -/
def chain_find (idx : Nat) : List chunk_t → Option (chunk_t × Int)
  | [] => none
  | c :: rest =>
    if c.chunk_idx = idx then some (c, (cursor_start rest).chunk_idx) else chain_find idx rest

/-- Modelled from the spec: block `i` of a payload freed; `none` when the block
is free already or out of range. -/
def blocks_free : Nat → List (Option (List Byte)) → Option (List (Option (List Byte)))
  | _, [] => none
  | 0, none :: _ => none
  | 0, some _ :: bs => some (none :: bs)
  | i + 1, b :: bs =>
    match blocks_free i bs with
    | some bs1 => some (b :: bs1)
    | none => none

/-- Modelled from the spec: `free` inside one chunk: the block is pushed onto
the free list of its chunk and the count of free blocks grows by one. -/
def chunk_free (c : chunk_t) (i : Nat) : Option chunk_t :=
  match blocks_free i c.blocks with
  | some bs1 => some { c with first_free_block := i :: c.first_free_block, blocks := bs1 }
  | none => none

/-- Modelled from the spec: the walk of `lb_free` along the chain; `only` says
that the chain has a single chunk. -/
def lb_free_rec (h : chblix_t) (only : Bool) : List chunk_t → Option (List chunk_t)
  | [] => none
  | c :: rest =>
    if c.chunk_idx = h.chunk_idx then
      match chunk_free c h.block_idx with
      | some c1 =>
        if c1.num_of_free_blocks = c1.capacity ∧ only = false then some rest
        else some (c1 :: rest)
      | none => none
    else
      match lb_free_rec h only rest with
      | some rest1 => some (c :: rest1)
      | none => none

/-- Modelled from the spec: `free(chblix)` of the linked-block allocator,
missing from the available sources: the block goes back to the free list of
its chunk; a chunk that becomes fully free is unlinked unless it is the only
chunk of the chain.  `none`: the handle names no allocated block. -/
def lb_free (h : chblix_t) (cs : List chunk_t) : Option (List chunk_t) :=
  lb_free_rec h (decide (cs.length ≤ 1)) cs

/-- Modelled from the spec: `tab_delete_nova(table, chunk, chblix)`, missing
from the available sources: frees the block of the row; an invalid handle is
`TABLE_FAIL`. -/
def tab_delete_nova (db : db_t) (table : table_t) (_chunk : chunk_t) (chblix : chblix_t) :
    Int × db_t :=
  match idx_load table.tabidx db.tables with
  | none => (TABLE_FAIL, db)
  | some t =>
    match lb_free chblix t.chunks with
    | none => (TABLE_FAIL, db)
    | some cs =>
      (TABLE_SUCCESS, { db with tables := idx_store table.tabidx { t with chunks := cs } db.tables })

/-- Modelled from the spec: the macro `tab_for_each_row(table, chunk, chblix,
row, schema)` with its loop variables: from the position `cur` the loop takes
the next allocated block of the current chain, loads its chunk (with the link
`next_page`), reads the first `slot_size` bytes of the block into the row
buffer and runs the body, which gives back the position to go on from.  A body
result `some r` is a `return r` out of the enclosing function.  `seen` collects
the handles the body has run on.  The loop of the source has no bound: `none`
is a run that has not ended within `fuel` steps. -/
def tab_for_each_row_cur {ρ : Type} (table : table_t) (schema : schema_t)
    (body : chunk_t → Int → chblix_t → List Byte → db_t → Option ρ × cursor_t × db_t) :
    Nat → cursor_t → List chblix_t → db_t → Option (Option ρ × List chblix_t × db_t)
  | 0, _, _, _ => none
  | fuel + 1, cur, seen, db =>
    match (rows_after cur (tab_chunks db table.tabidx)).head? with
    | none => some (none, seen, db)
    | some (chblix, block) =>
      match chain_find chblix.chunk_idx (tab_chunks db table.tabidx) with
      | none => some (none, seen, db)
      | some (chunk, next_page) =>
        match body chunk next_page chblix (block.take schema.slot_size) db with
        | (some r, _, db1) => some (some r, seen ++ [chblix], db1)
        | (none, cur1, db1) =>
          tab_for_each_row_cur table schema body fuel cur1 (seen ++ [chblix]) db1

/-- Body of the loop of `tab_delete_op_nova` (table.c 562-582); `next_page` is
`del_chunk->next_page`.  The second component of the result is `del_chblix` at
the end of the body; the assignment to `del_chunk` (line 580) is covered by
the loop, which loads the chunk of every row it visits. -/
def delete_body (comp_compare : datatype_t → List Byte → List Byte → condition_t → Bool)
    (table : table_t) (field_comp : field_t) (condition : condition_t) (comp_val : List Byte) :
    chunk_t → Int → chblix_t → List Byte → db_t → Option Int × cursor_t × db_t :=
  fun del_chunk next_page del_chblix el_row dbi =>
    let el := memcpy (malloc field_comp.size) 0 el_row field_comp.offset field_comp.size
    if comp_compare field_comp.type el comp_val condition then
      let flag := decide (del_chunk.num_of_free_blocks + 1 = del_chunk.capacity)
      let temp : cursor_t :=
        if flag then { chunk_idx := next_page, block_idx := -1 } else cursor_of del_chblix
      match tab_delete_nova dbi table del_chunk del_chblix with
      | (st, dbj) =>
        if st = TABLE_FAIL then (some TABLE_FAIL, cursor_of del_chblix, dbj)
        else if flag then (none, temp, dbj)
        else (none, cursor_of del_chblix, dbj)
    else (none, cursor_of del_chblix, dbi)

/-- Source `tab_delete_op_nova` (table.c 547-594).  The local `counter` counts
the runs of the body and is not part of the result. -/
def tab_delete_op_nova
    (comp_compare : datatype_t → List Byte → List Byte → condition_t → Bool)
    (fuel : Nat) (db : db_t) (table : table_t) (schema : schema_t) (field_comp : field_t)
    (condition : condition_t) (value : List Byte) : Option (Int × db_t) :=
  let comp_val := memcpy (malloc field_comp.size) 0 value 0 field_comp.size
  match tab_for_each_row_cur table schema
      (delete_body comp_compare table field_comp condition comp_val) fuel
      (cursor_start (tab_chunks db table.tabidx)) [] db with
  | none => none
  | some (some r, _, db1) => some (r, db1)
  | some (none, _, db1) => some (TABLE_SUCCESS, db1)

/-! ## A concrete database for evaluation -/

/-- Byte-wise comparator used to evaluate the operators on concrete inputs:
equality and inequality of the byte strings, lexicographic order otherwise. -/
def bytes_compare (_t : datatype_t) (a b : List Byte) (c : condition_t) : Bool :=
  match c with
  | .COND_EQ => a == b
  | .COND_NEQ => a != b
  | .COND_LT => decide (a < b)
  | .COND_LTE => decide (a ≤ b)
  | .COND_GT => decide (b < a)
  | .COND_GTE => decide (b ≤ a)

/-- Byte-wise equality comparator used to evaluate `tab_join`. -/
def bytes_eq (_t : datatype_t) (a b : List Byte) : Bool := a == b

/-- Byte-wise equality comparator that is not reflexive: the key of eight
bytes `255` equals no key, itself included, as a NaN does when floats are
compared by value.  Used to evaluate `tab_join`. -/
def bytes_eq_nan (_t : datatype_t) (a b : List Byte) : Bool :=
  a == b && !(a == List.replicate 8 255)

/-- Value of a key under `bytes_eq_nan`: its bytes; the key of eight bytes
`255` has no value. -/
def bytes_val_nan (a : List Byte) : Option (List Byte) :=
  if a = List.replicate 8 255 then none else some a

/-- Little-endian bytes of a small 64-bit integer (`n < 256`). -/
def i64 (n : Nat) : List Byte := [n, 0, 0, 0, 0, 0, 0, 0]

/-- Rows of table `A` of the join scenario: `(1,"a"), (2,"b"), (2,"c")`. -/
def demo_A_chunks : List chunk_t :=
  [{ chunk_idx := 2, capacity := 6, first_free_block := [3, 4, 5],
     blocks := [some (i64 1 ++ [97, 0, 0, 0]), some (i64 2 ++ [98, 0, 0, 0]),
                some (i64 2 ++ [99, 0, 0, 0]), none, none, none] }]

/-- Rows of table `B` of the join scenario: `(2,10), (2,20), (3,30)`. -/
def demo_B_chunks : List chunk_t :=
  [{ chunk_idx := 4, capacity := 5, first_free_block := [3, 4],
     blocks := [some (i64 2 ++ i64 10), some (i64 2 ++ i64 20), some (i64 3 ++ i64 30),
                none, none] }]

/-- A database with pages of 128 bytes holding the two tables of the join
scenario of the spec: `A(id : int, x : char[4])` (schema 1, table 2) and
`B(id : int, y : int)` (schema 3, table 4).  As in that scenario, a field name
may be repeated across the sides of a join. -/
def demo_db : db_t :=
  { page_size := 128,
    num_pages := 5,
    schemas :=
      [(3, { slot_size := 16, fields := [⟨"id", .DT_INT, 8, 0⟩, ⟨"y", .DT_INT, 8, 8⟩] }),
       (1, { slot_size := 12, fields := [⟨"id", .DT_INT, 8, 0⟩, ⟨"x", .DT_CHAR, 4, 8⟩] })],
    tables :=
      [(4, { name := "B", schidx := 3, block_size := 16, chunks := demo_B_chunks }),
       (2, { name := "A", schidx := 1, block_size := 12, chunks := demo_A_chunks })],
    meta_table := [("A", 2), ("B", 4)],
    sch_unique_names := false }

/-- The database `demo_db` with a schema catalog that rejects a field name the
chain already holds. -/
def demo_db_strict : db_t := { demo_db with sch_unique_names := true }

/-- The database `demo_db` with the first field of `B` named `bid`, so that no
field name is shared by `A` and `B`. -/
def demo_db_renamed : db_t :=
  { demo_db with
    schemas :=
      [(3, { slot_size := 16, fields := [⟨"bid", .DT_INT, 8, 0⟩, ⟨"y", .DT_INT, 8, 8⟩] }),
       (1, { slot_size := 12, fields := [⟨"id", .DT_INT, 8, 0⟩, ⟨"x", .DT_CHAR, 4, 8⟩] })] }

/-- Header of table `B` of `demo_db`. -/
def demo_B : table_t := { tabidx := 4, schidx := 3 }

/-- Header of the schema of table `B` of `demo_db`. -/
def demo_B_schema : schema_t := { schidx := 3, slot_size := 16 }

/-- Header of table `A` of `demo_db`. -/
def demo_A : table_t := { tabidx := 2, schidx := 1 }

/-- Header of the schema of table `A` of `demo_db`. -/
def demo_A_schema : schema_t := { schidx := 1, slot_size := 12 }

/-- Descriptor of the field `id` of table `A`. -/
def demo_id : field_t := ⟨"id", .DT_INT, 8, 0⟩

/-- Descriptor of the field `x` of table `A`. -/
def demo_x : field_t := ⟨"x", .DT_CHAR, 4, 8⟩

/-- A value for the indeterminate content of the uninitialised field
descriptors of `tab_join`. -/
def demo_junk : field_t := ⟨"", .DT_INT, 0, 0⟩

/-! ## Well-formedness predicates used by the statements -/

/-- Chunk indices of a chain are pairwise distinct (every chunk is its own
page). -/
def chain_wf (cs : List chunk_t) : Prop := (cs.map (fun c => c.chunk_idx)).Nodup

instance (cs : List chunk_t) : Decidable (chain_wf cs) := by
  unfold chain_wf; infer_instance

/-- Offsets of a field list are the running sums of the sizes, from `base`. -/
def offsets_from : Nat → List field_t → Prop
  | _, [] => True
  | base, f :: fs => f.offset = base ∧ offsets_from (base + f.size) fs

instance offsets_from_dec : (base : Nat) → (fs : List field_t) → Decidable (offsets_from base fs)
  | _, [] => isTrue trivial
  | base, f :: fs =>
    have := offsets_from_dec (base + f.size) fs
    by unfold offsets_from; infer_instance

/-- Sum of the sizes of a field list. -/
def fields_size (fs : List field_t) : Nat := (fs.map (fun f => f.size)).sum

/-- Names of a field list. -/
def field_names (fs : List field_t) : List String := fs.map (fun f => f.name)

/-- The stored schema `schidx` is one that `sch_init` and `sch_add_field` build:
it is present, its names are distinct, its offsets are the running sums of
the sizes and its slot size is their total; `schema` is its in-memory header. -/
def schema_valid (db : db_t) (schema : schema_t) : Prop :=
  schema.schidx < db.num_pages ∧
  idx_load schema.schidx db.schemas =
    some { slot_size := schema.slot_size, fields := sch_fields db schema.schidx } ∧
  (field_names (sch_fields db schema.schidx)).Nodup ∧
  offsets_from 0 (sch_fields db schema.schidx) ∧
  schema.slot_size = fields_size (sch_fields db schema.schidx)

instance (db : db_t) (schema : schema_t) : Decidable (schema_valid db schema) := by
  unfold schema_valid; infer_instance

/-- The table `table` with schema header `schema` is a stored table of `db`:
it is present, its index and its schema index are pages of the file, its chunk
indices are distinct and every row is a slot of `slot_size` bytes. -/
def table_valid (db : db_t) (table : table_t) (schema : schema_t) : Prop :=
  table.tabidx < db.num_pages ∧
  table.schidx = schema.schidx ∧
  tab_load db table.tabidx = some table ∧
  chain_wf (tab_chunks db table.tabidx) ∧
  ∀ p ∈ tab_rows db table.tabidx, p.2.length = schema.slot_size

instance (db : db_t) (table : table_t) (schema : schema_t) :
    Decidable (table_valid db table schema) := by
  unfold table_valid; infer_instance

/-- A chunk that has only seen allocations: the allocated blocks are a prefix
of the payload and the free list is the rest in increasing order. -/
def chunk_packed (c : chunk_t) : Prop :=
  ∃ rows : List (List Byte),
    c.blocks = rows.map some ++ List.replicate c.first_free_block.length none ∧
    c.first_free_block = List.range' rows.length c.first_free_block.length

/-- Every chunk of the chain is packed. -/
def chain_packed (cs : List chunk_t) : Prop := ∀ c ∈ cs, chunk_packed c

/-- The state after `lb_alloc` differs from the one before by the page count
at most. -/
def same_store (db db1 : db_t) : Prop :=
  db1.page_size = db.page_size ∧ db1.schemas = db.schemas ∧ db1.tables = db.tables ∧
    db1.meta_table = db.meta_table ∧ db.num_pages ≤ db1.num_pages

/-- The loop of `tab_for_each_row` over rows read beforehand: the form the
loop takes when its body leaves the scanned table alone. -/
def rows_loop {ρ : Type} (body : chblix_t → List Byte → db_t → Option ρ × db_t) :
    List (chblix_t × List Byte) → db_t → Option ρ × db_t
  | [], db => (none, db)
  | p :: rest, db =>
    match body p.1 p.2 db with
    | (some r, db1) => (some r, db1)
    | (none, db1) => rows_loop body rest db1

/-- A field list with the offsets replaced by the running sums of the sizes
from `base`: what `sch_add_field` stores when the fields are added in turn. -/
def relocate : Nat → List field_t → List field_t
  | _, [] => []
  | base, f :: fs => ⟨f.name, f.type, f.size, base⟩ :: relocate (base + f.size) fs

/-- Loop body that inserts `g row` into `table` for every row that satisfies
`c`, and returns `x` out of the enclosing function when the insertion fails:
the shape shared by the bodies of select, join and projection. -/
def insert_body {ρ : Type} (table : table_t) (schema : schema_t) (c : List Byte → Bool)
    (g : List Byte → List Byte) (x : ρ) : chblix_t → List Byte → db_t → Option ρ × db_t :=
  fun _ r db =>
    if c r then
      match tab_insert db table schema (g r) with
      | (none, d) => (some x, d)
      | (some _, d) => (none, d)
    else (none, db)

/-- The state `db1` is `db` after the rows `rows` were appended, in that order,
to the scan of the packed table `tabidx` (stored as `t` in `db`); every other
table, the schemas and the metatable are those of `db`. -/
def extends_by (tabidx : Nat) (db db1 : db_t) (t : table_rec) (rows : List (List Byte)) : Prop :=
  ∃ cs, idx_load tabidx db1.tables = some { t with chunks := cs } ∧
    chain_packed cs ∧ cs ≠ [] ∧
    (chain_rows cs).map (fun p => p.2) = (chain_rows t.chunks).map (fun p => p.2) ++ rows ∧
    (∀ k, k ≠ tabidx → idx_load k db1.tables = idx_load k db.tables) ∧
    db1.schemas = db.schemas ∧ db1.meta_table = db.meta_table ∧
    db1.page_size = db.page_size ∧ db.num_pages ≤ db1.num_pages

/-- The loop body `body` appends the rows `out row` to the table `tabidx` when
it does not return, and does not return when a new chunk has room for a block;
`I` is what the body needs of the other tables. -/
def body_appends {ρ : Type} (tabidx : Nat) (I : db_t → Prop)
    (body : chblix_t → List Byte → db_t → Option ρ × db_t)
    (out : List Byte → List (List Byte)) : Prop :=
  ∀ h r db t, I db → idx_load tabidx db.tables = some t → chain_packed t.chunks →
    t.chunks ≠ [] →
    (∀ db1, body h r db = (none, db1) → extends_by tabidx db db1 t (out r)) ∧
    (0 < chunk_capacity db t.block_size → ∃ db1, body h r db = (none, db1))

/-- The row under the handle `h` rewritten by `F`, every other row kept. -/
def upd_at (h : chblix_t) (F : List Byte → List Byte) (p : chblix_t × List Byte) :
    chblix_t × List Byte :=
  if p.1 = h then (p.1, F p.2) else p

/-- Block size recorded for a stored table (0 when the table is absent). -/
def tab_block_size (db : db_t) (tabidx : Nat) : Nat :=
  match idx_load tabidx db.tables with
  | some t => t.block_size
  | none => 0

/-- The loop body `body`, run on the first `slot` bytes of the row `old` under
the handle `h` of the stored table `tablix` (block size `bs`), does not return,
rewrites that row to `G old` and leaves everything else as it is. -/
def body_rewrites (tablix slot bs : Nat)
    (body : chblix_t → List Byte → db_t → Option Int × db_t)
    (G : List Byte → List Byte) : Prop :=
  ∀ h old db t, idx_load tablix db.tables = some t → t.block_size = bs →
    chain_wf t.chunks → (h, old) ∈ chain_rows t.chunks →
    ∃ cs1,
      body h (old.take slot) db =
        (none, { db with tables := idx_store tablix { t with chunks := cs1 } db.tables }) ∧
      chain_rows cs1 = (chain_rows t.chunks).map (upd_at h G) ∧
      cs1.map (fun c => c.chunk_idx) = t.chunks.map (fun c => c.chunk_idx)

/-- Loop body of the update operators: when `c` holds of the row buffer, write
through `W` and return `TABLE_FAIL` out of the function if the write fails. -/
def cond_write_body (c : List Byte → Bool) (W : db_t → chblix_t → List Byte → Int × db_t) :
    chblix_t → List Byte → db_t → Option Int × db_t :=
  fun h el db =>
    if c el then
      match W db h el with
      | (st, d) => if st = TABLE_FAIL then (some TABLE_FAIL, d) else (none, d)
    else (none, db)

/-! ## A table of several chunks for evaluation -/

/-- Five rows `(1,"a"), (2,"b"), (2,"c"), (2,"d"), (3,"e")` in three chunks of
two blocks: the rows with `id = 2` are the second block of the first chunk and
the whole second chunk. -/
def demo_C_chunks : List chunk_t :=
  [{ chunk_idx := 2, capacity := 2, first_free_block := [],
     blocks := [some (i64 1 ++ [97, 0, 0, 0]), some (i64 2 ++ [98, 0, 0, 0])] },
   { chunk_idx := 3, capacity := 2, first_free_block := [],
     blocks := [some (i64 2 ++ [99, 0, 0, 0]), some (i64 2 ++ [100, 0, 0, 0])] },
   { chunk_idx := 4, capacity := 2, first_free_block := [1],
     blocks := [some (i64 3 ++ [101, 0, 0, 0]), none] }]

/-- A database with pages of 72 bytes (two slots of 12 bytes in a chunk) and
one table `C(id : int, x : char[4])` (schema 1, table 2) of three chunks. -/
def demo_db_chunks : db_t :=
  { page_size := 72,
    num_pages := 5,
    schemas := [(1, { slot_size := 12, fields := [⟨"id", .DT_INT, 8, 0⟩, ⟨"x", .DT_CHAR, 4, 8⟩] })],
    tables := [(2, { name := "C", schidx := 1, block_size := 12, chunks := demo_C_chunks })],
    meta_table := [("C", 2)],
    sch_unique_names := false }

/-! ## Invariant of a chunk -/

/-- Free and allocated blocks of a chunk add up to its capacity (spec,
invariants: `num_free_blocks + live_blocks = capacity`). -/
def chunk_ok (c : chunk_t) : Prop := c.num_of_free_blocks + (chunk_rows c).length = c.capacity

instance (c : chunk_t) : Decidable (chunk_ok c) := by
  unfold chunk_ok; infer_instance

/-- Every chunk of the chain satisfies `chunk_ok`. -/
def chain_ok (cs : List chunk_t) : Prop := ∀ c ∈ cs, chunk_ok c

instance (cs : List chunk_t) : Decidable (chain_ok cs) := by
  unfold chain_ok; infer_instance

/-! ## File manager (file_manager.c)

The globals of `file_manager.c` are the fields of `fm_t`, passed explicitly.
The outcome of each operating-system call made during one call of a function
is an input of that function (`os_t`); no function makes the same system call
twice.  `PAGE_SIZE` is a macro of a header and is a parameter here; a window
of `PAGE_SIZE` bytes is taken to be one page of the system.  A result `none`
stands for an access to memory that is not the mapped window of a page of the
file (undefined in C, or a fault of the system). -/

def FILE_SUCCESS : Int := 0
def FILE_FAIL : Int := -1

/-- Values of the pointer `mmaped_data`: `NULL`, `MAP_FAILED` (the value
`mmap` returns on failure, which is not `NULL`), or the address of a window
of the file that starts at the file offset `offset`. -/
inductive ptr_t where
  | NULL
  | MAP_FAILED
  | mapped (offset : Int)
deriving DecidableEq, Repr

/-- Globals of `file_manager.c` (lines 9-13), with the content of the open file
and the windows that were mapped and not yet unmapped (their file offsets).
`file` is the content as the mapped windows show it: a window that reaches past
the end of the file shows zero bytes there, and a byte written there through
the window is kept in `file`. -/
structure fm_t where
  filename : Option String
  fd : Int
  file_size : Nat
  mmaped_data : ptr_t
  page_offset : Int
  file : List Byte
  live : List Int
deriving DecidableEq, Repr

/-- Outcomes of the system calls of one call: the descriptor returned by
`open` (`-1` on failure) with the content of the file it opens, the result of
`lseek(fd, 0, SEEK_END)`, and whether `mmap`, `msync`, `munmap`, `ftruncate`
and `unlink` succeed. -/
structure os_t where
  open_fd : Int
  content : List Byte
  lseek_end : Int
  mmap_ok : Bool
  msync_ok : Bool
  munmap_ok : Bool
  ftruncate_ok : Bool
  unlink_ok : Bool
deriving DecidableEq, Repr

/-- Globals at program start: static storage is zero, `page_offset = 0`. -/
def fm_start : fm_t :=
  { filename := none, fd := 0, file_size := 0, mmaped_data := .NULL, page_offset := 0,
    file := [], live := [] }

/-- The cast `(uint64_t) x`. -/
def to_uint64 (x : Int) : Nat := (x % 2 ^ 64).toNat

/-- The cast `(off_t) n` of a 64-bit unsigned value (`off_t` is 64-bit signed). -/
def to_off_t (n : Nat) : Int := if n % 2 ^ 64 < 2 ^ 63 then (n % 2 ^ 64 : Nat) else (n % 2 ^ 64 : Nat) - 2 ^ 64

/-- `mmap_page(offset)` (file_manager.c 59-75).  The result of `mmap` is stored
in `mmaped_data` before it is compared with `MAP_FAILED`; a window that was
mapped before is not unmapped here. -/
def mmap_page (os : os_t) (st : fm_t) (offset : Int) : Int × fm_t :=
  if st.file_size = 0 then (FILE_FAIL, st)
  else if os.mmap_ok then
    (FILE_SUCCESS, { st with mmaped_data := .mapped offset, page_offset := offset,
                             live := offset :: st.live })
  else (FILE_FAIL, { st with mmaped_data := .MAP_FAILED })

/-- `init_file(file_name)` (file_manager.c 28-50). -/
def init_file (os : os_t) (st : fm_t) (file_name : String) : Int × fm_t :=
  let st1 := { st with filename := some file_name, fd := os.open_fd }
  if os.open_fd = -1 then (FILE_FAIL, st1)
  else
    let st2 := { st1 with file_size := to_uint64 os.lseek_end, file := os.content }
    if st2.file_size ≠ 0 then
      match mmap_page os st2 st2.page_offset with
      | (r, st3) => if r = FILE_FAIL then (FILE_FAIL, st3) else (FILE_SUCCESS, st3)
    else (FILE_SUCCESS, st2)

/-- `sync_page()` (file_manager.c 82-89). -/
def sync_page (os : os_t) (_st : fm_t) : Int :=
  if os.msync_ok then FILE_SUCCESS else FILE_FAIL

/-- `unmap_page()` (file_manager.c 96-113).  A successful `munmap` removes the
window `mmaped_data` points to. -/
def unmap_page (os : os_t) (st : fm_t) : Int × fm_t :=
  if st.file_size = 0 then (FILE_SUCCESS, st)
  else if sync_page os st = FILE_FAIL then (FILE_FAIL, st)
  else if os.munmap_ok = false then (FILE_FAIL, st)
  else
    let live1 := match st.mmaped_data with
      | .mapped o => st.live.erase o
      | _ => st.live
    (FILE_SUCCESS, { st with mmaped_data := .NULL, live := live1 })

/-- `close_file()` (file_manager.c 119-129); `file_size = -1` on a `uint64_t`. -/
def close_file (os : os_t) (st : fm_t) : Int × fm_t :=
  match unmap_page os st with
  | (r, st1) =>
    if r = FILE_FAIL then (FILE_FAIL, st1)
    else (FILE_SUCCESS, { st1 with fd := -1, file_size := to_uint64 (-1) })

/-- `delete_file()` (file_manager.c 135-146). -/
def delete_file (os : os_t) (st : fm_t) : Int × fm_t :=
  if os.unlink_ok = false then (FILE_FAIL, st)
  else
    match close_file os st with
    | (r, st1) => if r = FILE_FAIL then (FILE_FAIL, st1) else (FILE_SUCCESS, st1)

/-- Content of a file after a successful `ftruncate` to `len` bytes: cut, or
extended with zero bytes. -/
def ftruncate (file : List Byte) (len : Int) : List Byte :=
  file.take len.toNat ++ List.replicate (len.toNat - file.length) 0

/-- `init_page()` (file_manager.c 154-170).  The result of `mmap_page` is
logged and not returned. -/
def init_page (PAGE_SIZE : Nat) (os : os_t) (st : fm_t) : Int × fm_t :=
  match (if st.mmaped_data ≠ .NULL then unmap_page os st else (FILE_SUCCESS, st)) with
  | (r0, st1) =>
    if st.mmaped_data ≠ .NULL ∧ r0 = FILE_FAIL then (FILE_FAIL, st1)
    else if os.ftruncate_ok = false then (FILE_FAIL, st1)
    else
      let new_size := (st1.file_size + PAGE_SIZE) % 2 ^ 64
      let st2 := { st1 with file := ftruncate st1.file (to_off_t new_size),
                            page_offset := to_off_t st1.file_size,
                            file_size := new_size }
      match mmap_page os st2 st2.page_offset with
      | (_, st3) => (FILE_SUCCESS, st3)

/-- The window at file offset `o` begins inside the file: its first byte is a
byte of the file.  A window that begins past the end of the file has no byte
that can be accessed. -/
def window_in_file (st : fm_t) (o : Int) : Prop :=
  0 ≤ o ∧ o.toNat < st.file.length

instance (st : fm_t) (o : Int) : Decidable (window_in_file st o) := by
  unfold window_in_file; infer_instance

/-- The bytes `buf` continued with zero bytes up to `n` bytes: what a window
shows of a file that ends before the window does. -/
def zero_pad (buf : List Byte) (n : Nat) : List Byte :=
  buf ++ List.replicate (n - buf.length) 0

/-- Bytes of the page the window at file offset `o` shows: the `PAGE_SIZE`
bytes of the file from `o` on, zero where the file has ended. -/
def mapped_page (PAGE_SIZE : Nat) (st : fm_t) (o : Int) : List Byte :=
  slice (zero_pad st.file (o.toNat + PAGE_SIZE)) o.toNat PAGE_SIZE

/-- `write_page(src, size, offset)` (file_manager.c 181-190): after the test of
`mmaped_data` against `NULL`, `memcpy(mmaped_data + offset, src, size)`.  The
window is a shared mapping of `PAGE_SIZE` bytes: the bytes go to `file`, also
where the window reaches past the end of the file (there they are kept for the
windows only).  The result of `sync_page` is not looked at.  `none`:
`mmaped_data` is `MAP_FAILED`, the window begins past the end of the file, or
the copy leaves the window or the buffer `src`. -/
def write_page (PAGE_SIZE : Nat) (os : os_t) (st : fm_t) (src : List Byte) (size : Nat)
    (offset : Int) : Option (Int × fm_t) :=
  match st.mmaped_data with
  | .NULL => some (FILE_FAIL, st)
  | .MAP_FAILED => none
  | .mapped o =>
    if window_in_file st o ∧ 0 ≤ offset ∧ offset.toNat + size ≤ PAGE_SIZE ∧
        size ≤ src.length then
      let st1 := { st with file := memcpy (zero_pad st.file (o.toNat + offset.toNat + size))
                                     (o.toNat + offset.toNat) src 0 size }
      let _ := sync_page os st1
      some (FILE_SUCCESS, st1)
    else none

/-- `read_page(dest, size, offset)` (file_manager.c 200-208): after the test of
`mmaped_data` against `NULL`, `memcpy(dest, mmaped_data + offset, size)`; the
status and the content of `dest` afterwards.  `none` as for `write_page`. -/
def read_page (PAGE_SIZE : Nat) (st : fm_t) (dest : List Byte) (size : Nat) (offset : Int) :
    Option (Int × List Byte) :=
  match st.mmaped_data with
  | .NULL => some (FILE_FAIL, dest)
  | .MAP_FAILED => none
  | .mapped o =>
    if window_in_file st o ∧ 0 ≤ offset ∧ offset.toNat + size ≤ PAGE_SIZE ∧
        size ≤ dest.length then
      some (FILE_SUCCESS,
        memcpy dest 0 (zero_pad st.file (o.toNat + offset.toNat + size))
          (o.toNat + offset.toNat) size)
    else none

/-! ## Sequences of calls of the file manager -/

/-- A call of one of the functions `init_file`, `mmap_page`, `init_page`,
`unmap_page`, `close_file` with its arguments. -/
inductive fm_op where
  | init_file (file_name : String)
  | mmap_page (offset : Int)
  | init_page
  | unmap_page
  | close_file
  deriving DecidableEq, Repr

/-- One call, with the outcomes of its system calls: status and state after. -/
def fm_step (PAGE_SIZE : Nat) (st : fm_t) (c : os_t × fm_op) : Int × fm_t :=
  match c.2 with
  | .init_file file_name => init_file c.1 st file_name
  | .mmap_page offset => mmap_page c.1 st offset
  | .init_page => init_page PAGE_SIZE c.1 st
  | .unmap_page => unmap_page c.1 st
  | .close_file => close_file c.1 st

/-- State after a sequence of calls. -/
def fm_run (PAGE_SIZE : Nat) : fm_t → List (os_t × fm_op) → fm_t
  | st, [] => st
  | st, c :: cs => fm_run PAGE_SIZE (fm_step PAGE_SIZE st c).2 cs

/-- Statuses returned by the calls of a sequence, in order. -/
def fm_statuses (PAGE_SIZE : Nat) : fm_t → List (os_t × fm_op) → List Int
  | _, [] => []
  | st, c :: cs =>
    (fm_step PAGE_SIZE st c).1 :: fm_statuses PAGE_SIZE (fm_step PAGE_SIZE st c).2 cs

/-- The pointer is the address of a mapped window. -/
def ptr_t.is_window : ptr_t → Bool
  | .mapped _ => true
  | _ => false

/-- The calls that map a window without unmapping the current one. -/
def fm_op.maps_raw : fm_op → Bool
  | .init_file _ => true
  | .mmap_page _ => true
  | _ => false

/-- The live windows are exactly the window `mmaped_data` points to, and a
window is mapped only while `file_size` is not 0. -/
def fm_one_window (st : fm_t) : Bool :=
  match st.mmaped_data with
  | .mapped o => decide (st.file_size ≠ 0) && decide (st.live = [o])
  | _ => decide (st.live = [])

/-- In the sequence, `init_file` and `mmap_page` are only called while
`mmaped_data` is not a mapped window. -/
def fm_disciplined (PAGE_SIZE : Nat) : fm_t → List (os_t × fm_op) → Bool
  | _, [] => true
  | st, c :: cs =>
    (!c.2.maps_raw || !st.mmaped_data.is_window) &&
      fm_disciplined PAGE_SIZE (fm_step PAGE_SIZE st c).2 cs

/-- System calls that all succeed on a file with the given content. -/
def demo_os (content : List Byte) : os_t :=
  { open_fd := 3, content := content, lseek_end := content.length, mmap_ok := true,
    msync_ok := true, munmap_ok := true, ftruncate_ok := true, unlink_ok := true }

/-! # Lemmas and theorems -/

/-! ## Lemmas: index lists and buffers -/

theorem idx_load_store_same {β : Type} (k : Nat) (v v0 : β) (l : List (Nat × β))
    (h : idx_load k l = some v0) : idx_load k (idx_store k v l) = some v := by
  induction l with
  | nil => simp [idx_load] at h
  | cons p rest ih =>
    obtain ⟨k', v'⟩ := p
    by_cases hk : k' = k
    · simp [idx_store, idx_load, hk]
    · simp [idx_store, idx_load, hk] at h ⊢
      exact ih h

theorem idx_load_store_other {β : Type} (k k' : Nat) (v : β) (l : List (Nat × β))
    (hne : k' ≠ k) : idx_load k' (idx_store k v l) = idx_load k' l := by
  induction l with
  | nil => simp [idx_store]
  | cons p rest ih =>
    obtain ⟨k2, v2⟩ := p
    by_cases hk : k2 = k
    · subst hk
      have : ¬ k2 = k' := fun e => hne e.symm
      simp [idx_store, idx_load, this]
    · by_cases hk' : k2 = k'
      · subst hk'
        simp [idx_store, idx_load, hk]
      · simp [idx_store, idx_load, hk, hk', ih]

theorem memcpy_malloc (n : Nat) (src : List Byte) (off : Nat) :
    memcpy (malloc n) 0 src off n = slice src off n := by
  simp [memcpy, malloc]

theorem slice_zero (src : List Byte) (n : Nat) : slice src 0 n = src.take n := by
  simp [slice]

theorem memcpy_self (r : List Byte) (off n : Nat) :
    memcpy r off r off n = r := by
  unfold memcpy slice
  have h1 : (List.drop off r).take n ++ List.drop (off + n) r = List.drop off r := by
    rw [← List.drop_drop]
    exact List.take_append_drop n (List.drop off r)
  rw [List.append_assoc, h1, List.take_append_drop]

/-! ## Lemmas: allocation in a chain that has only seen inserts -/

theorem blocks_rows_free (cidx s k : Nat) :
    blocks_rows cidx s (List.replicate k none) = [] := by
  induction k generalizing s with
  | zero => simp [blocks_rows]
  | succ k ih => simp [List.replicate_succ, blocks_rows, ih]

theorem blocks_rows_snoc (cidx : Nat) (rows : List (List Byte)) (d : List Byte) (s k : Nat) :
    blocks_rows cidx s ((rows ++ [d]).map some ++ List.replicate k none) =
      blocks_rows cidx s (rows.map some ++ List.replicate (k + 1) none) ++
        [({ chunk_idx := cidx, block_idx := s + rows.length }, d)] := by
  induction rows generalizing s with
  | nil => simp [blocks_rows, blocks_rows_free, List.replicate_succ]
  | cons r rs ih =>
    have e := ih (s + 1)
    have : s + 1 + rs.length = s + (rs.length + 1) := by omega
    rw [this] at e
    simp only [List.cons_append, List.map_cons, blocks_rows, List.length_cons,
      List.append_eq, List.cons.injEq, true_and]
    exact e

theorem set_packed (rows : List (List Byte)) (d : List Byte) (k : Nat) :
    (rows.map some ++ List.replicate (k + 1) none).set rows.length (some d) =
      (rows ++ [d]).map some ++ List.replicate k none := by
  induction rows with
  | nil => simp [List.replicate_succ]
  | cons r rs ih => simpa using ih

theorem chunk_init_packed (db : db_t) (bs : Nat) : chunk_packed (chunk_init db bs).1 := by
  refine ⟨[], ?_, ?_⟩
  · simp [chunk_init]
  · simp [chunk_init, List.range_eq_range']

theorem chunk_alloc_packed (c c1 : chunk_t) (d : List Byte) (i : Nat)
    (hp : chunk_packed c) (h : chunk_alloc c d = some (i, c1)) :
    chunk_packed c1 ∧ c1.chunk_idx = c.chunk_idx ∧
      chunk_rows c1 = chunk_rows c ++ [({ chunk_idx := c.chunk_idx, block_idx := i }, d)] := by
  obtain ⟨rows, hb, hf⟩ := hp
  unfold chunk_alloc at h
  cases hfl : c.first_free_block with
  | nil => simp [hfl] at h
  | cons j rest =>
    rw [hfl] at h hb hf
    simp only [Option.some.injEq, Prod.mk.injEq] at h
    obtain ⟨hji, hc1⟩ := h
    subst hji
    simp only [List.length_cons] at hb hf
    rw [List.range'_succ] at hf
    simp only [List.cons.injEq] at hf
    obtain ⟨hj, hrest⟩ := hf
    subst hj
    have hset := set_packed rows d rest.length
    refine ⟨⟨rows ++ [d], ?_, ?_⟩, ?_, ?_⟩
    · rw [← hc1]; simp only []; rw [hb, hset]
    · rw [← hc1]; simp only [List.length_append, List.length_singleton]; exact hrest
    · rw [← hc1]
    · unfold chunk_rows
      rw [← hc1]
      simp only []
      rw [hb, hset, blocks_rows_snoc]
      simp

theorem chunk_alloc_some (c : chunk_t) (d : List Byte) (h : c.first_free_block ≠ []) :
    ∃ i c1, chunk_alloc c d = some (i, c1) := by
  unfold chunk_alloc
  cases hfl : c.first_free_block with
  | nil => exact absurd hfl h
  | cons j rest => exact ⟨j, _, rfl⟩

theorem chain_rows_append (a b : List chunk_t) :
    chain_rows (a ++ b) = chain_rows a ++ chain_rows b := by
  induction a with
  | nil => simp [chain_rows]
  | cons c cs ih => simp [chain_rows, ih]

theorem lb_alloc_packed_store (db : db_t) (bs : Nat) (d : List Byte) (cs : List chunk_t)
    (h cs1 db1) (hr : lb_alloc db bs d cs = some (h, cs1, db1)) : same_store db db1 := by
  induction cs generalizing cs1 with
  | nil => simp [lb_alloc] at hr
  | cons c rest ih =>
    cases rest with
    | nil =>
      simp only [lb_alloc] at hr
      cases hca : chunk_alloc c d with
      | some p =>
        obtain ⟨i, c1⟩ := p
        rw [hca] at hr
        simp only [Option.some.injEq, Prod.mk.injEq] at hr
        obtain ⟨_, _, hdb⟩ := hr
        subst hdb
        exact ⟨rfl, rfl, rfl, rfl, le_refl _⟩
      | none =>
        rw [hca] at hr
        simp only [] at hr
        cases hcn : chunk_alloc (chunk_init db bs).1 d with
        | none => rw [hcn] at hr; simp at hr
        | some p =>
          obtain ⟨i, n1⟩ := p
          rw [hcn] at hr
          simp only [Option.some.injEq, Prod.mk.injEq] at hr
          obtain ⟨_, _, hdb⟩ := hr
          subst hdb
          exact ⟨rfl, rfl, rfl, rfl, by simp [chunk_init]⟩
    | cons c2 cs =>
      simp only [lb_alloc] at hr
      cases hrec : lb_alloc db bs d (c2 :: cs) with
      | none => rw [hrec] at hr; simp at hr
      | some p =>
        obtain ⟨h', cs', db'⟩ := p
        rw [hrec] at hr
        simp only [Option.some.injEq, Prod.mk.injEq] at hr
        obtain ⟨hh, _, hdb⟩ := hr
        subst hh hdb
        exact ih cs' hrec

theorem lb_alloc_packed (db : db_t) (bs : Nat) (d : List Byte) (cs : List chunk_t)
    (hp : chain_packed cs) (h cs1 db1) (hr : lb_alloc db bs d cs = some (h, cs1, db1)) :
    chain_packed cs1 ∧ chain_rows cs1 = chain_rows cs ++ [(h, d)] ∧ same_store db db1 := by
  induction cs generalizing cs1 with
  | nil => simp [lb_alloc] at hr
  | cons c rest ih =>
    cases rest with
    | nil =>
      simp only [lb_alloc] at hr
      cases hca : chunk_alloc c d with
      | some p =>
        obtain ⟨i, c1⟩ := p
        rw [hca] at hr
        simp only [Option.some.injEq, Prod.mk.injEq] at hr
        obtain ⟨hh, hcs, hdb⟩ := hr
        subst hh hcs hdb
        obtain ⟨h1, _, h3⟩ := chunk_alloc_packed c c1 d i (hp c (by simp)) hca
        refine ⟨?_, ?_, ⟨rfl, rfl, rfl, rfl, le_refl _⟩⟩
        · intro x hx
          simp only [List.mem_singleton] at hx
          subst hx; exact h1
        · simp [chain_rows, h3]
      | none =>
        rw [hca] at hr
        simp only [] at hr
        cases hcn : chunk_alloc (chunk_init db bs).1 d with
        | none => rw [hcn] at hr; simp at hr
        | some p =>
          obtain ⟨i, n1⟩ := p
          rw [hcn] at hr
          simp only [Option.some.injEq, Prod.mk.injEq] at hr
          obtain ⟨hh, hcs, hdb⟩ := hr
          subst hh hcs hdb
          obtain ⟨h1, _, h3⟩ := chunk_alloc_packed _ n1 d i (chunk_init_packed db bs) hcn
          have hempty : chunk_rows (chunk_init db bs).1 = [] := by
            simp [chunk_rows, chunk_init, blocks_rows_free]
          refine ⟨?_, ?_, ?_⟩
          · intro x hx
            simp only [List.mem_cons, List.mem_singleton, List.not_mem_nil, or_false] at hx
            rcases hx with hx | hx
            · subst hx; exact hp x (by simp)
            · subst hx; exact h1
          · simp [chain_rows, h3, hempty]
          · exact ⟨rfl, rfl, rfl, rfl, by simp [chunk_init]⟩
    | cons c2 cs =>
      simp only [lb_alloc] at hr
      cases hrec : lb_alloc db bs d (c2 :: cs) with
      | none => rw [hrec] at hr; simp at hr
      | some p =>
        obtain ⟨h', cs', db'⟩ := p
        rw [hrec] at hr
        simp only [Option.some.injEq, Prod.mk.injEq] at hr
        obtain ⟨hh, hcs, hdb⟩ := hr
        subst hh hcs hdb
        have hp2 : chain_packed (c2 :: cs) := fun x hx => hp x (List.mem_cons_of_mem _ hx)
        obtain ⟨i1, i2, i3⟩ := ih hp2 cs' hrec
        refine ⟨?_, ?_, i3⟩
        · intro x hx
          simp only [List.mem_cons] at hx
          rcases hx with hx | hx
          · subst hx; exact hp x (by simp)
          · exact i1 x (by simpa using hx)
        · simp only [chain_rows] at i2 ⊢
          rw [i2]; simp

/-- Allocation succeeds in a non-empty chain when a new chunk has room. -/
theorem lb_alloc_some (db : db_t) (bs : Nat) (d : List Byte) (cs : List chunk_t)
    (hne : cs ≠ []) (hcap : 0 < chunk_capacity db bs) :
    ∃ r, lb_alloc db bs d cs = some r := by
  induction cs with
  | nil => exact absurd rfl hne
  | cons c rest ih =>
    cases rest with
    | nil =>
      simp only [lb_alloc]
      cases hca : chunk_alloc c d with
      | some p => exact ⟨_, rfl⟩
      | none =>
        have hfree : (chunk_init db bs).1.first_free_block ≠ [] := by
          simp only [chunk_init]
          intro hnil
          have := congrArg List.length hnil
          simp at this
          omega
        obtain ⟨i, c1, hc⟩ := chunk_alloc_some (chunk_init db bs).1 d hfree
        simp only []
        rw [hc]
        exact ⟨_, rfl⟩
    | cons c2 cs =>
      obtain ⟨r, hr⟩ := ih (by simp)
      simp only [lb_alloc]
      rw [hr]
      exact ⟨_, rfl⟩

/-! ## Lemmas: reading the rows of a chain -/

theorem mem_blocks_rows (cidx : Nat) (bs : List (Option (List Byte))) (s : Nat)
    (p : chblix_t × List Byte) (hp : p ∈ blocks_rows cidx s bs) :
    p.1.chunk_idx = cidx ∧ s ≤ p.1.block_idx ∧ blocks_read (p.1.block_idx - s) bs = some p.2 := by
  induction bs generalizing s with
  | nil => simp [blocks_rows] at hp
  | cons b rest ih =>
    cases b with
    | none =>
      simp only [blocks_rows] at hp
      obtain ⟨h1, h2, h3⟩ := ih (s + 1) hp
      refine ⟨h1, by omega, ?_⟩
      have : p.1.block_idx - s = (p.1.block_idx - (s + 1)) + 1 := by omega
      rw [this]; simpa [blocks_read] using h3
    | some r =>
      simp only [blocks_rows, List.mem_cons] at hp
      rcases hp with hp | hp
      · subst hp; simp [blocks_read]
      · obtain ⟨h1, h2, h3⟩ := ih (s + 1) hp
        refine ⟨h1, by omega, ?_⟩
        have : p.1.block_idx - s = (p.1.block_idx - (s + 1)) + 1 := by omega
        rw [this]; simpa [blocks_read] using h3

theorem mem_chain_rows_idx (cs : List chunk_t) (p : chblix_t × List Byte)
    (hp : p ∈ chain_rows cs) : p.1.chunk_idx ∈ cs.map (fun c => c.chunk_idx) := by
  induction cs with
  | nil => simp [chain_rows] at hp
  | cons c rest ih =>
    simp only [chain_rows, List.mem_append] at hp
    rcases hp with hp | hp
    · have := (mem_blocks_rows c.chunk_idx c.blocks 0 p hp).1
      simp [this]
    · simp only [List.map_cons, List.mem_cons]
      exact Or.inr (ih hp)

theorem chain_read_of_mem (cs : List chunk_t) (hwf : chain_wf cs) (p : chblix_t × List Byte)
    (hp : p ∈ chain_rows cs) : chain_read p.1 cs = some p.2 := by
  induction cs with
  | nil => simp [chain_rows] at hp
  | cons c rest ih =>
    unfold chain_wf at hwf
    simp only [List.map_cons, List.nodup_cons] at hwf
    simp only [chain_rows, List.mem_append] at hp
    rcases hp with hp | hp
    · obtain ⟨h1, _, h3⟩ := mem_blocks_rows c.chunk_idx c.blocks 0 p hp
      simp only [chain_read, h1, if_true]
      simpa using h3
    · have hidx := mem_chain_rows_idx rest p hp
      have hne : ¬ c.chunk_idx = p.1.chunk_idx := by
        intro e; rw [← e] at hidx; exact hwf.1 hidx
      simp only [chain_read, hne, if_false]
      exact ih hwf.2 hp

/-! ## Lemmas: the row loop -/

/-- A property kept by the body is kept by the loop. -/
theorem for_each_inv {ρ : Type} (table : table_t) (schema : schema_t)
    (body : chblix_t → List Byte → db_t → Option ρ × db_t) (Inv : db_t → Prop)
    (hb : ∀ h r db, Inv db → Inv (body h r db).2) (hs : List chblix_t) (db : db_t)
    (h0 : Inv db) : Inv (tab_for_each_row table schema body hs db).2 := by
  induction hs generalizing db with
  | nil => simpa [tab_for_each_row] using h0
  | cons h rest ih =>
    simp only [tab_for_each_row]
    cases hr : tab_read_row db table.tabidx h with
    | none => exact ih db h0
    | some block =>
      simp only []
      have hb1 := hb h (block.take schema.slot_size) db h0
      cases hbody : body h (block.take schema.slot_size) db with
      | mk o db1 =>
        rw [hbody] at hb1
        cases o with
        | some r => exact hb1
        | none => exact ih db1 hb1

/-- When the body leaves the row chain of the scanned table alone, the loop
runs the body on the rows of the table at loop entry, in scan order. -/
theorem for_each_eq_rows_loop {ρ : Type} (table : table_t) (schema : schema_t)
    (body : chblix_t → List Byte → db_t → Option ρ × db_t) (C : List chunk_t)
    (hwf : chain_wf C)
    (hb : ∀ h r db, tab_chunks db table.tabidx = C → tab_chunks (body h r db).2 table.tabidx = C)
    (L : List (chblix_t × List Byte)) (hL : ∀ p ∈ L, p ∈ chain_rows C)
    (db : db_t) (h0 : tab_chunks db table.tabidx = C) :
    tab_for_each_row table schema body (L.map (fun p => p.1)) db =
      rows_loop body (L.map (fun p => (p.1, p.2.take schema.slot_size))) db := by
  induction L generalizing db with
  | nil => simp [tab_for_each_row, rows_loop]
  | cons p rest ih =>
    have hread : tab_read_row db table.tabidx p.1 = some p.2 := by
      unfold tab_read_row; rw [h0]
      exact chain_read_of_mem C hwf p (hL p (by simp))
    simp only [List.map_cons, tab_for_each_row, rows_loop, hread]
    have hb1 := hb p.1 (p.2.take schema.slot_size) db h0
    cases hbody : body p.1 (p.2.take schema.slot_size) db with
    | mk o db1 =>
      rw [hbody] at hb1
      cases o with
      | some r => rfl
      | none => exact ih (fun q hq => hL q (List.mem_cons_of_mem _ hq)) db1 hb1

/-! ## Lemmas: insertion into a table -/

theorem tab_chunks_of_load (db : db_t) (k : Nat) (t : table_rec)
    (h : idx_load k db.tables = some t) : tab_chunks db k = t.chunks := by
  simp [tab_chunks, h]

/-- A failed insertion changes nothing. -/
theorem tab_insert_none (db db1 : db_t) (table : table_t) (schema : schema_t) (row : List Byte)
    (h : tab_insert db table schema row = (none, db1)) : db1 = db := by
  unfold tab_insert at h
  cases hl : idx_load table.tabidx db.tables with
  | none => rw [hl] at h; simp at h; exact h.symm
  | some t =>
    rw [hl] at h
    simp only [] at h
    cases ha : lb_alloc db t.block_size (List.take schema.slot_size row) t.chunks with
    | none => rw [ha] at h; simp at h; exact h.symm
    | some r => obtain ⟨a, b, c⟩ := r; rw [ha] at h; simp at h

/-- A successful insertion into a packed table appends the row to the scan of
that table and leaves every other table, the schemas and the metatable alone. -/
theorem tab_insert_some (db db1 : db_t) (table : table_t) (schema : schema_t) (row : List Byte)
    (hd : chblix_t) (t : table_rec) (hl : idx_load table.tabidx db.tables = some t)
    (hp : chain_packed t.chunks)
    (h : tab_insert db table schema row = (some hd, db1)) :
    ∃ cs, idx_load table.tabidx db1.tables = some { t with chunks := cs } ∧
      chain_packed cs ∧ cs ≠ [] ∧
      chain_rows cs = chain_rows t.chunks ++ [(hd, row.take schema.slot_size)] ∧
      (∀ k, k ≠ table.tabidx → idx_load k db1.tables = idx_load k db.tables) ∧
      db1.schemas = db.schemas ∧ db1.meta_table = db.meta_table ∧
      db1.page_size = db.page_size ∧ db.num_pages ≤ db1.num_pages := by
  unfold tab_insert at h
  rw [hl] at h
  simp only [] at h
  cases ha : lb_alloc db t.block_size (List.take schema.slot_size row) t.chunks with
  | none => rw [ha] at h; simp at h
  | some r =>
    obtain ⟨a, cs, db2⟩ := r
    rw [ha] at h
    simp only [Prod.mk.injEq, Option.some.injEq] at h
    obtain ⟨h1, h2⟩ := h
    subst h1
    obtain ⟨p1, p2, p3, p4, p5, p6, p7⟩ := lb_alloc_packed db t.block_size _ t.chunks hp a cs db2 ha
    refine ⟨cs, ?_, p1, ?_, p2, ?_, ?_, ?_, ?_, ?_⟩
    · rw [← h2]; simp only [p5]
      exact idx_load_store_same _ _ t _ hl
    · intro e; rw [e] at p2; simp [chain_rows] at p2
    · intro k hk
      rw [← h2]; simp only [p5]
      exact idx_load_store_other _ _ _ _ hk
    · rw [← h2]; exact p4
    · rw [← h2]; exact p6
    · rw [← h2]; exact p3
    · rw [← h2]; exact p7

/-- Insertion succeeds when the table is stored with a non-empty chain and a
new chunk has room for a block. -/
theorem tab_insert_succeeds (db : db_t) (table : table_t) (schema : schema_t) (row : List Byte)
    (t : table_rec) (hl : idx_load table.tabidx db.tables = some t) (hne : t.chunks ≠ [])
    (hcap : 0 < chunk_capacity db t.block_size) :
    ∃ hd db1, tab_insert db table schema row = (some hd, db1) := by
  unfold tab_insert
  rw [hl]
  obtain ⟨r, hr⟩ := lb_alloc_some db t.block_size (List.take schema.slot_size row) t.chunks hne hcap
  obtain ⟨a, cs, db2⟩ := r
  simp only [hr]
  exact ⟨_, _, rfl⟩

/-! ## Lemmas: building a schema -/

theorem relocate_of_offsets (base : Nat) (fs : List field_t) (h : offsets_from base fs) :
    relocate base fs = fs := by
  induction fs generalizing base with
  | nil => rfl
  | cons f rest ih =>
    obtain ⟨h1, h2⟩ := h
    simp only [relocate, ih _ h2]
    cases f
    simp only [field_t.mk.injEq, List.cons.injEq, and_true, true_and]
    exact h1.symm

theorem field_names_relocate (base : Nat) (fs : List field_t) :
    field_names (relocate base fs) = field_names fs := by
  induction fs generalizing base with
  | nil => rfl
  | cons f rest ih =>
    have := ih (base + f.size)
    simp only [field_names] at this ⊢
    simp [relocate, this]

theorem sch_add_field_fresh (db : db_t) (s : schema_t) (x : Nat) (F0 : List field_t)
    (f : field_t) (hl : idx_load s.schidx db.schemas = some { slot_size := x, fields := F0 })
    (hn : db.sch_unique_names = true → f.name ∉ field_names F0) :
    sch_add_field db s f.name f.type f.size =
      (SCHEMA_SUCCESS, { s with slot_size := s.slot_size + f.size },
       { db with schemas := idx_store s.schidx (schema_rec.mk (s.slot_size + f.size)
           (F0 ++ [(⟨f.name, f.type, f.size, s.slot_size⟩ : field_t)])) db.schemas }) := by
  unfold sch_add_field
  rw [hl]
  simp only [field_names] at hn
  have hc : ¬ (db.sch_unique_names = true ∧ f.name ∈ List.map (fun f => f.name) F0) :=
    fun h => hn h.1 h.2
  simp only [hc, if_false]

theorem sch_add_field_dup (db : db_t) (s : schema_t) (x : Nat) (F0 : List field_t)
    (f : field_t) (hl : idx_load s.schidx db.schemas = some { slot_size := x, fields := F0 })
    (hu : db.sch_unique_names = true) (hn : f.name ∈ field_names F0) :
    sch_add_field db s f.name f.type f.size = (SCHEMA_FAIL, s, db) := by
  unfold sch_add_field
  rw [hl]
  simp only [field_names] at hn
  simp only [hu, hn, and_self, if_true]

/-- The field loop does not change the answer of the catalog to a repeated name. -/
theorem add_fields_unique_names (fs : List field_t) (s : schema_t) (db : db_t) :
    (add_fields fs s db).2.2.sch_unique_names = db.sch_unique_names := by
  induction fs generalizing s db with
  | nil => rfl
  | cons f rest ih =>
    simp only [add_fields]
    have h1 : (sch_add_field db s f.name f.type f.size).2.2.sch_unique_names =
        db.sch_unique_names := by
      unfold sch_add_field
      cases idx_load s.schidx db.schemas with
      | none => rfl
      | some r =>
        simp only
        split <;> rfl
    cases hr : sch_add_field db s f.name f.type f.size with
    | mk st rest2 =>
      obtain ⟨s1, db1⟩ := rest2
      rw [hr] at h1
      simp only at h1 ⊢
      split
      · exact h1
      · rw [ih s1 db1]; exact h1

/-- Adding the fields `fs` one by one to a stored schema whose names are `F0`
succeeds when no name is repeated, and whatever the names are when the catalog
accepts a repeated name. -/
theorem add_fields_true (fs : List field_t) (s : schema_t) (db : db_t) (x : Nat)
    (F0 : List field_t) (hl : idx_load s.schidx db.schemas = some { slot_size := x, fields := F0 })
    (hp : db.sch_unique_names = true → (field_names (F0 ++ fs)).Nodup) :
    (add_fields fs s db).1 = true := by
  induction fs generalizing s db x F0 with
  | nil => rfl
  | cons f rest ih =>
    have hn : db.sch_unique_names = true → f.name ∉ field_names F0 := by
      intro hu hm
      have h := hp hu
      simp only [field_names, List.map_append, List.map_cons] at h hm
      rw [List.nodup_append] at h
      exact h.2.2 hm (by simp)
    simp only [add_fields, sch_add_field_fresh db s x F0 f hl hn]
    have hss : ¬ SCHEMA_SUCCESS = SCHEMA_FAIL := by decide
    simp only [hss, if_false]
    have hl1 := idx_load_store_same s.schidx (schema_rec.mk (s.slot_size + f.size)
      (F0 ++ [(⟨f.name, f.type, f.size, s.slot_size⟩ : field_t)])) _ db.schemas hl
    apply ih { s with slot_size := s.slot_size + f.size } _ _ _ hl1
    intro hu
    have h := hp hu
    simpa [field_names] using h

/-- With a catalog that rejects a repeated name, adding the fields `fs` one by
one to a stored schema whose names are `F0` succeeds exactly when no name is
repeated. -/
theorem add_fields_true_iff (fs : List field_t) (s : schema_t) (db : db_t) (x : Nat)
    (F0 : List field_t) (hl : idx_load s.schidx db.schemas = some { slot_size := x, fields := F0 })
    (hu : db.sch_unique_names = true) (h0 : (field_names F0).Nodup) :
    (add_fields fs s db).1 = true ↔ (field_names (F0 ++ fs)).Nodup := by
  induction fs generalizing s db x F0 with
  | nil => simp [add_fields, h0]
  | cons f rest ih =>
    by_cases hn : f.name ∈ field_names F0
    · simp only [add_fields, sch_add_field_dup db s x F0 f hl hu hn, SCHEMA_FAIL, if_true]
      simp only [field_names, List.map_append, List.map_cons] at hn ⊢
      constructor
      · intro h; cases h
      · intro h
        rw [List.nodup_append] at h
        exact absurd hn (fun hm => h.2.2 hm (by simp))
    · simp only [add_fields, sch_add_field_fresh db s x F0 f hl (fun _ => hn)]
      have hss : ¬ SCHEMA_SUCCESS = SCHEMA_FAIL := by decide
      simp only [hss, if_false]
      have hl1 := idx_load_store_same s.schidx (schema_rec.mk (s.slot_size + f.size)
        (F0 ++ [(⟨f.name, f.type, f.size, s.slot_size⟩ : field_t)])) _ db.schemas hl
      have h1 : (field_names (F0 ++ [(⟨f.name, f.type, f.size, s.slot_size⟩ : field_t)])).Nodup := by
        simp only [field_names, List.map_append, List.map_cons, List.map_nil]
        rw [List.nodup_append]
        refine ⟨h0, by simp, ?_⟩
        intro a ha hb
        simp only [List.mem_singleton] at hb
        subst hb
        exact hn (by simpa [field_names] using ha)
      refine (ih { s with slot_size := s.slot_size + f.size } _ _ _ hl1 ?_ h1).trans ?_
      · exact hu
      · simp [field_names]

/-- A successful run of the field loop: the header carries the new slot size
and the stored chain is extended by the fields, relocated. -/
theorem add_fields_ok (fs : List field_t) (s s1 : schema_t) (db db1 : db_t)
    (F0 : List field_t)
    (hl : idx_load s.schidx db.schemas = some { slot_size := s.slot_size, fields := F0 })
    (h : add_fields fs s db = (true, s1, db1)) :
    s1.schidx = s.schidx ∧ s1.slot_size = s.slot_size + fields_size fs ∧
      idx_load s.schidx db1.schemas =
        some { slot_size := s1.slot_size, fields := F0 ++ relocate s.slot_size fs } ∧
      (∀ k, k ≠ s.schidx → idx_load k db1.schemas = idx_load k db.schemas) ∧
      db1.tables = db.tables ∧ db1.meta_table = db.meta_table ∧
      db1.num_pages = db.num_pages ∧ db1.page_size = db.page_size := by
  induction fs generalizing s db F0 with
  | nil =>
    simp only [add_fields, Prod.mk.injEq, true_and] at h
    obtain ⟨h1, h2⟩ := h
    subst h1 h2
    simp [fields_size, relocate, hl]
  | cons f rest ih =>
    by_cases hn : db.sch_unique_names = true ∧ f.name ∈ field_names F0
    · simp [add_fields, sch_add_field_dup db s _ F0 f hl hn.1 hn.2, SCHEMA_FAIL] at h
    · simp only [add_fields, sch_add_field_fresh db s _ F0 f hl (fun hu hm => hn ⟨hu, hm⟩)] at h
      have hss : ¬ SCHEMA_SUCCESS = SCHEMA_FAIL := by decide
      simp only [hss, if_false] at h
      have hl1 := idx_load_store_same s.schidx (schema_rec.mk (s.slot_size + f.size)
        (F0 ++ [(⟨f.name, f.type, f.size, s.slot_size⟩ : field_t)])) _ db.schemas hl
      obtain ⟨a1, a2, a3, a4, a5, a6, a7, a8⟩ :=
        ih { s with slot_size := s.slot_size + f.size } _ _ hl1 h
      simp only at a1 a2 a3 a4 a5 a6 a7 a8
      refine ⟨a1, ?_, ?_, ?_, a5, a6, a7, a8⟩
      · rw [a2]; simp [fields_size]; omega
      · rw [a3]; simp [relocate]
      · intro k hk
        rw [a4 k hk]
        exact idx_load_store_other _ _ _ _ hk

/-! ## Lemmas: creating a table -/

theorem tab_init_eq (db : db_t) (name : String) (schema : schema_t) :
    tab_init db name schema =
      (some { tabidx := db.num_pages, schidx := schema.schidx },
       { page_size := db.page_size, num_pages := db.num_pages + 1, schemas := db.schemas,
         tables := (db.num_pages,
                    { name := name, schidx := schema.schidx, block_size := schema.slot_size,
                      chunks := [(chunk_init db schema.slot_size).1] }) :: db.tables,
         meta_table := if name ∈ db.meta_table.map (fun r => r.1) then db.meta_table
                       else db.meta_table ++ [(name, db.num_pages)],
         sch_unique_names := db.sch_unique_names }) := by
  unfold tab_init tab_base_init mtab_add
  by_cases h : name ∈ db.meta_table.map (fun r => r.1)
  · simp [h, chunk_init]
  · simp [h, chunk_init]

theorem tab_insert_frame (db : db_t) (table : table_t) (schema : schema_t) (row : List Byte)
    (k : Nat) (hk : k ≠ table.tabidx) :
    idx_load k (tab_insert db table schema row).2.tables = idx_load k db.tables := by
  unfold tab_insert
  cases hl : idx_load table.tabidx db.tables with
  | none => rfl
  | some t =>
    simp only []
    cases ha : lb_alloc db t.block_size (List.take schema.slot_size row) t.chunks with
    | none => rfl
    | some r =>
      obtain ⟨a, cs, db2⟩ := r
      simp only []
      have := (lb_alloc_packed_store db t.block_size _ t.chunks a cs db2 ha)
      rw [this.2.2.1]
      exact idx_load_store_other _ _ _ _ hk

/-! ## Lemmas: loops that fill a new table -/

theorem extends_by_refl (tabidx : Nat) (db : db_t) (t : table_rec)
    (hl : idx_load tabidx db.tables = some t) (hp : chain_packed t.chunks) (hne : t.chunks ≠ []) :
    extends_by tabidx db db t [] :=
  ⟨t.chunks, by simpa using hl, hp, hne, by simp, fun _ _ => rfl, rfl, rfl, rfl, le_refl _⟩

theorem extends_by_trans (tabidx : Nat) (db db1 db2 : db_t) (t : table_rec)
    (r1 r2 : List (List Byte)) (cs1 : List chunk_t)
    (hl1 : idx_load tabidx db1.tables = some { t with chunks := cs1 })
    (h1 : extends_by tabidx db db1 t r1)
    (h2 : extends_by tabidx db1 db2 { t with chunks := cs1 } r2) :
    extends_by tabidx db db2 t (r1 ++ r2) := by
  obtain ⟨cs, a1, a2, a3, a4, a5, a6, a7, a8, a9⟩ := h1
  obtain ⟨cs', b1, b2, b3, b4, b5, b6, b7, b8, b9⟩ := h2
  rw [hl1] at a1
  simp only [Option.some.injEq, table_rec.mk.injEq, true_and] at a1
  subst a1
  refine ⟨cs', b1, b2, b3, ?_, ?_, b6.trans a6, b7.trans a7, b8.trans a8, le_trans a9 b9⟩
  · rw [b4]; simp only []; rw [a4, List.append_assoc]
  · intro k hk; rw [b5 k hk, a5 k hk]

/-- A loop whose body appends rows appends, in scan order, the rows of every
iteration; it runs to the end when a new chunk has room for a block. -/
theorem rows_loop_appends {ρ : Type} (tabidx : Nat) (I : db_t → Prop)
    (body : chblix_t → List Byte → db_t → Option ρ × db_t)
    (out : List Byte → List (List Byte)) (hbody : body_appends tabidx I body out)
    (hI : ∀ db db1 t rows, I db → extends_by tabidx db db1 t rows → I db1)
    (L : List (chblix_t × List Byte)) (db : db_t) (t : table_rec) (h0 : I db)
    (hl : idx_load tabidx db.tables = some t) (hp : chain_packed t.chunks)
    (hne : t.chunks ≠ []) :
    (∀ db1, rows_loop body L db = (none, db1) →
        extends_by tabidx db db1 t (((L.map (fun p => p.2)).map out).flatten)) ∧
    (0 < chunk_capacity db t.block_size → ∃ db1, rows_loop body L db = (none, db1)) := by
  induction L generalizing db t with
  | nil =>
    refine ⟨?_, fun _ => ⟨db, rfl⟩⟩
    intro db1 h
    simp only [rows_loop, Prod.mk.injEq, true_and] at h
    subst h
    simpa using extends_by_refl tabidx db t hl hp hne
  | cons p rest ih =>
    obtain ⟨hb1, hb2⟩ := hbody p.1 p.2 db t h0 hl hp hne
    constructor
    · intro db1 h
      simp only [rows_loop] at h
      cases hbd : body p.1 p.2 db with
      | mk o d =>
        rw [hbd] at h
        cases o with
        | some r => simp at h
        | none =>
          simp only [] at h
          have e1 := hb1 d hbd
          obtain ⟨cs, a1, a2, a3, _⟩ := e1
          have e2 := (ih d { t with chunks := cs } (hI db d t _ h0 (hb1 d hbd)) a1 a2 a3).1 db1 h
          simpa using extends_by_trans tabidx db d db1 t _ _ cs a1 (hb1 d hbd) e2
    · intro hcap
      obtain ⟨d, hd⟩ := hb2 hcap
      have e1 := hb1 d hd
      obtain ⟨cs, a1, a2, a3, _, _, _, _, a8, _⟩ := e1
      have hcap' : 0 < chunk_capacity d ({ t with chunks := cs } : table_rec).block_size := by
        simpa [chunk_capacity, a8] using hcap
      obtain ⟨db1, h1⟩ :=
        (ih d { t with chunks := cs } (hI db d t _ h0 (hb1 d hd)) a1 a2 a3).2 hcap'
      exact ⟨db1, by simp only [rows_loop, hd, h1]⟩

theorem insert_body_appends {ρ : Type} (table : table_t) (schema : schema_t)
    (c : List Byte → Bool) (g : List Byte → List Byte) (x : ρ) (I : db_t → Prop) :
    body_appends table.tabidx I (insert_body table schema c g x)
      (fun r => if c r then [(g r).take schema.slot_size] else []) := by
  intro h r db t _ hl hp hne
  unfold insert_body
  cases hc : c r with
  | false =>
    simp only [Bool.false_eq_true, if_false]
    refine ⟨?_, fun _ => ⟨db, rfl⟩⟩
    intro db1 e
    simp only [Prod.mk.injEq, true_and] at e
    subst e
    simpa [hc] using extends_by_refl _ db t hl hp hne
  | true =>
    simp only [if_true]
    constructor
    · intro db1 e
      cases hi : tab_insert db table schema (g r) with
      | mk o d =>
        rw [hi] at e
        cases o with
        | none => simp at e
        | some hd =>
          simp only [Prod.mk.injEq, true_and] at e
          subst e
          obtain ⟨cs, a1, a2, a3, a4, a5⟩ := tab_insert_some db d table schema (g r) hd t hl hp hi
          exact ⟨cs, a1, a2, a3, by rw [a4]; simp [hc], a5⟩
    · intro hcap
      obtain ⟨hd, d, hi⟩ := tab_insert_succeeds db table schema (g r) t hl hne hcap
      exact ⟨d, by rw [hi]⟩

theorem map_id_of {α : Type} (f : α → α) (L : List α) (h : ∀ a ∈ L, f a = a) :
    L.map f = L := by
  induction L with
  | nil => rfl
  | cons a rest ih =>
    simp only [List.map_cons, h a (by simp), List.cons.injEq, true_and]
    exact ih (fun b hb => h b (List.mem_cons_of_mem _ hb))

theorem join_filter_map (c : List Byte → Bool) (f : List Byte → List Byte)
    (L : List (List Byte)) :
    (L.map (fun r => if c r then [f r] else [])).flatten = (L.filter c).map f := by
  induction L with
  | nil => rfl
  | cons a rest ih =>
    cases h : c a <;> simp [List.filter, h, ih]

/-! ## Select -/

theorem select_body_eq (cmp : datatype_t → List Byte → List Byte → condition_t → Bool)
    (table : table_t) (schema : schema_t) (sf : field_t) (cond : condition_t)
    (cv : List Byte) (type : datatype_t) :
    select_body cmp table schema sf cond cv type =
      insert_body table schema (fun r => cmp type (slice r sf.offset sf.size) cv cond)
        (fun r => r.take schema.slot_size) () := by
  funext h r db
  simp only [select_body, insert_body, memcpy_malloc, slice_zero]

theorem tab_chunks_insert_frame (db : db_t) (table : table_t) (schema : schema_t)
    (row : List Byte) (k : Nat) (hk : k ≠ table.tabidx) :
    tab_chunks (tab_insert db table schema row).2 k = tab_chunks db k := by
  unfold tab_chunks
  rw [tab_insert_frame db table schema row k hk]

theorem insert_body_frame {ρ : Type} (table : table_t) (schema : schema_t)
    (c : List Byte → Bool) (g : List Byte → List Byte) (x : ρ) (k : Nat)
    (hk : k ≠ table.tabidx) (h : chblix_t) (r : List Byte) (db : db_t) :
    tab_chunks (insert_body table schema c g x h r db).2 k = tab_chunks db k := by
  unfold insert_body
  cases hc : c r with
  | false => simp
  | true =>
    simp only [if_true]
    have := tab_chunks_insert_frame db table schema (g r) k hk
    cases hi : tab_insert db table schema (g r) with
    | mk o d =>
      rw [hi] at this
      cases o <;> simpa using this

theorem take_of_length (r : List Byte) (n : Nat) (h : r.length = n) : r.take n = r := by
  rw [← h]; exact List.take_length r

/-- What a run of `tab_select_op_nova` on a valid table does. -/
theorem select_core (cmp : datatype_t → List Byte → List Byte → condition_t → Bool)
    (db : db_t) (sel_table : table_t) (sel_schema : schema_t) (sf : field_t) (name : String)
    (cond : condition_t) (value : List Byte) (type : datatype_t)
    (hs : schema_valid db sel_schema) (ht : table_valid db sel_table sel_schema) :
    (∀ table db1,
        tab_select_op_nova cmp db sel_table sel_schema sf name cond value type = (some table, db1) →
        type = sf.type ∧
        table = { tabidx := db.num_pages + 1, schidx := db.num_pages } ∧
        (tab_rows db1 table.tabidx).map (fun p => p.2) =
          ((tab_rows db sel_table.tabidx).map (fun p => p.2)).filter
            (fun r => cmp type (slice r sf.offset sf.size) (value.take sf.size) cond) ∧
        idx_load db.num_pages db1.schemas =
          some { slot_size := sel_schema.slot_size, fields := sch_fields db sel_schema.schidx } ∧
        tab_load db1 table.tabidx = some table) ∧
    (type = sf.type → 0 < chunk_capacity db sel_schema.slot_size →
      ∃ table db1,
        tab_select_op_nova cmp db sel_table sel_schema sf name cond value type =
          (some table, db1)) := by
  obtain ⟨hs1, hs2, hs3, hs4, hs5⟩ := hs
  obtain ⟨ht1, ht2, ht3, ht4, ht5⟩ := ht
  obtain ⟨db1, hdb1⟩ : ∃ d, d = (sch_init db).2 := ⟨_, rfl⟩
  have hinit : sch_init db = (some { schidx := db.num_pages, slot_size := 0 }, db1) := by
    rw [hdb1]; rfl
  have hsch1 : db1.schemas = (db.num_pages, { slot_size := 0, fields := [] }) :: db.schemas := by
    rw [hdb1]; rfl
  have htab1 : db1.tables = db.tables := by rw [hdb1]; rfl
  have hnp1 : db1.num_pages = db.num_pages + 1 := by rw [hdb1]; rfl
  have hps1 : db1.page_size = db.page_size := by rw [hdb1]; rfl
  have hne1 : ¬ db.num_pages = sel_schema.schidx := by omega
  have hF : sch_fields db1 sel_table.schidx = sch_fields db sel_schema.schidx := by
    rw [ht2]; simp [sch_fields, hsch1, idx_load, hne1]
  have hl0 : idx_load (schema_t.mk db.num_pages 0).schidx db1.schemas =
      some { slot_size := (schema_t.mk db.num_pages 0).slot_size, fields := [] } := by
    simp [hsch1, idx_load]
  have hadd_true := add_fields_true (sch_fields db sel_schema.schidx)
    (schema_t.mk db.num_pages 0) db1 0 [] hl0 (fun _ => by simpa using hs3)
  cases hadd : add_fields (sch_fields db sel_schema.schidx) (schema_t.mk db.num_pages 0) db1 with
  | mk b rest =>
    obtain ⟨s1, db2⟩ := rest
    rw [hadd] at hadd_true
    simp only at hadd_true
    subst hadd_true
    obtain ⟨b1, b2, b3, b4, b5, b6, b7, b8⟩ :=
      add_fields_ok (sch_fields db sel_schema.schidx) (schema_t.mk db.num_pages 0) s1 db1 db2 []
        hl0 hadd
    simp only [Nat.zero_add, List.nil_append] at b1 b2 b3 b4
    rw [relocate_of_offsets 0 _ hs4] at b3
    rw [← hs5] at b2
    have hs1eq : s1 = { schidx := db.num_pages, slot_size := sel_schema.slot_size } := by
      cases s1; simp only [schema_t.mk.injEq]; exact ⟨b1, b2⟩
    subst hs1eq
    have hnp2 : db2.num_pages = db.num_pages + 1 := by rw [b7, hnp1]
    have htab2 : db2.tables = db.tables := by rw [b5, htab1]
    have hps2 : db2.page_size = db.page_size := by rw [b8, hps1]
    -- the new table
    generalize hc0 : (chunk_init db2 sel_schema.slot_size).1 = c0
    have hc0p : chunk_packed c0 := by rw [← hc0]; exact chunk_init_packed _ _
    have hc0r : chain_rows [c0] = [] := by
      rw [← hc0]; simp [chain_rows, chunk_rows, chunk_init, blocks_rows_free]
    obtain ⟨db3, hdb3⟩ : ∃ d, d = (tab_init db2 name
      { schidx := db.num_pages, slot_size := sel_schema.slot_size }).2 := ⟨_, rfl⟩
    have hti : tab_init db2 name { schidx := db.num_pages, slot_size := sel_schema.slot_size } =
        (some { tabidx := db.num_pages + 1, schidx := db.num_pages }, db3) := by
      rw [hdb3, tab_init_eq, hnp2]
    have htab3 : db3.tables = (db.num_pages + 1,
        { name := name, schidx := db.num_pages, block_size := sel_schema.slot_size,
          chunks := [c0] }) :: db.tables := by
      rw [hdb3, tab_init_eq, hnp2, htab2, hc0]
    have hsch3 : db3.schemas = db2.schemas := by rw [hdb3, tab_init_eq]
    have hps3 : db3.page_size = db.page_size := by rw [hdb3, tab_init_eq, hps2]
    have hne2 : ¬ db.num_pages + 1 = sel_table.tabidx := by omega
    have hl3 : idx_load db.num_pages.succ db3.tables =
        some { name := name, schidx := db.num_pages, block_size := sel_schema.slot_size,
               chunks := [c0] } := by
      simp [htab3, idx_load]
    have hch3 : tab_chunks db3 sel_table.tabidx = tab_chunks db sel_table.tabidx := by
      simp [tab_chunks, htab3, idx_load, hne2]
    -- the loop
    have hloop : ∀ cv, tab_for_each_row sel_table sel_schema
        (select_body cmp { tabidx := db.num_pages + 1, schidx := db.num_pages }
          { schidx := db.num_pages, slot_size := sel_schema.slot_size } sf cond cv type)
        (tab_handles db3 sel_table.tabidx) db3 =
        rows_loop (insert_body { tabidx := db.num_pages + 1, schidx := db.num_pages }
          { schidx := db.num_pages, slot_size := sel_schema.slot_size }
          (fun r => cmp type (slice r sf.offset sf.size) cv cond)
          (fun r => r.take sel_schema.slot_size) ())
          (tab_rows db sel_table.tabidx) db3 := by
      intro cv
      rw [select_body_eq]
      unfold tab_handles tab_rows
      rw [hch3]
      have := for_each_eq_rows_loop sel_table sel_schema
        (insert_body { tabidx := db.num_pages + 1, schidx := db.num_pages }
          { schidx := db.num_pages, slot_size := sel_schema.slot_size }
          (fun r => cmp type (slice r sf.offset sf.size) cv cond)
          (fun r => r.take sel_schema.slot_size) ()) (tab_chunks db sel_table.tabidx) ht4
        (fun h r d hd => by
          rw [insert_body_frame _ _ _ _ _ _ (fun e => hne2 e.symm)]; exact hd)
        (chain_rows (tab_chunks db sel_table.tabidx)) (fun p hp => hp) db3 hch3
      rw [this]
      congr 1
      apply map_id_of
      intro p hp
      rw [take_of_length _ _ (ht5 p hp)]
    have happ := fun cv => rows_loop_appends (db.num_pages + 1) (fun _ => True)
      (insert_body { tabidx := db.num_pages + 1, schidx := db.num_pages }
          { schidx := db.num_pages, slot_size := sel_schema.slot_size }
          (fun r => cmp type (slice r sf.offset sf.size) cv cond)
          (fun r => r.take sel_schema.slot_size) ()) _
      (insert_body_appends (ρ := Unit) { tabidx := db.num_pages + 1, schidx := db.num_pages }
          { schidx := db.num_pages, slot_size := sel_schema.slot_size } _ _ () _)
      (fun _ _ _ _ _ _ => trivial) (tab_rows db sel_table.tabidx) db3 _ trivial hl3
      (by intro c hc; simp only [List.mem_singleton] at hc; subst hc; exact hc0p) (by simp)
    unfold tab_select_op_nova
    rw [hinit]
    simp only [hF, hadd, hti]
    constructor
    · intro table db5 hrun
      by_cases hty : type = sf.type
      · simp only [hty, ne_eq, not_true_eq_false, if_false] at hrun
        rw [← hty] at hrun
        rw [memcpy_malloc, slice_zero, hloop] at hrun
        cases hrl : rows_loop (insert_body { tabidx := db.num_pages + 1, schidx := db.num_pages }
          { schidx := db.num_pages, slot_size := sel_schema.slot_size }
          (fun r => cmp type (slice r sf.offset sf.size) (value.take sf.size) cond)
          (fun r => r.take sel_schema.slot_size) ()) (tab_rows db sel_table.tabidx) db3 with
        | mk o d =>
          rw [hrl] at hrun
          cases o with
          | some u => simp at hrun
          | none =>
            simp only [Prod.mk.injEq, Option.some.injEq] at hrun
            obtain ⟨e1, e2⟩ := hrun
            subst e1 e2
            obtain ⟨cs, c1, c2, c3, c4, c5, c6, c7, c8, c9⟩ :=
              (happ (value.take sf.size)).1 d hrl
            refine ⟨hty, rfl, ?_, ?_, ?_⟩
            · simp only [tab_rows, tab_chunks, c1]
              rw [c4, hc0r, join_filter_map]
              simp only [List.map_nil, List.nil_append]
              apply map_id_of
              intro r hr
              have hr' := (List.mem_filter.mp hr).1
              obtain ⟨p, hp, hpe⟩ := List.mem_map.mp hr'
              have := ht5 p hp
              rw [List.take_take, Nat.min_self, take_of_length _ _ (by rw [← hpe]; exact this)]
            · rw [c6, hsch3]
              exact b3
            · simp only [tab_load, c1]
      · simp [hty] at hrun
    · intro hty hcap
      simp only [hty, ne_eq, not_true_eq_false, if_false]
      rw [← hty, memcpy_malloc, slice_zero, hloop]
      have hcap3 : 0 < chunk_capacity db3 sel_schema.slot_size := by
        simpa [chunk_capacity, hps3] using hcap
      obtain ⟨d, hd⟩ := (happ (value.take sf.size)).2 hcap3
      rw [hd]
      exact ⟨_, _, rfl⟩

/-- C1: on a stored table with a valid schema and a value type equal to the
field's type, `tab_select_op_nova` returns a table as soon as a chunk has room
for one slot, and the rows of every table it returns are exactly the rows of the
source whose field bytes satisfy the condition against the value, byte-equal
and in the order of the source scan. -/
theorem tab_select_op_nova_rows
    (cmp : datatype_t → List Byte → List Byte → condition_t → Bool)
    (db : db_t) (sel_table : table_t) (sel_schema : schema_t) (select_field : field_t)
    (name : String) (condition : condition_t) (value : List Byte) (type : datatype_t)
    (hs : schema_valid db sel_schema) (ht : table_valid db sel_table sel_schema)
    (hty : type = select_field.type) :
    (0 < chunk_capacity db sel_schema.slot_size →
      ∃ table db1,
        tab_select_op_nova cmp db sel_table sel_schema select_field name condition value type =
          (some table, db1)) ∧
    ∀ table db1,
      tab_select_op_nova cmp db sel_table sel_schema select_field name condition value type =
        (some table, db1) →
      (tab_rows db1 table.tabidx).map (fun p => p.2) =
        ((tab_rows db sel_table.tabidx).map (fun p => p.2)).filter
          (fun r => cmp type (slice r select_field.offset select_field.size)
            (value.take select_field.size) condition) := by
  have core := select_core cmp db sel_table sel_schema select_field name condition value type hs ht
  exact ⟨core.2 hty, fun table db1 h => (core.1 table db1 h).2.2.1⟩

/-- Instance of C1 on table `A` of the scenario: select `id = 2`. -/
theorem tab_select_op_nova_rows_witness :
    schema_valid demo_db demo_A_schema ∧ table_valid demo_db demo_A demo_A_schema ∧
    ((0 < chunk_capacity demo_db demo_A_schema.slot_size →
      ∃ table db1,
        tab_select_op_nova bytes_compare demo_db demo_A demo_A_schema demo_id "S" .COND_EQ
          (i64 2) .DT_INT = (some table, db1)) ∧
    ∀ table db1,
      tab_select_op_nova bytes_compare demo_db demo_A demo_A_schema demo_id "S" .COND_EQ
        (i64 2) .DT_INT = (some table, db1) →
      (tab_rows db1 table.tabidx).map (fun p => p.2) =
        ((tab_rows demo_db demo_A.tabidx).map (fun p => p.2)).filter
          (fun r => bytes_compare .DT_INT (slice r demo_id.offset demo_id.size)
            ((i64 2).take demo_id.size) .COND_EQ)) :=
  ⟨by decide, by decide,
   tab_select_op_nova_rows bytes_compare demo_db demo_A demo_A_schema demo_id "S" .COND_EQ
     (i64 2) .DT_INT (by decide) (by decide) rfl⟩

/-- C2: the schema of every table returned by `tab_select_op_nova` on a stored
table with a valid schema is a copy of the source schema: the stored field
records (names, datatypes, sizes, offsets, order) and the slot size are those of
the source; when no source row satisfies the condition the result has no
row. -/
theorem tab_select_op_nova_schema
    (cmp : datatype_t → List Byte → List Byte → condition_t → Bool)
    (db : db_t) (sel_table : table_t) (sel_schema : schema_t) (select_field : field_t)
    (name : String) (condition : condition_t) (value : List Byte) (type : datatype_t)
    (hs : schema_valid db sel_schema) (ht : table_valid db sel_table sel_schema)
    (table : table_t) (db1 : db_t)
    (hrun : tab_select_op_nova cmp db sel_table sel_schema select_field name condition value
      type = (some table, db1)) :
    sch_fields db1 table.schidx = sch_fields db sel_table.schidx ∧
    sch_load db1 table.schidx =
      some { schidx := table.schidx, slot_size := sel_schema.slot_size } ∧
    ((∀ p ∈ tab_rows db sel_table.tabidx,
        cmp type (slice p.2 select_field.offset select_field.size)
          (value.take select_field.size) condition = false) →
      tab_rows db1 table.tabidx = []) := by
  obtain ⟨_, h2, h3, h4, _⟩ :=
    (select_core cmp db sel_table sel_schema select_field name condition value type hs ht).1
      table db1 hrun
  subst h2
  refine ⟨?_, ?_, ?_⟩
  · simp only [sch_fields, h4, ht.2.1]
  · simp only [sch_load, h4]
  · intro hno
    have : ((tab_rows db sel_table.tabidx).map (fun p => p.2)).filter
        (fun r => cmp type (slice r select_field.offset select_field.size)
          (value.take select_field.size) condition) = [] := by
      rw [List.filter_eq_nil_iff]
      intro r hr
      obtain ⟨p, hp, hpe⟩ := List.mem_map.mp hr
      rw [← hpe, hno p hp]
      simp
    rw [this] at h3
    simpa using h3

/-- Instance of C2 on table `A` of the scenario: select `id = 9`, which no row matches. -/
theorem tab_select_op_nova_schema_witness :
    schema_valid demo_db demo_A_schema ∧ table_valid demo_db demo_A demo_A_schema ∧
    tab_select_op_nova bytes_compare demo_db demo_A demo_A_schema demo_id "S" .COND_EQ
      (i64 9) .DT_INT = (some { tabidx := 6, schidx := 5 }, (tab_select_op_nova bytes_compare
        demo_db demo_A demo_A_schema demo_id "S" .COND_EQ (i64 9) .DT_INT).2) ∧
    (sch_fields (tab_select_op_nova bytes_compare demo_db demo_A demo_A_schema demo_id "S"
        .COND_EQ (i64 9) .DT_INT).2 5 = sch_fields demo_db demo_A.schidx ∧
     sch_load (tab_select_op_nova bytes_compare demo_db demo_A demo_A_schema demo_id "S"
        .COND_EQ (i64 9) .DT_INT).2 5 = some { schidx := 5, slot_size := demo_A_schema.slot_size } ∧
     ((∀ p ∈ tab_rows demo_db demo_A.tabidx,
        bytes_compare .DT_INT (slice p.2 demo_id.offset demo_id.size)
          ((i64 9).take demo_id.size) .COND_EQ = false) →
      tab_rows (tab_select_op_nova bytes_compare demo_db demo_A demo_A_schema demo_id "S"
        .COND_EQ (i64 9) .DT_INT).2 6 = [])) :=
  ⟨by decide, by decide, by decide,
   tab_select_op_nova_schema bytes_compare demo_db demo_A demo_A_schema demo_id "S" .COND_EQ
     (i64 9) .DT_INT (by decide) (by decide) { tabidx := 6, schidx := 5 } _ (by decide)⟩

/-- C3 (evaluation of the code at a type mismatch): selecting on the integer
field `id` with a value of type `DT_FLOAT` returns NULL, yet the state has a new
schema (index 5), a new table (index 6) and the name `S` in the metatable: the
type check of `tab_select_op_nova` comes after `sch_init`, `sch_add_field` and
`tab_init`. -/
theorem tab_select_op_nova_type_mismatch_mutates :
    (tab_select_op_nova bytes_compare demo_db demo_A demo_A_schema demo_id "S" .COND_EQ
        (i64 2) .DT_FLOAT).1 = none ∧
    (tab_select_op_nova bytes_compare demo_db demo_A demo_A_schema demo_id "S" .COND_EQ
        (i64 2) .DT_FLOAT).2 ≠ demo_db ∧
    sch_load (tab_select_op_nova bytes_compare demo_db demo_A demo_A_schema demo_id "S"
        .COND_EQ (i64 2) .DT_FLOAT).2 5 = some { schidx := 5, slot_size := 12 } ∧
    sch_load demo_db 5 = none ∧
    tab_load (tab_select_op_nova bytes_compare demo_db demo_A demo_A_schema demo_id "S"
        .COND_EQ (i64 2) .DT_FLOAT).2 6 = some { tabidx := 6, schidx := 5 } ∧
    tab_load demo_db 6 = none ∧
    (tab_select_op_nova bytes_compare demo_db demo_A demo_A_schema demo_id "S" .COND_EQ
        (i64 2) .DT_FLOAT).2.meta_table = demo_db.meta_table ++ [("S", 6)] := by
  decide

/-! ## Join -/

theorem join_inner_body_eq (cmp : datatype_t → List Byte → List Byte → Bool)
    (table : table_t) (ns ls rs : schema_t) (fl fr : field_t) (l el : List Byte) :
    join_inner_body cmp table ns ls rs fl fr l el =
      insert_body table ns (fun r => cmp fl.type el (slice r fr.offset fr.size))
        (fun r => memcpy (memcpy (malloc ns.slot_size) 0 l 0 ls.slot_size) ls.slot_size r 0
          rs.slot_size) TABLE_FAIL := by
  funext h r db
  simp only [join_inner_body, insert_body, memcpy_malloc]

theorem join_row_eq (l r : List Byte) (a b : Nat) (hl : l.length = a) (hr : r.length = b) :
    (memcpy (memcpy (malloc (a + b)) 0 l 0 a) a r 0 b).take (a + b) = l ++ r := by
  subst hl hr
  simp [memcpy, slice, malloc]

/-- A value returned out of the loop is a value returned by the body. -/
theorem for_each_some {ρ : Type} (table : table_t) (schema : schema_t)
    (body : chblix_t → List Byte → db_t → Option ρ × db_t) (P : ρ → Prop)
    (hb : ∀ h r db y d, body h r db = (some y, d) → P y) (hs : List chblix_t) (db : db_t)
    (y : ρ) (d : db_t) (hrun : tab_for_each_row table schema body hs db = (some y, d)) : P y := by
  induction hs generalizing db with
  | nil => simp [tab_for_each_row] at hrun
  | cons h rest ih =>
    simp only [tab_for_each_row] at hrun
    cases hr : tab_read_row db table.tabidx h with
    | none => rw [hr] at hrun; exact ih db hrun
    | some block =>
      rw [hr] at hrun
      simp only [] at hrun
      cases hbody : body h (block.take schema.slot_size) db with
      | mk o db1 =>
        rw [hbody] at hrun
        cases o with
        | some r =>
          simp only [Prod.mk.injEq, Option.some.injEq] at hrun
          rw [← hrun.1]
          exact hb _ _ _ _ _ hbody
        | none => exact ih db1 hrun

theorem insert_body_some {ρ : Type} (table : table_t) (schema : schema_t)
    (c : List Byte → Bool) (g : List Byte → List Byte) (x : ρ) (h : chblix_t) (r : List Byte)
    (db : db_t) (y : ρ) (d : db_t) (hrun : insert_body table schema c g x h r db = (some y, d)) :
    y = x := by
  unfold insert_body at hrun
  cases hc : c r with
  | false => simp [hc] at hrun
  | true =>
    simp only [hc, if_true] at hrun
    cases hi : tab_insert db table schema (g r) with
    | mk o d1 =>
      rw [hi] at hrun
      cases o with
      | none => simp only [Prod.mk.injEq, Option.some.injEq] at hrun; exact hrun.1.symm
      | some _ => simp at hrun

/-- The rows of the nested-loop join of the row lists `L` and `R` on the
fields `fl` and `fr`: left-major, each pair the concatenation of its rows. -/
theorem join_outer_body_appends (cmp : datatype_t → List Byte → List Byte → Bool)
    (right table : table_t) (ns ls rs : schema_t) (fl fr : field_t) (CR : List chunk_t)
    (hwf : chain_wf CR) (hne : right.tabidx ≠ table.tabidx)
    (hlen : ∀ p ∈ chain_rows CR, p.2.length = rs.slot_size) :
    body_appends table.tabidx (fun d => tab_chunks d right.tabidx = CR)
      (join_outer_body cmp right table ns ls rs fl fr)
      (fun l => (((chain_rows CR).map (fun p => p.2)).filter
          (fun r => cmp fl.type (slice l fl.offset fl.size) (slice r fr.offset fr.size))).map
        (fun r => (memcpy (memcpy (malloc ns.slot_size) 0 l 0 ls.slot_size) ls.slot_size r 0
          rs.slot_size).take ns.slot_size)) := by
  intro h l db t hI hl hp hnz
  have hloop : join_outer_body cmp right table ns ls rs fl fr h l db =
      rows_loop (insert_body table ns
        (fun r => cmp fl.type (slice l fl.offset fl.size) (slice r fr.offset fr.size))
        (fun r => memcpy (memcpy (malloc ns.slot_size) 0 l 0 ls.slot_size) ls.slot_size r 0
          rs.slot_size) TABLE_FAIL) (chain_rows CR) db := by
    simp only [join_outer_body, memcpy_malloc, join_inner_body_eq]
    unfold tab_handles tab_rows
    rw [hI]
    rw [for_each_eq_rows_loop right rs _ CR hwf
      (fun h r d hd => by rw [insert_body_frame _ _ _ _ _ _ hne]; exact hd)
      (chain_rows CR) (fun p hp => hp) db hI]
    congr 1
    apply map_id_of
    intro p hp
    rw [take_of_length _ _ (hlen p hp)]
  rw [hloop]
  have := rows_loop_appends table.tabidx (fun _ => True) _ _
    (insert_body_appends table ns
      (fun r => cmp fl.type (slice l fl.offset fl.size) (slice r fr.offset fr.size))
      (fun r => memcpy (memcpy (malloc ns.slot_size) 0 l 0 ls.slot_size) ls.slot_size r 0
          rs.slot_size) TABLE_FAIL (fun _ => True))
    (fun _ _ _ _ _ _ => trivial) (chain_rows CR) db t trivial hl hp hnz
  rw [join_filter_map] at this
  exact this

theorem join_outer_body_frame (cmp : datatype_t → List Byte → List Byte → Bool)
    (right table : table_t) (ns ls rs : schema_t) (fl fr : field_t) (k : Nat)
    (hk : k ≠ table.tabidx) (C : List chunk_t) (h : chblix_t) (l : List Byte) (db : db_t)
    (hd : tab_chunks db k = C) :
    tab_chunks (join_outer_body cmp right table ns ls rs fl fr h l db).2 k = C := by
  simp only [join_outer_body, join_inner_body_eq]
  exact for_each_inv right rs _ (fun d => tab_chunks d k = C)
    (fun h r d hd => by
      show tab_chunks _ k = C
      rw [insert_body_frame _ _ _ _ _ _ hk]; exact hd) _ db hd

theorem join_outer_body_some (cmp : datatype_t → List Byte → List Byte → Bool)
    (right table : table_t) (ns ls rs : schema_t) (fl fr : field_t)
    (h : chblix_t) (l : List Byte) (db : db_t) (y : Int) (d : db_t)
    (hrun : join_outer_body cmp right table ns ls rs fl fr h l db = (some y, d)) :
    y = TABLE_FAIL := by
  simp only [join_outer_body, join_inner_body_eq] at hrun
  exact for_each_some right rs _ (fun y => y = TABLE_FAIL)
    (fun h r db y d hb => insert_body_some _ _ _ _ _ _ _ _ _ _ hb) _ db y d hrun

theorem rows_loop_some {ρ : Type} (body : chblix_t → List Byte → db_t → Option ρ × db_t)
    (P : ρ → Prop) (hb : ∀ h r db y d, body h r db = (some y, d) → P y)
    (L : List (chblix_t × List Byte)) (db : db_t) (y : ρ) (d : db_t)
    (hrun : rows_loop body L db = (some y, d)) : P y := by
  induction L generalizing db with
  | nil => simp [rows_loop] at hrun
  | cons p rest ih =>
    simp only [rows_loop] at hrun
    cases hbody : body p.1 p.2 db with
    | mk o db1 =>
      rw [hbody] at hrun
      cases o with
      | some r =>
        simp only [Prod.mk.injEq, Option.some.injEq] at hrun
        rw [← hrun.1]
        exact hb _ _ _ _ _ hbody
      | none => exact ih db1 hrun

theorem sch_load_of_valid (db : db_t) (s : schema_t) (hs : schema_valid db s) :
    sch_load db s.schidx = some s := by
  obtain ⟨_, h2, _⟩ := hs
  simp only [sch_load, h2]

/-- What a run of `tab_join` on two valid tables does when the catalog accepts
the field names of the right side after those of the left side (no name is
shared, or a repeated name is accepted); `fl` and `fr` are the descriptors the
loops work with. -/
theorem join_core (cmp : datatype_t → List Byte → List Byte → Bool) (junk : field_t)
    (db : db_t) (left right : table_t) (ls rs : schema_t) (jl jr name : String)
    (fl fr : field_t)
    (hls : schema_valid db ls) (hlt : table_valid db left ls)
    (hrs : schema_valid db rs) (hrt : table_valid db right rs)
    (hnames : db.sch_unique_names = true →
      (field_names (sch_fields db ls.schidx ++ sch_fields db rs.schidx)).Nodup)
    (hfl : (sch_get_field db ls jl).getD junk = fl)
    (hfr : (sch_get_field db rs jr).getD junk = fr) :
    (∀ r db1, tab_join cmp junk db left.tabidx right.tabidx jl jr name = (r, db1) →
        r ≠ TABLE_FAIL →
        r = ((db.num_pages + 1 : Nat) : Int) ∧
        (tab_rows db1 (db.num_pages + 1)).map (fun p => p.2) =
          (((tab_rows db left.tabidx).map (fun p => p.2)).map (fun l =>
            (((tab_rows db right.tabidx).map (fun p => p.2)).filter (fun r =>
              cmp fl.type (slice l fl.offset fl.size) (slice r fr.offset fr.size))).map
              (fun r => l ++ r))).flatten ∧
        idx_load db.num_pages db1.schemas =
          some { slot_size := ls.slot_size + rs.slot_size,
                 fields := sch_fields db ls.schidx ++
                           relocate ls.slot_size (sch_fields db rs.schidx) } ∧
        tab_load db1 (db.num_pages + 1) =
          some { tabidx := db.num_pages + 1, schidx := db.num_pages }) ∧
    (0 < chunk_capacity db (ls.slot_size + rs.slot_size) →
      ∃ db1, tab_join cmp junk db left.tabidx right.tabidx jl jr name =
        (((db.num_pages + 1 : Nat) : Int), db1)) := by
  have hSchL := sch_load_of_valid db ls hls
  have hSchR := sch_load_of_valid db rs hrs
  obtain ⟨hs1, hs2, hs3, hs4, hs5⟩ := hls
  obtain ⟨ht1, ht2, ht3, ht4, ht5⟩ := hlt
  obtain ⟨hr1, hr2, hr3, hr4, hr5⟩ := hrs
  obtain ⟨hu1, hu2, hu3, hu4, hu5⟩ := hrt
  rw [← ht2] at hSchL
  rw [← hu2] at hSchR
  obtain ⟨db1, hdb1⟩ : ∃ d, d = (sch_init db).2 := ⟨_, rfl⟩
  have hinit : sch_init db = (some { schidx := db.num_pages, slot_size := 0 }, db1) := by
    rw [hdb1]; rfl
  have hsch1 : db1.schemas = (db.num_pages, { slot_size := 0, fields := [] }) :: db.schemas := by
    rw [hdb1]; rfl
  have htab1 : db1.tables = db.tables := by rw [hdb1]; rfl
  have hnp1 : db1.num_pages = db.num_pages + 1 := by rw [hdb1]; rfl
  have hps1 : db1.page_size = db.page_size := by rw [hdb1]; rfl
  have hneL : ¬ db.num_pages = ls.schidx := by omega
  have hneR : ¬ db.num_pages = rs.schidx := by omega
  have hFL : sch_fields db1 left.schidx = sch_fields db ls.schidx := by
    rw [ht2]; simp [sch_fields, hsch1, idx_load, hneL]
  have hl0 : idx_load (schema_t.mk db.num_pages 0).schidx db1.schemas =
      some { slot_size := (schema_t.mk db.num_pages 0).slot_size, fields := [] } := by
    simp [hsch1, idx_load]
  have hnamesL : (field_names (sch_fields db ls.schidx)).Nodup := hs3
  -- left fields
  have hadd_true := add_fields_true (sch_fields db ls.schidx)
    (schema_t.mk db.num_pages 0) db1 0 [] hl0 (fun _ => by simpa using hs3)
  cases hadd : add_fields (sch_fields db ls.schidx) (schema_t.mk db.num_pages 0) db1 with
  | mk b rest =>
    obtain ⟨s1, db2⟩ := rest
    rw [hadd] at hadd_true
    simp only at hadd_true
    subst hadd_true
    obtain ⟨b1, b2, b3, b4, b5, b6, b7, b8⟩ :=
      add_fields_ok (sch_fields db ls.schidx) (schema_t.mk db.num_pages 0) s1 db1 db2 []
        hl0 hadd
    simp only [Nat.zero_add, List.nil_append] at b1 b2 b3 b4
    rw [relocate_of_offsets 0 _ hs4] at b3
    rw [← hs5] at b2
    have hs1eq : s1 = { schidx := db.num_pages, slot_size := ls.slot_size } := by
      cases s1; simp only [schema_t.mk.injEq]; exact ⟨b1, b2⟩
    subst hs1eq
    simp only at b3
    have hFR : sch_fields db2 right.schidx = sch_fields db rs.schidx := by
      rw [hu2]
      simp only [sch_fields]
      rw [b4 rs.schidx (fun e => hneR e.symm), hsch1]
      simp [idx_load, hneR]
    -- right fields
    have hun2 : db2.sch_unique_names = db.sch_unique_names := by
      have := add_fields_unique_names (sch_fields db ls.schidx) (schema_t.mk db.num_pages 0) db1
      rw [hadd] at this
      rw [this, hdb1]; rfl
    have hadd_true2 := add_fields_true (sch_fields db rs.schidx)
      (schema_t.mk db.num_pages ls.slot_size) db2 ls.slot_size (sch_fields db ls.schidx) b3
      (fun hu => hnames (hun2 ▸ hu))
    cases hadd2 : add_fields (sch_fields db rs.schidx) (schema_t.mk db.num_pages ls.slot_size)
        db2 with
    | mk b rest =>
      obtain ⟨s2, db3⟩ := rest
      rw [hadd2] at hadd_true2
      simp only at hadd_true2
      subst hadd_true2
      obtain ⟨e1, e2, e3, e4, e5, e6, e7, e8⟩ :=
        add_fields_ok (sch_fields db rs.schidx) (schema_t.mk db.num_pages ls.slot_size) s2 db2
          db3 (sch_fields db ls.schidx) b3 hadd2
      simp only at e1 e2 e3 e4
      rw [← hr5] at e2
      have hs2eq : s2 = { schidx := db.num_pages, slot_size := ls.slot_size + rs.slot_size } := by
        cases s2; simp only [schema_t.mk.injEq]; exact ⟨e1, e2⟩
      subst hs2eq
      simp only at e3
      have hnp3 : db3.num_pages = db.num_pages + 1 := by rw [e7, b7, hnp1]
      have htab3 : db3.tables = db.tables := by rw [e5, b5, htab1]
      have hps3 : db3.page_size = db.page_size := by rw [e8, b8, hps1]
      have hschk : ∀ k, k ≠ db.num_pages → idx_load k db3.schemas = idx_load k db.schemas := by
        intro k hk
        rw [e4 k hk, b4 k hk, hsch1]
        have hk2 : ¬ db.num_pages = k := fun e => hk e.symm
        simp [idx_load, hk2]
      -- the new table
      generalize hc0 : (chunk_init db3 (ls.slot_size + rs.slot_size)).1 = c0
      have hc0p : chunk_packed c0 := by rw [← hc0]; exact chunk_init_packed _ _
      have hc0r : chain_rows [c0] = [] := by
        rw [← hc0]; simp [chain_rows, chunk_rows, chunk_init, blocks_rows_free]
      obtain ⟨db4, hdb4⟩ : ∃ d, d = (tab_init db3 name
        { schidx := db.num_pages, slot_size := ls.slot_size + rs.slot_size }).2 := ⟨_, rfl⟩
      have hti : tab_init db3 name
          { schidx := db.num_pages, slot_size := ls.slot_size + rs.slot_size } =
          (some { tabidx := db.num_pages + 1, schidx := db.num_pages }, db4) := by
        rw [hdb4, tab_init_eq, hnp3]
      have htab4 : db4.tables = (db.num_pages + 1,
          { name := name, schidx := db.num_pages, block_size := ls.slot_size + rs.slot_size,
            chunks := [c0] }) :: db.tables := by
        rw [hdb4, tab_init_eq, hnp3, htab3, hc0]
      have hsch4 : db4.schemas = db3.schemas := by rw [hdb4, tab_init_eq]
      have hps4 : db4.page_size = db.page_size := by rw [hdb4, tab_init_eq, hps3]
      have hneTL : ¬ db.num_pages + 1 = left.tabidx := by omega
      have hneTR : ¬ db.num_pages + 1 = right.tabidx := by omega
      have hl4 : idx_load (db.num_pages + 1) db4.tables =
          some { name := name, schidx := db.num_pages,
                 block_size := ls.slot_size + rs.slot_size, chunks := [c0] } := by
        simp [htab4, idx_load]
      have hchL : tab_chunks db4 left.tabidx = tab_chunks db left.tabidx := by
        simp [tab_chunks, htab4, idx_load, hneTL]
      have hchR : tab_chunks db4 right.tabidx = tab_chunks db right.tabidx := by
        simp [tab_chunks, htab4, idx_load, hneTR]
      have hgetL : (sch_get_field db4 ls jl).getD junk = fl := by
        rw [← hfl]; simp only [sch_get_field, sch_fields, hsch4]
        rw [hschk ls.schidx (fun e => hneL e.symm)]
      have hgetR : (sch_get_field db4 rs jr).getD junk = fr := by
        rw [← hfr]; simp only [sch_get_field, sch_fields, hsch4]
        rw [hschk rs.schidx (fun e => hneR e.symm)]
      -- the loops
      have hloop : tab_for_each_row left ls
          (join_outer_body cmp right { tabidx := db.num_pages + 1, schidx := db.num_pages }
            { schidx := db.num_pages, slot_size := ls.slot_size + rs.slot_size } ls rs fl fr)
          (tab_handles db4 left.tabidx) db4 =
          rows_loop
            (join_outer_body cmp right { tabidx := db.num_pages + 1, schidx := db.num_pages }
              { schidx := db.num_pages, slot_size := ls.slot_size + rs.slot_size } ls rs fl fr)
            (tab_rows db left.tabidx) db4 := by
        unfold tab_handles tab_rows
        rw [hchL]
        rw [for_each_eq_rows_loop left ls _ (tab_chunks db left.tabidx) ht4
          (fun h r d hd => join_outer_body_frame cmp right _ _ ls rs fl fr left.tabidx
            (fun e => hneTL e.symm) _ h r d hd)
          (chain_rows (tab_chunks db left.tabidx)) (fun p hp => hp) db4 hchL]
        congr 1
        apply map_id_of
        intro p hp
        rw [take_of_length _ _ (ht5 p hp)]
      have happ := rows_loop_appends (db.num_pages + 1)
        (fun d => tab_chunks d right.tabidx = tab_chunks db right.tabidx) _ _
        (join_outer_body_appends cmp right { tabidx := db.num_pages + 1, schidx := db.num_pages }
          { schidx := db.num_pages, slot_size := ls.slot_size + rs.slot_size } ls rs fl fr
          (tab_chunks db right.tabidx) hu4 (fun e => hneTR e.symm) hu5)
        (fun d d1 t rows hI hext => by
          obtain ⟨cs, _, _, _, _, a5, _⟩ := hext
          simp only [tab_chunks] at hI ⊢
          rw [a5 right.tabidx (fun e => hneTR e.symm)]; exact hI)
        (tab_rows db left.tabidx) db4 _ hchR hl4
        (by intro c hc; simp only [List.mem_singleton] at hc; subst hc; exact hc0p) (by simp)
      have hrows : ((tab_rows db left.tabidx).map (fun p => p.2)).map (fun l =>
            (((chain_rows (tab_chunks db right.tabidx)).map (fun p => p.2)).filter (fun r =>
              cmp fl.type (slice l fl.offset fl.size) (slice r fr.offset fr.size))).map
              (fun r => (memcpy (memcpy (malloc (ls.slot_size + rs.slot_size)) 0 l 0
                ls.slot_size) ls.slot_size r 0 rs.slot_size).take (ls.slot_size + rs.slot_size))) =
          ((tab_rows db left.tabidx).map (fun p => p.2)).map (fun l =>
            (((tab_rows db right.tabidx).map (fun p => p.2)).filter (fun r =>
              cmp fl.type (slice l fl.offset fl.size) (slice r fr.offset fr.size))).map
              (fun r => l ++ r)) := by
        apply List.map_congr_left
        intro l hlm
        obtain ⟨p, hp, hpe⟩ := List.mem_map.mp hlm
        apply List.map_congr_left
        intro r hrm
        obtain ⟨q, hq, hqe⟩ := List.mem_map.mp (List.mem_filter.mp hrm).1
        exact join_row_eq l r _ _ (by rw [← hpe]; exact ht5 p hp) (by rw [← hqe]; exact hu5 q hq)
      unfold tab_join
      simp only [ht3, hu3, hSchL, hSchR, hinit, hFL, hadd, hFR, hadd2, hti, hgetL, hgetR, hloop]
      constructor
      · intro r db5 hrun hrne
        cases hrl : rows_loop
            (join_outer_body cmp right { tabidx := db.num_pages + 1, schidx := db.num_pages }
              { schidx := db.num_pages, slot_size := ls.slot_size + rs.slot_size } ls rs fl fr)
            (tab_rows db left.tabidx) db4 with
        | mk o d =>
          rw [hrl] at hrun
          cases o with
          | some y =>
            simp only [Prod.mk.injEq] at hrun
            have := rows_loop_some _ (fun y => y = TABLE_FAIL)
              (fun h r db y d hb => join_outer_body_some cmp right _ _ ls rs fl fr h r db y d hb)
              _ _ _ _ hrl
            exact absurd (hrun.1.symm.trans this) hrne
          | none =>
            simp only [Prod.mk.injEq] at hrun
            obtain ⟨g1, g2⟩ := hrun
            subst g2
            obtain ⟨cs, c1, c2, c3, c4, c5, c6, c7, c8, c9⟩ := happ.1 d hrl
            refine ⟨by rw [← g1], ?_, ?_, ?_⟩
            · simp only [tab_rows, tab_chunks, c1]
              rw [c4, hc0r]
              simp only [List.map_nil, List.nil_append]
              exact congrArg List.flatten hrows
            · rw [c6, hsch4]; exact e3
            · simp only [tab_load, c1]
      · intro hcap
        have hcap4 : 0 < chunk_capacity db4 (ls.slot_size + rs.slot_size) := by
          simpa [chunk_capacity, hps4] using hcap
        obtain ⟨d, hd⟩ := happ.2 hcap4
        rw [hd]
        exact ⟨d, by simp⟩

/-- With a catalog that rejects a repeated name and a field name repeated
across the two sides, the second field loop of `tab_join` meets `SCHEMA_FAIL`
and the join returns `TABLE_FAIL`. -/
theorem join_fails_of_shared (cmp : datatype_t → List Byte → List Byte → Bool) (junk : field_t)
    (db : db_t) (left right : table_t) (ls rs : schema_t) (jl jr name : String)
    (hls : schema_valid db ls) (hlt : table_valid db left ls)
    (hrs : schema_valid db rs) (hrt : table_valid db right rs)
    (hu : db.sch_unique_names = true)
    (hdup : ¬ (field_names (sch_fields db ls.schidx ++ sch_fields db rs.schidx)).Nodup) :
    (tab_join cmp junk db left.tabidx right.tabidx jl jr name).1 = TABLE_FAIL := by
  have hSchL := sch_load_of_valid db ls hls
  have hSchR := sch_load_of_valid db rs hrs
  obtain ⟨hs1, hs2, hs3, hs4, hs5⟩ := hls
  obtain ⟨ht1, ht2, ht3, ht4, ht5⟩ := hlt
  obtain ⟨hr1, hr2, hr3, hr4, hr5⟩ := hrs
  obtain ⟨hu1, hu2, hu3, hu4, hu5⟩ := hrt
  rw [← ht2] at hSchL
  rw [← hu2] at hSchR
  obtain ⟨db1, hdb1⟩ : ∃ d, d = (sch_init db).2 := ⟨_, rfl⟩
  have hinit : sch_init db = (some { schidx := db.num_pages, slot_size := 0 }, db1) := by
    rw [hdb1]; rfl
  have hsch1 : db1.schemas = (db.num_pages, { slot_size := 0, fields := [] }) :: db.schemas := by
    rw [hdb1]; rfl
  have hneL : ¬ db.num_pages = ls.schidx := by omega
  have hneR : ¬ db.num_pages = rs.schidx := by omega
  have hFL : sch_fields db1 left.schidx = sch_fields db ls.schidx := by
    rw [ht2]; simp [sch_fields, hsch1, idx_load, hneL]
  have hl0 : idx_load (schema_t.mk db.num_pages 0).schidx db1.schemas =
      some { slot_size := (schema_t.mk db.num_pages 0).slot_size, fields := [] } := by
    simp [hsch1, idx_load]
  have hadd_true := add_fields_true (sch_fields db ls.schidx)
    (schema_t.mk db.num_pages 0) db1 0 [] hl0 (fun _ => by simpa using hs3)
  cases hadd : add_fields (sch_fields db ls.schidx) (schema_t.mk db.num_pages 0) db1 with
  | mk b rest =>
    obtain ⟨s1, db2⟩ := rest
    rw [hadd] at hadd_true
    simp only at hadd_true
    subst hadd_true
    obtain ⟨b1, b2, b3, b4, _⟩ :=
      add_fields_ok (sch_fields db ls.schidx) (schema_t.mk db.num_pages 0) s1 db1 db2 []
        hl0 hadd
    simp only [Nat.zero_add, List.nil_append] at b1 b2 b3 b4
    rw [relocate_of_offsets 0 _ hs4] at b3
    have hFR : sch_fields db2 right.schidx = sch_fields db rs.schidx := by
      rw [hu2]
      simp only [sch_fields]
      rw [b4 rs.schidx (fun e => hneR e.symm), hsch1]
      simp [idx_load, hneR]
    rw [← b1] at b3
    have hun2 : db2.sch_unique_names = true := by
      have := add_fields_unique_names (sch_fields db ls.schidx) (schema_t.mk db.num_pages 0) db1
      rw [hadd] at this
      rw [this, hdb1]; exact hu
    have hiff := add_fields_true_iff (sch_fields db rs.schidx) s1 db2 s1.slot_size
      (sch_fields db ls.schidx) b3 hun2 hs3
    cases hadd2 : add_fields (sch_fields db rs.schidx) s1 db2 with
    | mk b rest =>
      obtain ⟨s2, db3⟩ := rest
      rw [hadd2] at hiff
      simp only at hiff
      have hb : b = false := by
        cases b with
        | false => rfl
        | true => exact absurd (hiff.1 rfl) hdup
      subst hb
      unfold tab_join
      simp only [ht3, hu3, hSchL, hSchR, hinit, hFL, hadd, hFR, hadd2]

theorem relocate_records (base : Nat) (fs : List field_t) :
    (relocate base fs).map (fun f => (f.name, f.type, f.size)) =
      fs.map (fun f => (f.name, f.type, f.size)) := by
  induction fs generalizing base with
  | nil => rfl
  | cons f rest ih => simp [relocate, ih]

theorem bytes_eq_nan_iff (t : datatype_t) (a b : List Byte) :
    bytes_eq_nan t a b = true ↔ ∃ v, bytes_val_nan a = some v ∧ bytes_val_nan b = some v := by
  unfold bytes_eq_nan bytes_val_nan
  by_cases ha : a = List.replicate 8 255
  · simp [ha]
  · by_cases hb : b = List.replicate 8 255
    · simp only [hb, if_true, ha, if_false]
      simp [ha]
    · simp only [ha, hb, if_false, Option.some.injEq]
      constructor
      · intro h
        simp only [Bool.and_eq_true, beq_iff_eq] at h
        exact ⟨a, rfl, h.1.symm⟩
      · rintro ⟨v, h1, h2⟩
        simp only [Bool.and_eq_true, beq_iff_eq, Bool.not_eq_true', beq_eq_false_iff_ne, ne_eq]
        exact ⟨h1.trans h2.symm, ha⟩

/-- C4: for two stored tables with valid schemas and existing join fields,
`tab_join` returns a table when a chunk has room for one joined slot and the
catalog accepts the field names of the right side after those of the left
side (no name is shared, or a repeated name is accepted as in the join
scenario of the spec, where both sides have a field `id`); the rows of every
table it returns are, in left-major nested-loop order, the concatenations
`left_row ++ right_row` of the pairs whose join keys the comparator finds
equal, and the stored output schema is the left fields followed by the right
fields (names, datatypes and sizes kept, the right offsets shifted by the left
slot size). -/
theorem tab_join_rows (cmp : datatype_t → List Byte → List Byte → Bool) (junk : field_t)
    (db : db_t) (left right : table_t) (ls rs : schema_t) (jl jr name : String)
    (fl fr : field_t)
    (hls : schema_valid db ls) (hlt : table_valid db left ls)
    (hrs : schema_valid db rs) (hrt : table_valid db right rs)
    (hfl : sch_get_field db ls jl = some fl) (hfr : sch_get_field db rs jr = some fr) :
    ((db.sch_unique_names = true →
        (field_names (sch_fields db ls.schidx ++ sch_fields db rs.schidx)).Nodup) →
      0 < chunk_capacity db (ls.slot_size + rs.slot_size) →
      ∃ db1, (tab_join cmp junk db left.tabidx right.tabidx jl jr name).1 ≠ TABLE_FAIL ∧
        tab_join cmp junk db left.tabidx right.tabidx jl jr name =
          (((db.num_pages + 1 : Nat) : Int), db1)) ∧
    ∀ r db1, tab_join cmp junk db left.tabidx right.tabidx jl jr name = (r, db1) →
      r ≠ TABLE_FAIL →
      ∃ tix : Nat, ∃ table : table_t, r = (tix : Int) ∧ tab_load db1 tix = some table ∧
        (tab_rows db1 tix).map (fun p => p.2) =
          (((tab_rows db left.tabidx).map (fun p => p.2)).map (fun l =>
            (((tab_rows db right.tabidx).map (fun p => p.2)).filter (fun r =>
              cmp fl.type (slice l fl.offset fl.size) (slice r fr.offset fr.size))).map
              (fun r => l ++ r))).flatten ∧
        sch_fields db1 table.schidx =
          sch_fields db left.schidx ++ relocate ls.slot_size (sch_fields db right.schidx) ∧
        (sch_fields db1 table.schidx).map (fun f => (f.name, f.type, f.size)) =
          (sch_fields db left.schidx ++ sch_fields db right.schidx).map
            (fun f => (f.name, f.type, f.size)) := by
  have core := fun hnames => join_core cmp junk db left right ls rs jl jr name fl fr hls hlt
    hrs hrt hnames (by rw [hfl]; rfl) (by rw [hfr]; rfl)
  constructor
  · intro hnames hcap
    obtain ⟨db1, h⟩ := (core hnames).2 hcap
    refine ⟨db1, ?_, h⟩
    rw [h]
    simp only [TABLE_FAIL]
    omega
  · intro r db1 hrun hne
    have hnames : db.sch_unique_names = true →
        (field_names (sch_fields db ls.schidx ++ sch_fields db rs.schidx)).Nodup := by
      intro hu
      by_contra hdup
      have := join_fails_of_shared cmp junk db left right ls rs jl jr name hls hlt hrs hrt hu hdup
      rw [hrun] at this
      exact hne this
    obtain ⟨h1, h2, h3, h4⟩ := (core hnames).1 r db1 hrun hne
    have hf : sch_fields db1 db.num_pages =
        sch_fields db left.schidx ++ relocate ls.slot_size (sch_fields db right.schidx) := by
      simp only [sch_fields, h3, hlt.2.1, hrt.2.1]
    refine ⟨db.num_pages + 1, _, h1, h4, h2, hf, ?_⟩
    simp only []
    rw [hf, List.map_append, List.map_append, relocate_records]

/-- Instance of C4 on the join scenario of the spec, `A(id, x)` joined with
`B(id, y)` on `A.id = B.id`: the join returns table 6, whose rows are
`(2,"b",2,10), (2,"b",2,20), (2,"c",2,10), (2,"c",2,20)` in this order and whose
schema is `id, x, id, y`. -/
theorem tab_join_rows_witness :
    schema_valid demo_db demo_A_schema ∧
    table_valid demo_db demo_A demo_A_schema ∧
    schema_valid demo_db demo_B_schema ∧
    table_valid demo_db demo_B demo_B_schema ∧
    sch_get_field demo_db demo_A_schema "id" = some demo_id ∧
    sch_get_field demo_db demo_B_schema "id" = some demo_id ∧
    (tab_join bytes_eq demo_junk demo_db demo_A.tabidx demo_B.tabidx "id" "id" "J").1 = 6 ∧
    (tab_rows (tab_join bytes_eq demo_junk demo_db demo_A.tabidx demo_B.tabidx "id" "id" "J").2
        6).map (fun p => p.2) =
      [i64 2 ++ [98, 0, 0, 0] ++ i64 2 ++ i64 10, i64 2 ++ [98, 0, 0, 0] ++ i64 2 ++ i64 20,
       i64 2 ++ [99, 0, 0, 0] ++ i64 2 ++ i64 10, i64 2 ++ [99, 0, 0, 0] ++ i64 2 ++ i64 20] ∧
    field_names (sch_fields
      (tab_join bytes_eq demo_junk demo_db demo_A.tabidx demo_B.tabidx "id" "id" "J").2 5) =
      ["id", "x", "id", "y"] ∧
    (((demo_db.sch_unique_names = true →
        (field_names (sch_fields demo_db demo_A_schema.schidx ++
          sch_fields demo_db demo_B_schema.schidx)).Nodup) →
      0 < chunk_capacity demo_db (demo_A_schema.slot_size + demo_B_schema.slot_size) →
      ∃ db1, (tab_join bytes_eq demo_junk demo_db demo_A.tabidx demo_B.tabidx "id" "id"
          "J").1 ≠ TABLE_FAIL ∧
        tab_join bytes_eq demo_junk demo_db demo_A.tabidx demo_B.tabidx "id" "id" "J" =
          (((demo_db.num_pages + 1 : Nat) : Int), db1)) ∧
    ∀ r db1,
      tab_join bytes_eq demo_junk demo_db demo_A.tabidx demo_B.tabidx "id" "id" "J" =
        (r, db1) →
      r ≠ TABLE_FAIL →
      ∃ tix : Nat, ∃ table : table_t, r = (tix : Int) ∧ tab_load db1 tix = some table ∧
        (tab_rows db1 tix).map (fun p => p.2) =
          (((tab_rows demo_db demo_A.tabidx).map (fun p => p.2)).map (fun l =>
            (((tab_rows demo_db demo_B.tabidx).map (fun p => p.2)).filter (fun r =>
              bytes_eq demo_id.type (slice l demo_id.offset demo_id.size)
                (slice r demo_id.offset demo_id.size))).map
              (fun r => l ++ r))).flatten ∧
        sch_fields db1 table.schidx =
          sch_fields demo_db demo_A.schidx ++
            relocate demo_A_schema.slot_size (sch_fields demo_db demo_B.schidx) ∧
        (sch_fields db1 table.schidx).map (fun f => (f.name, f.type, f.size)) =
          (sch_fields demo_db demo_A.schidx ++
            sch_fields demo_db demo_B.schidx).map (fun f => (f.name, f.type, f.size))) :=
  ⟨by decide, by decide, by decide, by decide, by decide, by decide, by decide, by decide,
   by decide,
   tab_join_rows bytes_eq demo_junk demo_db demo_A demo_B demo_A_schema demo_B_schema
     "id" "id" "J" demo_id demo_id (by decide) (by decide) (by decide)
     (by decide) (by decide) (by decide)⟩

/-- The join scenario of the spec with distinct field names: the rows of the
joined table are `(2,"b",2,10), (2,"b",2,20), (2,"c",2,10), (2,"c",2,20)`. -/
theorem tab_join_scenario :
    (tab_join bytes_eq demo_junk demo_db_renamed 2 4 "id" "bid" "J").1 = 6 ∧
    (tab_rows (tab_join bytes_eq demo_junk demo_db_renamed 2 4 "id" "bid" "J").2 6).map
        (fun p => p.2) =
      [i64 2 ++ [98, 0, 0, 0] ++ i64 2 ++ i64 10, i64 2 ++ [98, 0, 0, 0] ++ i64 2 ++ i64 20,
       i64 2 ++ [99, 0, 0, 0] ++ i64 2 ++ i64 10, i64 2 ++ [99, 0, 0, 0] ++ i64 2 ++ i64 20] := by
  decide

/-- Number of the rows of `R` that the comparator pairs with a key of value
`o`, when the comparator holds exactly of two keys that have the same value:
none when the key has no value. -/
theorem filter_length_eq_count {V : Type} [DecidableEq V] (R : List (List Byte))
    (f : List Byte → Option V) (o : Option V) (c : List Byte → Bool)
    (hc : ∀ r, c r = true ↔ ∃ v, o = some v ∧ f r = some v) :
    (R.filter c).length = (o.map (fun v => (R.filterMap f).count v)).getD 0 := by
  cases o with
  | none =>
    have hall : ∀ r ∈ R, ¬ c r = true := by
      intro r _ h
      obtain ⟨v, hv, _⟩ := (hc r).1 h
      cases hv
    simp only [Option.map_none', Option.getD_none, List.length_eq_zero, List.filter_eq_nil_iff]
    exact hall
  | some v =>
    simp only [Option.map_some', Option.getD_some]
    induction R with
    | nil => rfl
    | cons a rest ih =>
      by_cases h : c a = true
      · obtain ⟨w, hw, hfa⟩ := (hc a).1 h
        have hv : f a = some v := by rw [hfa, hw]
        simp [List.filter, h, ih, List.filterMap_cons, hv]
      · have hv : ¬ f a = some v := fun e => h ((hc a).2 ⟨v, rfl, e⟩)
        simp only [Bool.not_eq_true] at h
        cases hfa : f a with
        | none => simp [List.filter, h, ih, List.filterMap_cons, hfa]
        | some w =>
          have hwv : ¬ w = v := fun e => hv (by rw [hfa, e])
          have hb : (w == v) = false := by simpa using hwv
          simp [List.filter, h, ih, List.filterMap_cons, hfa, List.count_cons, hb]

/-- A sum over the rows, where a row whose key has no value counts for
nothing, is the sum over the values of the keys. -/
theorem sum_map_getD_eq_filterMap {α V : Type} (L : List α) (f : α → Option V) (g : V → Nat) :
    (L.map (fun p => ((f p).map g).getD 0)).sum = ((L.filterMap f).map g).sum := by
  induction L with
  | nil => rfl
  | cons a rest ih =>
    cases hfa : f a with
    | none => simp [List.filterMap_cons, hfa, ih]
    | some w => simp [List.filterMap_cons, hfa, ih]

/-- C5: when the comparator holds exactly of two keys that have the same value
(`val` reads the value of a key; a key that has none, as a NaN compared by
value, equals no key), the number of rows of the table returned by `tab_join`
is the sum, over the key values `v` (any finite set `S` of values that contains
the values of the keys of the left table), of the number of left rows with key
value `v` times the number of right rows with key value `v`. -/
theorem tab_join_cardinality {V : Type} [DecidableEq V] (val : List Byte → Option V)
    (cmp : datatype_t → List Byte → List Byte → Bool) (junk : field_t)
    (db : db_t) (left right : table_t) (ls rs : schema_t) (jl jr name : String)
    (fl fr : field_t)
    (hls : schema_valid db ls) (hlt : table_valid db left ls)
    (hrs : schema_valid db rs) (hrt : table_valid db right rs)
    (hfl : sch_get_field db ls jl = some fl) (hfr : sch_get_field db rs jr = some fr)
    (hval : ∀ a b, cmp fl.type a b = true ↔ ∃ v, val a = some v ∧ val b = some v)
    (S : Finset V)
    (hS : ∀ p ∈ tab_rows db left.tabidx, ∀ v, val (slice p.2 fl.offset fl.size) = some v → v ∈ S)
    (r : Int) (db1 : db_t)
    (hrun : tab_join cmp junk db left.tabidx right.tabidx jl jr name = (r, db1))
    (hne : r ≠ TABLE_FAIL) :
    ∃ tix : Nat, r = (tix : Int) ∧
      (tab_rows db1 tix).length =
        ∑ v ∈ S,
          ((tab_rows db left.tabidx).filterMap
            (fun p => val (slice p.2 fl.offset fl.size))).count v *
          ((tab_rows db right.tabidx).filterMap
            (fun p => val (slice p.2 fr.offset fr.size))).count v := by
  have hnames : db.sch_unique_names = true →
      (field_names (sch_fields db ls.schidx ++ sch_fields db rs.schidx)).Nodup := by
    intro hu
    by_contra hdup
    have := join_fails_of_shared cmp junk db left right ls rs jl jr name hls hlt hrs hrt hu hdup
    rw [hrun] at this
    exact hne this
  obtain ⟨h1, h2, _, _⟩ := (join_core cmp junk db left right ls rs jl jr name fl fr hls hlt hrs
    hrt hnames (by rw [hfl]; rfl) (by rw [hfr]; rfl)).1 r db1 hrun hne
  refine ⟨db.num_pages + 1, h1, ?_⟩
  have hlen := congrArg List.length h2
  rw [List.length_map] at hlen
  obtain ⟨L, hL⟩ : ∃ L, L = (tab_rows db left.tabidx).filterMap
    (fun p => val (slice p.2 fl.offset fl.size)) := ⟨_, rfl⟩
  obtain ⟨R, hR⟩ : ∃ R, R = (tab_rows db right.tabidx).filterMap
    (fun p => val (slice p.2 fr.offset fr.size)) := ⟨_, rfl⟩
  have hsum := Finset.sum_list_map_count L (fun v => R.count v)
  have hstep : (((tab_rows db left.tabidx).map (fun p => p.2)).map (fun l =>
        (((tab_rows db right.tabidx).map (fun p => p.2)).filter (fun r =>
          cmp fl.type (slice l fl.offset fl.size) (slice r fr.offset fr.size))).map
          (fun r => l ++ r))).flatten.length =
      (L.map (fun v => R.count v)).sum := by
    rw [List.length_flatten, hL, ← sum_map_getD_eq_filterMap, hR]
    simp only [List.map_map]
    congr 1
    apply List.map_congr_left
    intro p _
    simp only [Function.comp, List.length_map]
    rw [filter_length_eq_count _ (fun r => val (slice r fr.offset fr.size))
      (val (slice p.2 fl.offset fl.size)) _ (fun r => hval _ _)]
    rw [List.filterMap_map]
    rfl
  rw [hlen, hstep, hsum, ← hL, ← hR]
  simp only [smul_eq_mul]
  apply Finset.sum_subset
  · intro v hv
    rw [List.mem_toFinset, hL, List.mem_filterMap] at hv
    obtain ⟨p, hp, hpv⟩ := hv
    exact hS p hp v hpv
  · intro v _ hv
    rw [List.mem_toFinset] at hv
    rw [List.count_eq_zero_of_not_mem hv, Nat.zero_mul]

/-- Instance of C5 on the join scenario of the spec (`A.id = B.id`, both sides
with a field `id`), with a comparator that is not reflexive: the key of eight
bytes `255` equals no key, as a NaN.  The joined table has `4 = 1·0 + 2·2`
rows, the sum over the values `1` and `2` of the left keys. -/
theorem tab_join_cardinality_witness :
    schema_valid demo_db demo_A_schema ∧
    table_valid demo_db demo_A demo_A_schema ∧
    schema_valid demo_db demo_B_schema ∧
    table_valid demo_db demo_B demo_B_schema ∧
    sch_get_field demo_db demo_A_schema "id" = some demo_id ∧
    sch_get_field demo_db demo_B_schema "id" = some demo_id ∧
    (∀ a b : List Byte, bytes_eq_nan demo_id.type a b = true ↔
      ∃ v, bytes_val_nan a = some v ∧ bytes_val_nan b = some v) ∧
    bytes_eq_nan .DT_FLOAT (List.replicate 8 255) (List.replicate 8 255) = false ∧
    (tab_join bytes_eq_nan demo_junk demo_db demo_A.tabidx demo_B.tabidx "id" "id" "J").1 ≠
      TABLE_FAIL ∧
    (tab_rows (tab_join bytes_eq_nan demo_junk demo_db demo_A.tabidx demo_B.tabidx "id" "id"
      "J").2 6).length = 4 ∧
    ∃ tix : Nat,
      (tab_join bytes_eq_nan demo_junk demo_db demo_A.tabidx demo_B.tabidx "id" "id" "J").1 =
        (tix : Int) ∧
      (tab_rows (tab_join bytes_eq_nan demo_junk demo_db demo_A.tabidx demo_B.tabidx "id" "id"
          "J").2 tix).length =
        ∑ v ∈ ({i64 1, i64 2} : Finset (List Byte)),
          ((tab_rows demo_db demo_A.tabidx).filterMap
            (fun p => bytes_val_nan (slice p.2 demo_id.offset demo_id.size))).count v *
          ((tab_rows demo_db demo_B.tabidx).filterMap
            (fun p => bytes_val_nan (slice p.2 demo_id.offset demo_id.size))).count v :=
  ⟨by decide, by decide, by decide, by decide, by decide, by decide,
   bytes_eq_nan_iff demo_id.type, by decide, by decide, by decide,
   tab_join_cardinality bytes_val_nan bytes_eq_nan demo_junk demo_db demo_A demo_B demo_A_schema
     demo_B_schema "id" "id" "J" demo_id demo_id (by decide) (by decide)
     (by decide) (by decide) (by decide) (by decide)
     (bytes_eq_nan_iff demo_id.type) {i64 1, i64 2} (by decide) _ _ rfl (by decide)⟩

/-- The join scenario of the spec under the two answers of the schema catalog
to a repeated field name: `A` and `B` both have a field `id`; when the catalog
accepts the repeated name the join returns table 6, when it rejects it the
join returns `TABLE_FAIL`. -/
theorem tab_join_shared_name_by_catalog :
    "id" ∈ field_names (sch_fields demo_db demo_A.schidx) ∧
    "id" ∈ field_names (sch_fields demo_db demo_B.schidx) ∧
    (tab_join bytes_eq demo_junk demo_db demo_A.tabidx demo_B.tabidx "id" "id" "J").1 = 6 ∧
    (tab_join bytes_eq demo_junk demo_db_strict demo_A.tabidx demo_B.tabidx "id" "id" "J").1 =
      TABLE_FAIL := by
  decide

/-- `tab_join` has no check of its own on the field names: for two stored
tables with valid schemas that share a field name, existing join fields and
room in a chunk for one joined slot, the join succeeds exactly when
`sch_add_field` accepts a repeated name. -/
theorem tab_join_shared_name_iff
    (cmp : datatype_t → List Byte → List Byte → Bool) (junk : field_t)
    (db : db_t) (left right : table_t) (ls rs : schema_t) (jl jr name : String)
    (fl fr : field_t)
    (hls : schema_valid db ls) (hlt : table_valid db left ls)
    (hrs : schema_valid db rs) (hrt : table_valid db right rs)
    (hfl : sch_get_field db ls jl = some fl) (hfr : sch_get_field db rs jr = some fr)
    (hcap : 0 < chunk_capacity db (ls.slot_size + rs.slot_size))
    (hshared : ¬ List.Disjoint (field_names (sch_fields db left.schidx))
      (field_names (sch_fields db right.schidx))) :
    (tab_join cmp junk db left.tabidx right.tabidx jl jr name).1 ≠ TABLE_FAIL ↔
      db.sch_unique_names = false := by
  rw [hlt.2.1, hrt.2.1] at hshared
  have hdup : ¬ (field_names (sch_fields db ls.schidx ++ sch_fields db rs.schidx)).Nodup := by
    intro h
    simp only [field_names, List.map_append] at h
    rw [List.nodup_append] at h
    exact hshared h.2.2
  constructor
  · intro hne
    cases hu : db.sch_unique_names with
    | false => rfl
    | true =>
      exact absurd (join_fails_of_shared cmp junk db left right ls rs jl jr name hls hlt hrs hrt
        hu hdup) hne
  · intro hu
    obtain ⟨db1, h⟩ := (join_core cmp junk db left right ls rs jl jr name fl fr hls hlt hrs hrt
      (fun h => by rw [hu] at h; cases h) (by rw [hfl]; rfl) (by rw [hfr]; rfl)).2 hcap
    rw [h]
    simp only [TABLE_FAIL]
    omega

/-- C7 (evaluation of the code at a type mismatch): joining the `char[4]` field
`x` of `A` with the integer field `bid` of `B` does not return `TABLE_FAIL`: the
join returns the index 6 of a new table, after creating the schema 5 and adding
the name `J` to the metatable.  `tab_join` has no check of the two datatypes. -/
theorem tab_join_type_mismatch_succeeds :
    (sch_get_field demo_db_renamed demo_A_schema "x").map (fun f => f.type) = some .DT_CHAR ∧
    (sch_get_field demo_db_renamed demo_B_schema "bid").map (fun f => f.type) = some .DT_INT ∧
    (tab_join bytes_eq demo_junk demo_db_renamed demo_A.tabidx demo_B.tabidx "x" "bid" "J").1 = 6 ∧
    (tab_join bytes_eq demo_junk demo_db_renamed demo_A.tabidx demo_B.tabidx "x" "bid" "J").1 ≠
      TABLE_FAIL ∧
    sch_load (tab_join bytes_eq demo_junk demo_db_renamed demo_A.tabidx demo_B.tabidx "x" "bid"
      "J").2 5 = some { schidx := 5, slot_size := 28 } ∧
    sch_load demo_db_renamed 5 = none ∧
    tab_load (tab_join bytes_eq demo_junk demo_db_renamed demo_A.tabidx demo_B.tabidx "x" "bid"
      "J").2 6 = some { tabidx := 6, schidx := 5 } ∧
    tab_load demo_db_renamed 6 = none ∧
    (tab_join bytes_eq demo_junk demo_db_renamed demo_A.tabidx demo_B.tabidx "x" "bid"
      "J").2.meta_table = demo_db_renamed.meta_table ++ [("J", 6)] := by
  decide

/-- C8 (evaluation of the code): projecting table `A(id, x)` of the scenario on
its field `x` gives a table with the schema `(x : char[4])` at offset 0 and one
row per source row, but each row holds the first four bytes of the source row
(the low bytes of `id`: 1, 2, 2), not the value of `x` (97, 98, 99): the copy
loop of `tab_projection` copies every field of `row` onto itself. -/
theorem tab_projection_keeps_source_offsets :
    (tab_projection demo_db demo_A demo_A_schema [demo_x] 1 "P").1 =
      some { tabidx := 6, schidx := 5 } ∧
    sch_fields (tab_projection demo_db demo_A demo_A_schema [demo_x] 1 "P").2 5 =
      [⟨"x", .DT_CHAR, 4, 0⟩] ∧
    (tab_rows (tab_projection demo_db demo_A demo_A_schema [demo_x] 1 "P").2 6).map
        (fun p => slice p.2 0 4) = [[1, 0, 0, 0], [2, 0, 0, 0], [2, 0, 0, 0]] ∧
    (tab_rows demo_db demo_A.tabidx).map (fun p => slice p.2 demo_x.offset demo_x.size) =
      [[97, 0, 0, 0], [98, 0, 0, 0], [99, 0, 0, 0]] := by
  decide

/-! ## Lemmas: rewriting a row in place -/

theorem idx_store_store {β : Type} (k : Nat) (v v1 : β) (l : List (Nat × β)) :
    idx_store k v (idx_store k v1 l) = idx_store k v l := by
  induction l with
  | nil => rfl
  | cons p rest ih =>
    obtain ⟨k', v'⟩ := p
    by_cases hk : k' = k
    · simp [idx_store, hk]
    · simp [idx_store, hk, ih]

theorem idx_store_self {β : Type} (k : Nat) (v : β) (l : List (Nat × β))
    (h : idx_load k l = some v) : idx_store k v l = l := by
  induction l with
  | nil => rfl
  | cons p rest ih =>
    obtain ⟨k', v'⟩ := p
    by_cases hk : k' = k
    · simp only [idx_load, hk, if_true, Option.some.injEq] at h
      simp [idx_store, hk, h]
    · simp only [idx_load, hk, if_false] at h
      simp [idx_store, hk, ih h]

theorem blocks_rows_upd_ge (cidx : Nat) (bs : List (Option (List Byte))) (s i : Nat)
    (F : List Byte → List Byte) (hi : i < s) :
    (blocks_rows cidx s bs).map (upd_at { chunk_idx := cidx, block_idx := i } F) =
      blocks_rows cidx s bs := by
  apply map_id_of
  intro p hp
  have := (mem_blocks_rows cidx bs s p hp).2.1
  have hne : ¬ p.1 = { chunk_idx := cidx, block_idx := i } := by
    intro e; rw [e] at this; simp only at this; omega
  simp [upd_at, hne]

theorem blocks_modify_rows (cidx : Nat) (F : List Byte → List Byte)
    (bs : List (Option (List Byte))) (s i : Nat) (r : List Byte)
    (hm : ({ chunk_idx := cidx, block_idx := s + i }, r) ∈ blocks_rows cidx s bs) :
    ∃ bs1, blocks_modify F i bs = some bs1 ∧
      blocks_rows cidx s bs1 =
        (blocks_rows cidx s bs).map (upd_at { chunk_idx := cidx, block_idx := s + i } F) := by
  induction bs generalizing s i with
  | nil => simp [blocks_rows] at hm
  | cons b rest ih =>
    cases i with
    | zero =>
      cases b with
      | none =>
        simp only [blocks_rows] at hm
        have := (mem_blocks_rows cidx rest (s + 1) _ hm).2.1
        simp only at this
        omega
      | some r0 =>
        refine ⟨some (F r0) :: rest, rfl, ?_⟩
        simp only [blocks_rows, List.map_cons, Nat.add_zero]
        rw [blocks_rows_upd_ge cidx rest (s + 1) s F (by omega)]
        simp [upd_at]
    | succ j =>
      have hs : s + (j + 1) = (s + 1) + j := by omega
      cases b with
      | none =>
        simp only [blocks_rows] at hm ⊢
        rw [hs] at hm ⊢
        obtain ⟨bs1, h1, h2⟩ := ih (s + 1) j hm
        exact ⟨none :: bs1, by simp [blocks_modify, h1], by simpa [blocks_rows] using h2⟩
      | some r0 =>
        simp only [blocks_rows, List.mem_cons] at hm
        rcases hm with hm | hm
        · simp only [Prod.mk.injEq, chblix_t.mk.injEq, true_and] at hm
          omega
        · rw [hs] at hm ⊢
          obtain ⟨bs1, h1, h2⟩ := ih (s + 1) j hm
          refine ⟨some r0 :: bs1, by simp [blocks_modify, h1], ?_⟩
          simp only [blocks_rows, List.map_cons, h2]
          have hne : ¬ ({ chunk_idx := cidx, block_idx := s } : chblix_t) =
              { chunk_idx := cidx, block_idx := s + 1 + j } := by
            simp only [chblix_t.mk.injEq, true_and]; omega
          simp [upd_at, hne]

theorem chunk_rows_upd_other (c : chunk_t) (h : chblix_t) (F : List Byte → List Byte)
    (hne : ¬ c.chunk_idx = h.chunk_idx) : (chunk_rows c).map (upd_at h F) = chunk_rows c := by
  apply map_id_of
  intro p hp
  have := (mem_blocks_rows c.chunk_idx c.blocks 0 p hp).1
  have hne2 : ¬ p.1 = h := by
    intro e; rw [e] at this; exact hne this.symm
  simp [upd_at, hne2]

theorem chain_rows_upd_other (cs : List chunk_t) (h : chblix_t) (F : List Byte → List Byte)
    (hne : h.chunk_idx ∉ cs.map (fun c => c.chunk_idx)) :
    (chain_rows cs).map (upd_at h F) = chain_rows cs := by
  apply map_id_of
  intro p hp
  have := mem_chain_rows_idx cs p hp
  have hne2 : ¬ p.1 = h := by
    intro e; rw [e] at this; exact hne this
  simp [upd_at, hne2]

/-- Rewriting the block under a handle of the scan rewrites that row of the
scan and nothing else. -/
theorem chain_modify_rows (F : List Byte → List Byte) (h : chblix_t) (cs : List chunk_t)
    (hwf : chain_wf cs) (r : List Byte) (hm : (h, r) ∈ chain_rows cs) :
    ∃ cs1, chain_modify F h cs = some cs1 ∧
      chain_rows cs1 = (chain_rows cs).map (upd_at h F) ∧
      cs1.map (fun c => c.chunk_idx) = cs.map (fun c => c.chunk_idx) := by
  induction cs with
  | nil => simp [chain_rows] at hm
  | cons c rest ih =>
    unfold chain_wf at hwf
    simp only [List.map_cons, List.nodup_cons] at hwf
    simp only [chain_rows, List.mem_append] at hm
    by_cases hc : c.chunk_idx = h.chunk_idx
    · have hin : (h, r) ∈ chunk_rows c := by
        rcases hm with hm | hm
        · exact hm
        · have := mem_chain_rows_idx rest _ hm
          simp only at this
          rw [← hc] at this
          exact absurd this hwf.1
      have hh : h = { chunk_idx := c.chunk_idx, block_idx := 0 + h.block_idx } := by
        cases h; simp only [chblix_t.mk.injEq] at hc ⊢; exact ⟨hc.symm, by omega⟩
      unfold chunk_rows at hin
      rw [hh] at hin
      obtain ⟨bs1, h1, h2⟩ := blocks_modify_rows c.chunk_idx F c.blocks 0 h.block_idx r hin
      rw [← hh] at h2
      refine ⟨{ c with blocks := bs1 } :: rest, by simp [chain_modify, hc, h1], ?_, rfl⟩
      simp only [chain_rows, chunk_rows, List.map_append, h2]
      rw [chain_rows_upd_other rest h F (by rw [← hc]; exact hwf.1)]
    · have hin : (h, r) ∈ chain_rows rest := by
        rcases hm with hm | hm
        · have := (mem_blocks_rows c.chunk_idx c.blocks 0 _ hm).1
          exact absurd this.symm hc
        · exact hm
      obtain ⟨cs1, h1, h2, h3⟩ := ih hwf.2 hin
      refine ⟨c :: cs1, by simp [chain_modify, hc, h1], ?_, by simp [h3]⟩
      simp only [chain_rows, List.map_append, h2, chunk_rows_upd_other c h F hc]

theorem blocks_rows_nodup (cidx : Nat) (bs : List (Option (List Byte))) (s : Nat) :
    ((blocks_rows cidx s bs).map (fun p => p.1)).Nodup := by
  induction bs generalizing s with
  | nil => simp [blocks_rows]
  | cons b rest ih =>
    cases b with
    | none => simpa [blocks_rows] using ih (s + 1)
    | some r =>
      simp only [blocks_rows, List.map_cons, List.nodup_cons]
      refine ⟨?_, ih (s + 1)⟩
      intro hm
      obtain ⟨p, hp, hpe⟩ := List.mem_map.mp hm
      have := (mem_blocks_rows cidx rest (s + 1) p hp).2.1
      rw [hpe] at this
      simp only at this
      omega

/-- The handles of a scan are pairwise distinct. -/
theorem chain_handles_nodup (cs : List chunk_t) (hwf : chain_wf cs) :
    ((chain_rows cs).map (fun p => p.1)).Nodup := by
  induction cs with
  | nil => simp [chain_rows]
  | cons c rest ih =>
    unfold chain_wf at hwf
    simp only [List.map_cons, List.nodup_cons] at hwf
    simp only [chain_rows, List.map_append]
    rw [List.nodup_append]
    refine ⟨blocks_rows_nodup _ _ _, ih hwf.2, ?_⟩
    intro a ha hb
    obtain ⟨p, hp, hpe⟩ := List.mem_map.mp ha
    obtain ⟨q, hq, hqe⟩ := List.mem_map.mp hb
    have h1 := (mem_blocks_rows c.chunk_idx c.blocks 0 p hp).1
    have h2 := mem_chain_rows_idx rest q hq
    rw [hqe, ← hpe, h1] at h2
    exact hwf.1 h2

theorem chain_rows_unique (cs : List chunk_t) (hwf : chain_wf cs) (h : chblix_t)
    (a b : List Byte) (ha : (h, a) ∈ chain_rows cs) (hb : (h, b) ∈ chain_rows cs) : a = b := by
  have h1 := chain_read_of_mem cs hwf _ ha
  have h2 := chain_read_of_mem cs hwf _ hb
  simp only at h1 h2
  rw [h1] at h2
  exact Option.some.inj h2

theorem upd_at_fst (h : chblix_t) (F : List Byte → List Byte) (p : chblix_t × List Byte) :
    (upd_at h F p).1 = p.1 := by
  unfold upd_at
  split <;> rfl

/-- A loop whose body rewrites the row it is run on rewrites every row whose
handle is in the list of handles, and nothing else. -/
theorem for_each_rewrites (table : table_t) (schema : schema_t) (tablix bs : Nat)
    (htab : table.tabidx = tablix)
    (body : chblix_t → List Byte → db_t → Option Int × db_t) (G : List Byte → List Byte)
    (hbody : body_rewrites tablix schema.slot_size bs body G)
    (hs : List chblix_t) (db : db_t) (t : table_rec)
    (hl : idx_load tablix db.tables = some t) (hbs : t.block_size = bs)
    (hwf : chain_wf t.chunks) (hnd : hs.Nodup)
    (hin : ∀ h ∈ hs, h ∈ (chain_rows t.chunks).map (fun p => p.1)) :
    ∃ cs1,
      tab_for_each_row table schema body hs db =
        (none, { db with tables := idx_store tablix { t with chunks := cs1 } db.tables }) ∧
      chain_rows cs1 =
        (chain_rows t.chunks).map (fun p => if p.1 ∈ hs then (p.1, G p.2) else p) ∧
      cs1.map (fun c => c.chunk_idx) = t.chunks.map (fun c => c.chunk_idx) := by
  induction hs generalizing db t with
  | nil =>
    refine ⟨t.chunks, ?_, ?_, rfl⟩
    · simp only [tab_for_each_row]
      have : ({ t with chunks := t.chunks } : table_rec) = t := rfl
      rw [this, idx_store_self tablix t db.tables hl]
    · simp
  | cons h rest ih =>
    simp only [List.nodup_cons] at hnd
    obtain ⟨p, hp, hpe⟩ := List.mem_map.mp (hin h (by simp))
    obtain ⟨ph, old⟩ := p
    simp only at hpe
    subst hpe
    have hread : tab_read_row db table.tabidx ph = some old := by
      rw [htab]
      simp only [tab_read_row, tab_chunks, hl]
      exact chain_read_of_mem t.chunks hwf _ hp
    obtain ⟨cs1, hb1, hb2, hb3⟩ := hbody ph old db t hl hbs hwf hp
    have hl1 : idx_load tablix
        ({ db with tables := idx_store tablix { t with chunks := cs1 } db.tables } : db_t).tables =
        some { t with chunks := cs1 } := idx_load_store_same _ _ _ _ hl
    have hwf1 : chain_wf ({ t with chunks := cs1 } : table_rec).chunks := by
      unfold chain_wf at hwf ⊢
      simp only []
      rw [hb3]; exact hwf
    have hin1 : ∀ h ∈ rest,
        h ∈ (chain_rows ({ t with chunks := cs1 } : table_rec).chunks).map (fun p => p.1) := by
      intro h' hh'
      simp only []
      rw [hb2, List.map_map]
      have : ((fun p : chblix_t × List Byte => p.1) ∘ upd_at ph G) = fun p => p.1 := by
        funext q; exact upd_at_fst ph G q
      rw [this]
      exact hin h' (List.mem_cons_of_mem _ hh')
    obtain ⟨cs2, hc1, hc2, hc3⟩ := ih _ { t with chunks := cs1 } hl1 hbs hwf1 hnd.2 hin1
    refine ⟨cs2, ?_, ?_, ?_⟩
    · simp only [tab_for_each_row, hread, hb1, hc1]
      simp only [idx_store_store]
    · rw [hc2]
      simp only []
      rw [hb2, List.map_map]
      apply List.map_congr_left
      intro q _
      simp only [Function.comp, upd_at]
      by_cases hq : q.1 = ph
      · have hnr : q.1 ∉ rest := by rw [hq]; exact hnd.1
        simp [hq, hnd.1]
      · simp [hq]
    · rw [hc3]; simp only []; exact hb3

/-- The conditional write of the update operators rewrites the row it is run
on. -/
theorem cond_write_rewrites (tablix slot bs : Nat) (c : List Byte → Bool)
    (W : db_t → chblix_t → List Byte → Int × db_t)
    (F : List Byte → List Byte → List Byte)
    (hW : ∀ db h el t, idx_load tablix db.tables = some t → t.block_size = bs →
      W db h el =
        match chain_modify (F el) h t.chunks with
        | none => (TABLE_FAIL, db)
        | some cs =>
          (TABLE_SUCCESS, { db with tables := idx_store tablix { t with chunks := cs } db.tables })) :
    body_rewrites tablix slot bs (cond_write_body c W)
      (fun old => if c (old.take slot) then F (old.take slot) old else old) := by
  intro h old db t hl hbs hwf hm
  unfold cond_write_body
  cases hc : c (old.take slot) with
  | false =>
    refine ⟨t.chunks, ?_, ?_, rfl⟩
    · simp only [Bool.false_eq_true, if_false]
      have : ({ t with chunks := t.chunks } : table_rec) = t := rfl
      rw [this, idx_store_self tablix t db.tables hl]
    · symm
      apply map_id_of
      intro p hp
      unfold upd_at
      obtain ⟨p1, p2⟩ := p
      by_cases hp1 : p1 = h
      · subst hp1
        have : p2 = old := chain_rows_unique t.chunks hwf _ _ _ hp hm
        subst this
        simp [hc]
      · simp [hp1]
  | true =>
    obtain ⟨cs1, h1, h2, h3⟩ := chain_modify_rows (F (old.take slot)) h t.chunks hwf old hm
    refine ⟨cs1, ?_, ?_, h3⟩
    · simp only [if_true, hW db h _ t hl hbs, h1]
      have : ¬ TABLE_SUCCESS = TABLE_FAIL := by decide
      simp only [this, if_false]
    · rw [h2]
      apply List.map_congr_left
      intro p hp
      unfold upd_at
      obtain ⟨p1, p2⟩ := p
      by_cases hp1 : p1 = h
      · subst hp1
        have : p2 = old := chain_rows_unique t.chunks hwf _ _ _ hp hm
        subst this
        simp [hc]
      · simp [hp1]

/-! ## Update by predicate -/

theorem update_row_body_eq
    (cmp : datatype_t → List Byte → List Byte → condition_t → Bool) (tablix : Nat)
    (us : schema_t) (uf : field_t) (cond : condition_t) (cv : List Byte) (type : datatype_t)
    (row : List Byte) :
    update_row_body cmp tablix us uf cond cv type row =
      cond_write_body (fun el => cmp type (slice el uf.offset uf.size) cv cond)
        (fun db h el => tab_update_row db tablix h (memcpy el 0 row 0 us.slot_size)) := by
  funext h el db
  simp only [update_row_body, cond_write_body, memcpy_malloc]

theorem update_element_body_eq
    (cmp : datatype_t → List Byte → List Byte → condition_t → Bool) (tablix : Nat)
    (cf uf : field_t) (cond : condition_t) (cv : List Byte) (type : datatype_t)
    (element : List Byte) :
    update_element_body cmp tablix cf uf cond cv type element =
      cond_write_body (fun el => cmp type (slice el cf.offset cf.size) cv cond)
        (fun db h _ => tab_update_element db tablix h uf (slice element 0 uf.size)) := by
  funext h el db
  simp only [update_element_body, cond_write_body, memcpy_malloc]

/-- The effect of a loop of the update operators on a valid table: the loop
runs to its end and rewrites by `G` every row that satisfies `c`. -/
theorem update_loop_spec (db : db_t) (table : table_t) (schema : schema_t)
    (ht : table_valid db table schema)
    (hbs : tab_block_size db table.tabidx = schema.slot_size)
    (c : List Byte → Bool) (W : db_t → chblix_t → List Byte → Int × db_t)
    (F : List Byte → List Byte → List Byte)
    (hW : ∀ db h el t, idx_load table.tabidx db.tables = some t →
      t.block_size = schema.slot_size →
      W db h el =
        match chain_modify (F el) h t.chunks with
        | none => (TABLE_FAIL, db)
        | some cs =>
          (TABLE_SUCCESS,
            { db with tables := idx_store table.tabidx { t with chunks := cs } db.tables })) :
    ∃ db1,
      tab_for_each_row table schema (cond_write_body c W) (tab_handles db table.tabidx) db =
        (none, db1) ∧
      tab_rows db1 table.tabidx =
        (tab_rows db table.tabidx).map (fun p => if c p.2 then (p.1, F p.2 p.2) else p) ∧
      (∀ k, k ≠ table.tabidx → idx_load k db1.tables = idx_load k db.tables) ∧
      db1.schemas = db.schemas ∧ db1.meta_table = db.meta_table ∧
      db1.num_pages = db.num_pages ∧ db1.page_size = db.page_size := by
  obtain ⟨ht1, ht2, ht3, ht4, ht5⟩ := ht
  cases hl : idx_load table.tabidx db.tables with
  | none => simp [tab_load, hl] at ht3
  | some t =>
    have hch : tab_chunks db table.tabidx = t.chunks := by simp [tab_chunks, hl]
    have hbs' : t.block_size = schema.slot_size := by simpa [tab_block_size, hl] using hbs
    rw [hch] at ht4
    obtain ⟨cs1, h1, h2, h3⟩ := for_each_rewrites table schema table.tabidx schema.slot_size rfl
      (cond_write_body c W) _
      (cond_write_rewrites table.tabidx schema.slot_size schema.slot_size c W F hW)
      (tab_handles db table.tabidx) db t hl hbs' ht4
      (by simp only [tab_handles, tab_rows, hch]; exact chain_handles_nodup _ ht4)
      (by intro h hh; simpa only [tab_handles, tab_rows, hch] using hh)
    refine ⟨_, h1, ?_, ?_, rfl, rfl, rfl, rfl⟩
    · simp only [tab_rows, tab_chunks, idx_load_store_same _ _ _ _ hl, hl]
      rw [h2]
      apply List.map_congr_left
      intro p hp
      have hmem : p.1 ∈ tab_handles db table.tabidx := by
        simp only [tab_handles, tab_rows, hch]
        exact List.mem_map.mpr ⟨p, hp, rfl⟩
      have hlen : p.2.length = schema.slot_size := ht5 p (by simpa [tab_rows, hch] using hp)
      simp only [hmem, if_true, take_of_length _ _ hlen]
      split <;> rfl
    · intro k hk
      exact idx_load_store_other _ _ _ _ hk

theorem fields_size_cons (f : field_t) (fs : List field_t) :
    fields_size (f :: fs) = f.size + fields_size fs := by
  simp [fields_size]

theorem field_bounds (base : Nat) (fs : List field_t) (f : field_t) (hf : f ∈ fs)
    (ho : offsets_from base fs) : f.offset + f.size ≤ base + fields_size fs := by
  induction fs generalizing base with
  | nil => simp at hf
  | cons g rest ih =>
    obtain ⟨h1, h2⟩ := ho
    rw [fields_size_cons]
    simp only [List.mem_cons] at hf
    rcases hf with hf | hf
    · subst hf; omega
    · have := ih (base + g.size) hf h2
      omega

theorem append3_parts (A E D : List Byte) :
    slice (A ++ E ++ D) A.length E.length = E ∧ (A ++ E ++ D).take A.length = A ∧
    (A ++ E ++ D).drop (A.length + E.length) = D := by
  refine ⟨?_, ?_, ?_⟩
  · simp [slice]
  · simp
  · have : A.length + E.length = (A ++ E).length := by simp
    rw [this, List.drop_left]

/-- Writing `element` over the bytes `[off, off + size)` of `old`. -/
theorem field_write_spec (old element : List Byte) (off size : Nat)
    (hb : off + size ≤ old.length) (he : element.length = size) :
    slice (old.take off ++ element ++ old.drop (off + size)) off size = element ∧
    (old.take off ++ element ++ old.drop (off + size)).take off = old.take off ∧
    (old.take off ++ element ++ old.drop (off + size)).drop (off + size) =
      old.drop (off + size) ∧
    (old.take off ++ element ++ old.drop (off + size)).length = old.length := by
  have h1 : (old.take off).length = off := by simp; omega
  obtain ⟨a1, a2, a3⟩ := append3_parts (old.take off) element (old.drop (off + size))
  rw [h1, he] at a1 a3
  rw [h1] at a2
  refine ⟨a1, a2, a3, ?_⟩
  simp; omega

/-- C9: on a stored table with a valid schema, an existing compare field, a
value type equal to the field's type and a supplied row of `slot_size` bytes,
`tab_update_row_op` returns `TABLE_SUCCESS`; afterwards every row whose
compare-field bytes satisfied the condition holds exactly the supplied row,
every other row is unchanged, and the handles and their scan order are
unchanged; the other tables, the schemas and the metatable are untouched. -/
theorem tab_update_row_op_rows
    (cmp : datatype_t → List Byte → List Byte → condition_t → Bool)
    (db : db_t) (tablix : Nat) (row : List Byte) (field_name : String)
    (condition : condition_t) (value : List Byte) (type : datatype_t)
    (table : table_t) (schema : schema_t) (field : field_t)
    (hs : schema_valid db schema) (ht : table_valid db table schema)
    (hix : table.tabidx = tablix)
    (hbs : tab_block_size db tablix = schema.slot_size)
    (hf : sch_get_field db schema field_name = some field)
    (hty : type = field.type) (hrow : row.length = schema.slot_size) :
    ∃ db1,
      tab_update_row_op cmp db tablix row field_name condition value type =
        (TABLE_SUCCESS, db1) ∧
      tab_rows db1 tablix =
        (tab_rows db tablix).map (fun p =>
          if cmp type (slice p.2 field.offset field.size) (value.take field.size) condition
          then (p.1, row) else p) ∧
      tab_handles db1 tablix = tab_handles db tablix ∧
      (∀ k, k ≠ tablix → tab_rows db1 k = tab_rows db k) ∧
      db1.schemas = db.schemas ∧ db1.meta_table = db.meta_table := by
  subst hix
  have hsl : sch_load db table.schidx = some schema := by
    rw [ht.2.1]; exact sch_load_of_valid db schema hs
  obtain ⟨db1, h1, h2, h3, h4, h5, _, _⟩ := update_loop_spec db table schema ht hbs
    (fun el => cmp type (slice el field.offset field.size) (value.take field.size) condition)
    (fun db h el => tab_update_row db table.tabidx h (memcpy el 0 row 0 schema.slot_size))
    (fun el _ => (memcpy el 0 row 0 schema.slot_size).take schema.slot_size)
    (by
      intro d h el t hl hb
      simp only [tab_update_row, hl, hb])
  have hrows : tab_rows db1 table.tabidx =
      (tab_rows db table.tabidx).map (fun p =>
        if cmp type (slice p.2 field.offset field.size) (value.take field.size) condition
        then (p.1, row) else p) := by
    rw [h2]
    apply List.map_congr_left
    intro p hp
    have hlen := ht.2.2.2.2 p hp
    have hw : (memcpy p.2 0 row 0 schema.slot_size).take schema.slot_size = row := by
      simp only [memcpy, slice, List.take_zero, List.nil_append, List.drop_zero, Nat.zero_add]
      rw [take_of_length row _ hrow, List.take_append_of_le_length (by omega),
        take_of_length row _ hrow]
    simp only [hw]
  refine ⟨db1, ?_, hrows, ?_, ?_, h4, h5⟩
  · unfold tab_update_row_op
    simp only [ht.2.2.1, hsl, hf, hty, ne_eq, not_true_eq_false, if_false,
      update_row_body_eq, memcpy_malloc, slice_zero]
    rw [← hty, h1]
  · simp only [tab_handles, hrows, List.map_map]
    apply List.map_congr_left
    intro p _
    simp only [Function.comp]
    split <;> rfl
  · intro k hk
    simp only [tab_rows, tab_chunks, h3 k hk]

/-- Instance of C9 on table `A` of the scenario: rows with `id = 2` are overwritten. -/
theorem tab_update_row_op_rows_witness :
    schema_valid demo_db demo_A_schema ∧ table_valid demo_db demo_A demo_A_schema ∧
    tab_block_size demo_db 2 = demo_A_schema.slot_size ∧
    sch_get_field demo_db demo_A_schema "id" = some demo_id ∧
    (i64 7 ++ [1, 1, 1, 1]).length = demo_A_schema.slot_size ∧
    ∃ db1,
      tab_update_row_op bytes_compare demo_db 2 (i64 7 ++ [1, 1, 1, 1]) "id" .COND_EQ (i64 2)
        .DT_INT = (TABLE_SUCCESS, db1) ∧
      tab_rows db1 2 =
        (tab_rows demo_db 2).map (fun p =>
          if bytes_compare .DT_INT (slice p.2 demo_id.offset demo_id.size)
            ((i64 2).take demo_id.size) .COND_EQ
          then (p.1, i64 7 ++ [1, 1, 1, 1]) else p) ∧
      tab_handles db1 2 = tab_handles demo_db 2 ∧
      (∀ k, k ≠ 2 → tab_rows db1 k = tab_rows demo_db k) ∧
      db1.schemas = demo_db.schemas ∧ db1.meta_table = demo_db.meta_table :=
  ⟨by decide, by decide, by decide, by decide, by decide,
   tab_update_row_op_rows bytes_compare demo_db 2 (i64 7 ++ [1, 1, 1, 1]) "id" .COND_EQ (i64 2)
     .DT_INT demo_A demo_A_schema demo_id (by decide) (by decide) rfl (by decide) (by decide)
     rfl (by decide)⟩

/-- C10: on a stored table with a valid schema, existing compare and target
fields, a value type equal to the compare field's type and an element of the
target field's size, `tab_update_element_op` returns `TABLE_SUCCESS`; afterwards
in every row whose compare-field bytes satisfied the condition the bytes
`[offset, offset + size)` of the target field are the element and all other
bytes are unchanged, and every other row is unchanged. -/
theorem tab_update_element_op_rows
    (cmp : datatype_t → List Byte → List Byte → condition_t → Bool)
    (db : db_t) (tablix : Nat) (element : List Byte) (field_name field_comp : String)
    (condition : condition_t) (value : List Byte) (type : datatype_t)
    (table : table_t) (schema : schema_t) (comp_field upd_field : field_t)
    (hs : schema_valid db schema) (ht : table_valid db table schema)
    (hix : table.tabidx = tablix)
    (hbs : tab_block_size db tablix = schema.slot_size)
    (hfc : sch_get_field db schema field_comp = some comp_field)
    (hfu : sch_get_field db schema field_name = some upd_field)
    (hty : type = comp_field.type) (hel : element.length = upd_field.size) :
    ∃ db1,
      tab_update_element_op cmp db tablix element field_name field_comp condition value type =
        (TABLE_SUCCESS, db1) ∧
      tab_rows db1 tablix =
        (tab_rows db tablix).map (fun p =>
          if cmp type (slice p.2 comp_field.offset comp_field.size)
            (value.take comp_field.size) condition
          then (p.1, p.2.take upd_field.offset ++ element ++
                  p.2.drop (upd_field.offset + upd_field.size))
          else p) ∧
      (∀ p ∈ tab_rows db tablix,
        slice (p.2.take upd_field.offset ++ element ++
          p.2.drop (upd_field.offset + upd_field.size)) upd_field.offset upd_field.size =
          element ∧
        (p.2.take upd_field.offset ++ element ++
          p.2.drop (upd_field.offset + upd_field.size)).take upd_field.offset =
          p.2.take upd_field.offset ∧
        (p.2.take upd_field.offset ++ element ++
          p.2.drop (upd_field.offset + upd_field.size)).drop
            (upd_field.offset + upd_field.size) =
          p.2.drop (upd_field.offset + upd_field.size) ∧
        (p.2.take upd_field.offset ++ element ++
          p.2.drop (upd_field.offset + upd_field.size)).length = p.2.length) := by
  subst hix
  have hsl : sch_load db table.schidx = some schema := by
    rw [ht.2.1]; exact sch_load_of_valid db schema hs
  obtain ⟨db1, h1, h2, _⟩ := update_loop_spec db table schema ht hbs
    (fun el => cmp type (slice el comp_field.offset comp_field.size)
      (value.take comp_field.size) condition)
    (fun db h _ => tab_update_element db table.tabidx h upd_field
      (slice element 0 upd_field.size))
    (fun _ old => memcpy old upd_field.offset (slice element 0 upd_field.size) 0 upd_field.size)
    (by
      intro d h el t hl hb
      simp only [tab_update_element, hl])
  have hw : ∀ old : List Byte,
      memcpy old upd_field.offset (slice element 0 upd_field.size) 0 upd_field.size =
        old.take upd_field.offset ++ element ++ old.drop (upd_field.offset + upd_field.size) := by
    intro old
    simp only [memcpy, slice, List.drop_zero, List.take_take, Nat.min_self]
    rw [take_of_length element _ hel]
  refine ⟨db1, ?_, ?_, ?_⟩
  · unfold tab_update_element_op
    simp only [ht.2.2.1, hsl, hfc, hfu, hty, ne_eq, not_true_eq_false, if_false,
      update_element_body_eq, memcpy_malloc, slice_zero]
    simp only [slice_zero] at h1
    rw [← hty, h1]
  · rw [h2]
    apply List.map_congr_left
    intro p _
    simp only [hw]
  · intro p hp
    have hmem : upd_field ∈ sch_fields db schema.schidx :=
      List.mem_of_find?_eq_some hfu
    have hb := field_bounds 0 _ upd_field hmem hs.2.2.2.1
    rw [Nat.zero_add, ← hs.2.2.2.2, ← ht.2.2.2.2 p hp] at hb
    exact field_write_spec p.2 element upd_field.offset upd_field.size hb hel

/-- Instance of C10 on table `A` of the scenario: field `x` of the rows with `id = 2`. -/
theorem tab_update_element_op_rows_witness :
    schema_valid demo_db demo_A_schema ∧ table_valid demo_db demo_A demo_A_schema ∧
    tab_block_size demo_db 2 = demo_A_schema.slot_size ∧
    sch_get_field demo_db demo_A_schema "id" = some demo_id ∧
    sch_get_field demo_db demo_A_schema "x" = some demo_x ∧
    ([5, 6, 7, 8] : List Byte).length = demo_x.size ∧
    ∃ db1,
      tab_update_element_op bytes_compare demo_db 2 [5, 6, 7, 8] "x" "id" .COND_EQ (i64 2)
        .DT_INT = (TABLE_SUCCESS, db1) ∧
      tab_rows db1 2 =
        (tab_rows demo_db 2).map (fun p =>
          if bytes_compare .DT_INT (slice p.2 demo_id.offset demo_id.size)
            ((i64 2).take demo_id.size) .COND_EQ
          then (p.1, p.2.take demo_x.offset ++ [5, 6, 7, 8] ++
                  p.2.drop (demo_x.offset + demo_x.size))
          else p) ∧
      (∀ p ∈ tab_rows demo_db 2,
        slice (p.2.take demo_x.offset ++ [5, 6, 7, 8] ++
          p.2.drop (demo_x.offset + demo_x.size)) demo_x.offset demo_x.size = [5, 6, 7, 8] ∧
        (p.2.take demo_x.offset ++ [5, 6, 7, 8] ++
          p.2.drop (demo_x.offset + demo_x.size)).take demo_x.offset =
          p.2.take demo_x.offset ∧
        (p.2.take demo_x.offset ++ [5, 6, 7, 8] ++
          p.2.drop (demo_x.offset + demo_x.size)).drop (demo_x.offset + demo_x.size) =
          p.2.drop (demo_x.offset + demo_x.size) ∧
        (p.2.take demo_x.offset ++ [5, 6, 7, 8] ++
          p.2.drop (demo_x.offset + demo_x.size)).length = p.2.length) :=
  ⟨by decide, by decide, by decide, by decide, by decide, by decide,
   tab_update_element_op_rows bytes_compare demo_db 2 [5, 6, 7, 8] "x" "id" .COND_EQ (i64 2)
     .DT_INT demo_A demo_A_schema demo_id demo_x (by decide) (by decide) rfl (by decide)
     (by decide) (by decide) rfl (by decide)⟩

/-! ## The validity predicates hold of what the catalog builds -/

theorem offsets_from_relocate (base : Nat) (fs : List field_t) :
    offsets_from base (relocate base fs) := by
  induction fs generalizing base with
  | nil => trivial
  | cons f rest ih => exact ⟨rfl, ih (base + f.size)⟩

theorem fields_size_relocate (base : Nat) (fs : List field_t) :
    fields_size (relocate base fs) = fields_size fs := by
  induction fs generalizing base with
  | nil => rfl
  | cons f rest ih =>
    have := ih (base + f.size)
    simp only [fields_size] at this ⊢
    simp [relocate, this]

/-- A schema built by `sch_init` followed by a successful run of
`sch_add_field` over any field list is valid, when the catalog rejects a
repeated name. -/
theorem schema_valid_of_build (db : db_t) (fs : List field_t) (s : schema_t) (db2 : db_t)
    (hu : db.sch_unique_names = true)
    (h : add_fields fs { schidx := db.num_pages, slot_size := 0 } (sch_init db).2 =
      (true, s, db2)) : schema_valid db2 s := by
  have hl0 : idx_load (schema_t.mk db.num_pages 0).schidx (sch_init db).2.schemas =
      some { slot_size := (schema_t.mk db.num_pages 0).slot_size, fields := [] } := by
    simp [sch_init, idx_load]
  obtain ⟨a1, a2, a3, _, _, _, a7, _⟩ := add_fields_ok fs _ s _ db2 [] hl0 h
  have hnd := (add_fields_true_iff fs (schema_t.mk db.num_pages 0) (sch_init db).2 0 [] hl0
    hu (by simp [field_names])).1 (by rw [h])
  simp only [List.nil_append, Nat.zero_add] at a1 a2 a3 hnd
  have hf : sch_fields db2 s.schidx = relocate 0 fs := by
    simp only [sch_fields, a1, a3]
  refine ⟨?_, ?_, ?_, ?_, ?_⟩
  · rw [a1, a7]; simp [sch_init]
  · rw [hf, a1]; exact a3
  · rw [hf, field_names_relocate]; exact hnd
  · rw [hf]; exact offsets_from_relocate 0 fs
  · rw [hf, fields_size_relocate]; exact a2

/-! ## Failures detected before any mutation -/

/-- C17: when the named field is not in the schema of the stored table,
`tab_select_op`, `tab_update_row_op` and `tab_update_element_op` (whether the
compare field or the target field is the missing one) return `TABLE_FAIL` and
leave the whole state as it was: no row, schema, table or metatable entry is
created or modified. -/
theorem missing_field_fails_unchanged
    (cmp : datatype_t → List Byte → List Byte → condition_t → Bool)
    (db : db_t) (tablix : Nat) (t : table_t) (s : schema_t) (fname : String)
    (ht : tab_load db tablix = some t) (hs : sch_load db t.schidx = some s)
    (hf : sch_get_field db s fname = none)
    (name other : String) (row element value : List Byte) (condition : condition_t)
    (type : datatype_t) :
    tab_select_op cmp db tablix name fname condition value type = (TABLE_FAIL, db) ∧
    tab_update_row_op cmp db tablix row fname condition value type = (TABLE_FAIL, db) ∧
    tab_update_element_op cmp db tablix element other fname condition value type =
      (TABLE_FAIL, db) ∧
    tab_update_element_op cmp db tablix element fname other condition value type =
      (TABLE_FAIL, db) := by
  refine ⟨?_, ?_, ?_, ?_⟩
  · simp only [tab_select_op, ht, hs, hf]
  · simp only [tab_update_row_op, ht, hs, hf]
  · simp only [tab_update_element_op, ht, hs, hf]
  · simp only [tab_update_element_op, ht, hs, hf]
    cases sch_get_field db s other <;> rfl

/-- Instance of C17 on table `A` of the scenario and the name `zz`. -/
theorem missing_field_fails_unchanged_witness :
    tab_load demo_db 2 = some demo_A ∧ sch_load demo_db demo_A.schidx = some demo_A_schema ∧
    sch_get_field demo_db demo_A_schema "zz" = none ∧
    (tab_select_op bytes_compare demo_db 2 "S" "zz" .COND_EQ (i64 2) .DT_INT =
      (TABLE_FAIL, demo_db) ∧
    tab_update_row_op bytes_compare demo_db 2 (i64 7 ++ [1, 1, 1, 1]) "zz" .COND_EQ (i64 2)
      .DT_INT = (TABLE_FAIL, demo_db) ∧
    tab_update_element_op bytes_compare demo_db 2 [5, 6, 7, 8] "x" "zz" .COND_EQ (i64 2)
      .DT_INT = (TABLE_FAIL, demo_db) ∧
    tab_update_element_op bytes_compare demo_db 2 [5, 6, 7, 8] "zz" "x" .COND_EQ (i64 2)
      .DT_INT = (TABLE_FAIL, demo_db)) :=
  ⟨by decide, by decide, by decide,
   missing_field_fails_unchanged bytes_compare demo_db 2 demo_A demo_A_schema "zz" (by decide)
     (by decide) (by decide) "S" "x" (i64 7 ++ [1, 1, 1, 1]) [5, 6, 7, 8] (i64 2) .COND_EQ
     .DT_INT⟩

/-- C18: when the supplied value type differs from the datatype of the compare
field of the stored table, `tab_update_row_op` and `tab_update_element_op`
return `TABLE_FAIL` and leave the whole state as it was; in particular every
row of the table is unchanged. -/
theorem update_type_mismatch_fails_unchanged
    (cmp : datatype_t → List Byte → List Byte → condition_t → Bool)
    (db : db_t) (tablix : Nat) (t : table_t) (s : schema_t) (field_comp : String)
    (f : field_t)
    (ht : tab_load db tablix = some t) (hs : sch_load db t.schidx = some s)
    (hf : sch_get_field db s field_comp = some f)
    (type : datatype_t) (hty : type ≠ f.type)
    (field_name : String) (row element value : List Byte) (condition : condition_t) :
    tab_update_row_op cmp db tablix row field_comp condition value type = (TABLE_FAIL, db) ∧
    tab_update_element_op cmp db tablix element field_name field_comp condition value type =
      (TABLE_FAIL, db) ∧
    tab_rows (tab_update_row_op cmp db tablix row field_comp condition value type).2 tablix =
      tab_rows db tablix ∧
    tab_rows (tab_update_element_op cmp db tablix element field_name field_comp condition value
      type).2 tablix = tab_rows db tablix := by
  have h1 : tab_update_row_op cmp db tablix row field_comp condition value type =
      (TABLE_FAIL, db) := by
    simp only [tab_update_row_op, ht, hs, hf, hty, ne_eq, not_false_eq_true, if_true]
  have h2 : tab_update_element_op cmp db tablix element field_name field_comp condition value
      type = (TABLE_FAIL, db) := by
    simp only [tab_update_element_op, ht, hs, hf]
    cases sch_get_field db s field_name with
    | none => rfl
    | some g => simp only [hty, ne_eq, not_false_eq_true, if_true]
  exact ⟨h1, h2, by rw [h1], by rw [h2]⟩

/-- Instance of C18 on table `A` of the scenario: compare field `id` (an
integer) with a value of type `DT_FLOAT`. -/
theorem update_type_mismatch_fails_unchanged_witness :
    tab_load demo_db 2 = some demo_A ∧ sch_load demo_db demo_A.schidx = some demo_A_schema ∧
    sch_get_field demo_db demo_A_schema "id" = some demo_id ∧
    datatype_t.DT_FLOAT ≠ demo_id.type ∧
    (tab_update_row_op bytes_compare demo_db 2 (i64 7 ++ [1, 1, 1, 1]) "id" .COND_EQ (i64 2)
      .DT_FLOAT = (TABLE_FAIL, demo_db) ∧
    tab_update_element_op bytes_compare demo_db 2 [5, 6, 7, 8] "x" "id" .COND_EQ (i64 2)
      .DT_FLOAT = (TABLE_FAIL, demo_db) ∧
    tab_rows (tab_update_row_op bytes_compare demo_db 2 (i64 7 ++ [1, 1, 1, 1]) "id" .COND_EQ
      (i64 2) .DT_FLOAT).2 2 = tab_rows demo_db 2 ∧
    tab_rows (tab_update_element_op bytes_compare demo_db 2 [5, 6, 7, 8] "x" "id" .COND_EQ
      (i64 2) .DT_FLOAT).2 2 = tab_rows demo_db 2) :=
  ⟨by decide, by decide, by decide, by decide,
   update_type_mismatch_fails_unchanged bytes_compare demo_db 2 demo_A demo_A_schema "id"
     demo_id (by decide) (by decide) (by decide) .DT_FLOAT (by decide) "x"
     (i64 7 ++ [1, 1, 1, 1]) [5, 6, 7, 8] (i64 2) .COND_EQ⟩

/-! ## Lookup of a row by value -/

/-- On a chain with distinct chunk indices the element loop of `tab_get_row`
returns the handle of the first row of the list whose element equals the
value. -/
theorem for_each_element_find (ce : datatype_t → List Byte → List Byte → Bool)
    (table : table_t) (field : field_t) (value : List Byte) (type : datatype_t)
    (db : db_t) (hwf : chain_wf (tab_chunks db table.tabidx))
    (L : List (chblix_t × List Byte)) (hL : ∀ p ∈ L, p ∈ tab_rows db table.tabidx) :
    tab_for_each_element table field (get_row_body ce value type) (L.map (fun p => p.1)) db =
      ((L.find? (fun p => ce type (slice p.2 field.offset field.size) value)).map
        (fun p => p.1), db) := by
  induction L with
  | nil => rfl
  | cons p rest ih =>
    have hread : tab_read_row db table.tabidx p.1 = some p.2 :=
      chain_read_of_mem _ hwf p (hL p (by simp))
    simp only [List.map_cons, tab_for_each_element, hread, get_row_body]
    cases hc : ce type (slice p.2 field.offset field.size) value with
    | true => simp [List.find?_cons, hc]
    | false =>
      simp only [Bool.false_eq_true, if_false, List.find?_cons, hc]
      exact ih (fun q hq => hL q (List.mem_cons_of_mem _ hq))

/-- C13: on a stored table whose chunks are distinct pages, `tab_get_row`
returns the handle of the first row in scan order whose field bytes the
comparator finds equal to the value, and returns `CHBLIX_FAIL` (`none`) exactly
when no row of the table has an equal field value. -/
theorem tab_get_row_first_match (ce : datatype_t → List Byte → List Byte → Bool)
    (db : db_t) (tablix : Nat) (field : field_t) (value : List Byte) (type : datatype_t)
    (t : table_t) (s : schema_t)
    (ht : tab_load db tablix = some t) (hs : sch_load db t.schidx = some s)
    (hwf : chain_wf (tab_chunks db tablix)) :
    tab_get_row ce db tablix field value type =
      ((tab_rows db tablix).find?
        (fun p => ce type (slice p.2 field.offset field.size) value)).map (fun p => p.1) ∧
    (tab_get_row ce db tablix field value type = none ↔
      ∀ p ∈ tab_rows db tablix, ce type (slice p.2 field.offset field.size) value = false) ∧
    (∀ h, tab_get_row ce db tablix field value type = some h →
      ∃ A r B, tab_rows db tablix = A ++ (h, r) :: B ∧
        ce type (slice r field.offset field.size) value = true ∧
        ∀ p ∈ A, ce type (slice p.2 field.offset field.size) value = false) := by
  have htix : t.tabidx = tablix := by
    unfold tab_load at ht
    cases hl : idx_load tablix db.tables with
    | none => rw [hl] at ht; cases ht
    | some tr =>
      rw [hl] at ht
      simp only [Option.some.injEq] at ht
      rw [← ht]
  have hrun : tab_get_row ce db tablix field value type =
      ((tab_rows db tablix).find?
        (fun p => ce type (slice p.2 field.offset field.size) value)).map (fun p => p.1) := by
    simp only [tab_get_row, ht, hs, tab_handles, htix]
    rw [for_each_element_find ce t field value type db (by rw [htix]; exact hwf)
      (tab_rows db tablix) (fun p hp => by rw [htix]; exact hp)]
    cases (tab_rows db tablix).find?
      (fun p => ce type (slice p.2 field.offset field.size) value) <;> rfl
  refine ⟨hrun, ?_, ?_⟩
  · rw [hrun]
    simp only [Option.map_eq_none', List.find?_eq_none, Bool.not_eq_true]
  · intro h hh
    rw [hrun] at hh
    cases hfind : (tab_rows db tablix).find?
        (fun p => ce type (slice p.2 field.offset field.size) value) with
    | none => rw [hfind] at hh; cases hh
    | some q =>
      rw [hfind] at hh
      simp only [Option.map_some', Option.some.injEq] at hh
      obtain ⟨hq, A, B, hAB, hA⟩ := List.find?_eq_some.mp hfind
      obtain ⟨q1, q2⟩ := q
      simp only at hh
      subst hh
      refine ⟨A, q2, B, hAB, hq, ?_⟩
      intro p hp
      simpa using hA p hp

/-- Instance of C13 on table `A` of the scenario: the first row with `id = 2`
is the row of block 1 of chunk 2. -/
theorem tab_get_row_first_match_witness :
    tab_load demo_db 2 = some demo_A ∧ sch_load demo_db demo_A.schidx = some demo_A_schema ∧
    chain_wf (tab_chunks demo_db 2) ∧
    tab_get_row bytes_eq demo_db 2 demo_id (i64 2) .DT_INT =
      some { chunk_idx := 2, block_idx := 1 } ∧
    (tab_get_row bytes_eq demo_db 2 demo_id (i64 2) .DT_INT =
      ((tab_rows demo_db 2).find?
        (fun p => bytes_eq .DT_INT (slice p.2 demo_id.offset demo_id.size) (i64 2))).map
        (fun p => p.1) ∧
    (tab_get_row bytes_eq demo_db 2 demo_id (i64 2) .DT_INT = none ↔
      ∀ p ∈ tab_rows demo_db 2,
        bytes_eq .DT_INT (slice p.2 demo_id.offset demo_id.size) (i64 2) = false) ∧
    (∀ h, tab_get_row bytes_eq demo_db 2 demo_id (i64 2) .DT_INT = some h →
      ∃ A r B, tab_rows demo_db 2 = A ++ (h, r) :: B ∧
        bytes_eq .DT_INT (slice r demo_id.offset demo_id.size) (i64 2) = true ∧
        ∀ p ∈ A, bytes_eq .DT_INT (slice p.2 demo_id.offset demo_id.size) (i64 2) = false)) :=
  ⟨by decide, by decide, by decide, by decide,
   tab_get_row_first_match bytes_eq demo_db 2 demo_id (i64 2) .DT_INT demo_A demo_A_schema
     (by decide) (by decide) (by decide)⟩

/-! ## Creating and dropping tables: the metatable -/

/-- `tab_init` returns a table whatever the metatable holds. -/
theorem tab_init_is_some (db : db_t) (name : String) (schema : schema_t) :
    (tab_init db name schema).1 = some { tabidx := db.num_pages, schidx := schema.schidx } := by
  rw [tab_init_eq]

/-- With `mtab_add` rejecting an existing name, `tab_init` keeps the names of
the metatable distinct. -/
theorem tab_init_names_nodup (db : db_t) (name : String) (schema : schema_t)
    (h : (db.meta_table.map (fun r => r.1)).Nodup) :
    ((tab_init db name schema).2.meta_table.map (fun r => r.1)).Nodup := by
  rw [tab_init_eq]
  simp only
  by_cases hn : name ∈ db.meta_table.map (fun r => r.1)
  · simp only [hn, if_true]; exact h
  · simp only [hn, if_false, List.map_append, List.map_cons, List.map_nil]
    rw [List.nodup_append]
    refine ⟨h, by simp, ?_⟩
    intro a ha hb
    simp only [List.mem_singleton] at hb
    subst hb
    exact hn ha

/-- C14 (evaluation of the code at a name collision): the name `A` is in the
metatable of the scenario, `mtab_add` reports the collision, and `tab_init`
with the name `A` still returns a table: the new table 5 is created and stays
outside the metatable.  `tab_init` does not look at the result of `mtab_add`. -/
theorem tab_init_ignores_name_collision :
    "A" ∈ demo_db.meta_table.map (fun r => r.1) ∧
    (mtab_add (tab_base_init demo_db "A" demo_A_schema).2 "A" 5).1 = TABLE_FAIL ∧
    (tab_init demo_db "A" demo_A_schema).1 = some { tabidx := 5, schidx := 1 } ∧
    tab_load demo_db 5 = none ∧
    tab_load (tab_init demo_db "A" demo_A_schema).2 5 = some { tabidx := 5, schidx := 1 } ∧
    (tab_init demo_db "A" demo_A_schema).2.meta_table = demo_db.meta_table ∧
    5 ∉ (tab_init demo_db "A" demo_A_schema).2.meta_table.map (fun r => r.2) := by
  decide

/-- C15: when the index of the table is not in the metatable (as after a drop
of that table), `tab_drop` returns `PPL_FAIL` and leaves the whole state as it
was: no schema is deleted and no row chain is destroyed. -/
theorem tab_drop_absent_fails_unchanged (db : db_t) (table : table_t)
    (h : table.tabidx ∉ db.meta_table.map (fun r => r.2)) :
    tab_drop db table = (PPL_FAIL, db) := by
  have hne : (TABLE_FAIL : Int) = TABLE_FAIL := rfl
  simp only [tab_drop, mtab_delete, h, if_false, hne, if_true]

/-- Instance of C15: table `A` of the scenario is dropped, then dropped
again. -/
theorem tab_drop_absent_fails_unchanged_witness :
    (tab_drop demo_db demo_A).1 = PPL_SUCCESS ∧
    demo_A.tabidx ∉ (tab_drop demo_db demo_A).2.meta_table.map (fun r => r.2) ∧
    tab_drop (tab_drop demo_db demo_A).2 demo_A = (PPL_FAIL, (tab_drop demo_db demo_A).2) :=
  ⟨by decide, by decide,
   tab_drop_absent_fails_unchanged (tab_drop demo_db demo_A).2 demo_A (by decide)⟩

/-! ## Select followed by drop -/

theorem add_fields_schidx (fs : List field_t) (s : schema_t) (db : db_t) :
    (add_fields fs s db).2.1.schidx = s.schidx := by
  induction fs generalizing s db with
  | nil => rfl
  | cons f rest ih =>
    simp only [add_fields]
    have h1 : (sch_add_field db s f.name f.type f.size).2.1.schidx = s.schidx := by
      unfold sch_add_field
      cases idx_load s.schidx db.schemas with
      | none => rfl
      | some r =>
        simp only
        split <;> rfl
    cases hr : sch_add_field db s f.name f.type f.size with
    | mk st r2 =>
      obtain ⟨s1, db1⟩ := r2
      rw [hr] at h1
      simp only at h1 ⊢
      by_cases hst : st = SCHEMA_FAIL
      · simp only [hst, if_true]; exact h1
      · simp only [hst, if_false]
        rw [ih s1 db1]; exact h1

theorem sch_add_field_shape (db : db_t) (s : schema_t) (name : String) (type : datatype_t)
    (size : Nat) (rec : schema_rec) (rest : List (Nat × schema_rec))
    (h : db.schemas = (s.schidx, rec) :: rest) :
    ∃ rec1, (sch_add_field db s name type size).2.2.schemas = (s.schidx, rec1) :: rest ∧
      (sch_add_field db s name type size).2.1.schidx = s.schidx ∧
      (sch_add_field db s name type size).2.2.tables = db.tables ∧
      (sch_add_field db s name type size).2.2.meta_table = db.meta_table ∧
      (sch_add_field db s name type size).2.2.num_pages = db.num_pages ∧
      (sch_add_field db s name type size).2.2.page_size = db.page_size := by
  unfold sch_add_field
  have hl : idx_load s.schidx db.schemas = some rec := by simp [h, idx_load]
  rw [hl]
  simp only
  by_cases hn : db.sch_unique_names = true ∧ name ∈ rec.fields.map (fun f => f.name)
  · rw [if_pos hn]
    exact ⟨rec, h, rfl, rfl, rfl, rfl, rfl⟩
  · rw [if_neg hn]
    refine ⟨{ slot_size := s.slot_size + size,
              fields := rec.fields ++ [{ name := name, type := type, size := size,
                                         offset := s.slot_size }] }, ?_, rfl, rfl, rfl, rfl, rfl⟩
    show idx_store s.schidx _ db.schemas = _
    rw [h]
    simp only [idx_store, if_true]

theorem add_fields_shape (fs : List field_t) (s : schema_t) (db : db_t) (rec : schema_rec)
    (rest : List (Nat × schema_rec)) (h : db.schemas = (s.schidx, rec) :: rest) :
    ∃ rec1, (add_fields fs s db).2.2.schemas = (s.schidx, rec1) :: rest ∧
      (add_fields fs s db).2.2.tables = db.tables ∧
      (add_fields fs s db).2.2.meta_table = db.meta_table ∧
      (add_fields fs s db).2.2.num_pages = db.num_pages ∧
      (add_fields fs s db).2.2.page_size = db.page_size := by
  induction fs generalizing s db rec with
  | nil => exact ⟨rec, h, rfl, rfl, rfl, rfl⟩
  | cons f rest' ih =>
    obtain ⟨rec1, a1, a2, a3, a4, a5, a6⟩ := sch_add_field_shape db s f.name f.type f.size rec rest h
    simp only [add_fields]
    cases hr : sch_add_field db s f.name f.type f.size with
    | mk st r2 =>
      obtain ⟨s1, db1⟩ := r2
      rw [hr] at a1 a2 a3 a4 a5 a6
      simp only at a1 a2 a3 a4 a5 a6 ⊢
      by_cases hst : st = SCHEMA_FAIL
      · simp only [hst, if_true]
        exact ⟨rec1, a1, a3, a4, a5, a6⟩
      · simp only [hst, if_false]
        rw [← a2] at a1
        obtain ⟨rec2, b1, b2, b3, b4, b5⟩ := ih s1 db1 rec1 a1
        rw [a2] at b1
        exact ⟨rec2, b1, b2.trans a3, b3.trans a4, b4.trans a5, b5.trans a6⟩

theorem tab_insert_shape (db : db_t) (table : table_t) (schema : schema_t) (row : List Byte)
    (trec : table_rec) (T : List (Nat × table_rec))
    (h : db.tables = (table.tabidx, trec) :: T) :
    ∃ trec1, (tab_insert db table schema row).2.tables = (table.tabidx, trec1) :: T ∧
      (tab_insert db table schema row).2.schemas = db.schemas ∧
      (tab_insert db table schema row).2.meta_table = db.meta_table ∧
      (tab_insert db table schema row).2.page_size = db.page_size ∧
      db.num_pages ≤ (tab_insert db table schema row).2.num_pages := by
  unfold tab_insert
  have hl : idx_load table.tabidx db.tables = some trec := by simp [h, idx_load]
  rw [hl]
  simp only
  cases ha : lb_alloc db trec.block_size (List.take schema.slot_size row) trec.chunks with
  | none => exact ⟨trec, h, rfl, rfl, rfl, le_refl _⟩
  | some r =>
    obtain ⟨a, cs, db2⟩ := r
    obtain ⟨p1, p2, p3, p4, p5⟩ := lb_alloc_packed_store db trec.block_size _ trec.chunks a cs db2 ha
    simp only [p3, h, idx_store, if_true]
    exact ⟨_, rfl, p2, p4, p1, p5⟩

/-- The part of the state that a run of the select loop leaves alone. -/
theorem select_loop_shape (cmp : datatype_t → List Byte → List Byte → condition_t → Bool)
    (sel_table : table_t) (sel_schema : schema_t) (table : table_t) (schema : schema_t)
    (sf : field_t) (cond : condition_t) (cv : List Byte) (type : datatype_t)
    (S : List (Nat × schema_rec)) (T : List (Nat × table_rec)) (M : List (String × Nat))
    (ps np : Nat) (hs : List chblix_t) (db : db_t)
    (h0 : db.schemas = S ∧ db.meta_table = M ∧ db.page_size = ps ∧ np ≤ db.num_pages ∧
      ∃ trec, db.tables = (table.tabidx, trec) :: T) :
    (tab_for_each_row sel_table sel_schema (select_body cmp table schema sf cond cv type) hs
        db).2.schemas = S ∧
    (tab_for_each_row sel_table sel_schema (select_body cmp table schema sf cond cv type) hs
        db).2.meta_table = M ∧
    (tab_for_each_row sel_table sel_schema (select_body cmp table schema sf cond cv type) hs
        db).2.page_size = ps ∧
    np ≤ (tab_for_each_row sel_table sel_schema (select_body cmp table schema sf cond cv type)
        hs db).2.num_pages ∧
    ∃ trec, (tab_for_each_row sel_table sel_schema
        (select_body cmp table schema sf cond cv type) hs db).2.tables =
      (table.tabidx, trec) :: T := by
  apply for_each_inv sel_table sel_schema _
    (fun d => d.schemas = S ∧ d.meta_table = M ∧ d.page_size = ps ∧ np ≤ d.num_pages ∧
      ∃ trec, d.tables = (table.tabidx, trec) :: T) _ hs db h0
  intro h r d hd
  obtain ⟨d1, d2, d3, d4, trec, d5⟩ := hd
  rw [select_body_eq]
  unfold insert_body
  by_cases hc : cmp type (slice r sf.offset sf.size) cv cond = true
  · simp only [hc, if_true]
    obtain ⟨trec1, e1, e2, e3, e4, e5⟩ :=
      tab_insert_shape d table schema (List.take schema.slot_size r) trec T d5
    cases hi : tab_insert d table schema (List.take schema.slot_size r) with
    | mk o d' =>
      rw [hi] at e1 e2 e3 e4 e5
      simp only at e1 e2 e3 e4 e5
      have : ∀ x : Option Unit × db_t, x.2 = d' →
          x.2.schemas = S ∧ x.2.meta_table = M ∧ x.2.page_size = ps ∧ np ≤ x.2.num_pages ∧
            ∃ trec, x.2.tables = (table.tabidx, trec) :: T := by
        intro x hx
        rw [hx]
        exact ⟨e2.trans d1, e3.trans d2, e4.trans d3, le_trans d4 e5, trec1, e1⟩
      cases o with
      | none => exact this _ rfl
      | some _ => exact this _ rfl
  · simp only [hc, if_false]
    exact ⟨d1, d2, d3, d4, trec, d5⟩

/-- The shape of the state after a successful select: one schema and one table
more at the front, the metatable with the new name at its end. -/
theorem select_shape (cmp : datatype_t → List Byte → List Byte → condition_t → Bool)
    (db : db_t) (sel_table : table_t) (sel_schema : schema_t) (sf : field_t) (name : String)
    (cond : condition_t) (value : List Byte) (type : datatype_t) (table : table_t)
    (db1 : db_t)
    (hrun : tab_select_op_nova cmp db sel_table sel_schema sf name cond value type =
      (some table, db1)) :
    table = { tabidx := db.num_pages + 1, schidx := db.num_pages } ∧
    (∃ srec, db1.schemas = (db.num_pages, srec) :: db.schemas) ∧
    (∃ trec, db1.tables = (db.num_pages + 1, trec) :: db.tables) ∧
    db1.meta_table = (if name ∈ db.meta_table.map (fun r => r.1) then db.meta_table
                      else db.meta_table ++ [(name, db.num_pages + 1)]) ∧
    db1.page_size = db.page_size ∧ db.num_pages ≤ db1.num_pages := by
  unfold tab_select_op_nova at hrun
  obtain ⟨dA, hdA⟩ : ∃ d, d = (sch_init db).2 := ⟨_, rfl⟩
  have hinit : sch_init db = (some { schidx := db.num_pages, slot_size := 0 }, dA) := by
    rw [hdA]; rfl
  have hschA : dA.schemas = (db.num_pages, { slot_size := 0, fields := [] }) :: db.schemas := by
    rw [hdA]; rfl
  have htabA : dA.tables = db.tables := by rw [hdA]; rfl
  have hmA : dA.meta_table = db.meta_table := by rw [hdA]; rfl
  have hnpA : dA.num_pages = db.num_pages + 1 := by rw [hdA]; rfl
  have hpsA : dA.page_size = db.page_size := by rw [hdA]; rfl
  rw [hinit] at hrun
  simp only at hrun
  obtain ⟨srec, b1, b2, b3, b4, b5⟩ := add_fields_shape (sch_fields dA sel_table.schidx)
    { schidx := db.num_pages, slot_size := 0 } dA _ _ hschA
  cases hadd : add_fields (sch_fields dA sel_table.schidx)
      { schidx := db.num_pages, slot_size := 0 } dA with
  | mk b rest =>
    obtain ⟨s1, dB⟩ := rest
    rw [hadd] at hrun b1 b2 b3 b4 b5
    simp only at b1 b2 b3 b4 b5
    cases b with
    | false => simp at hrun
    | true =>
      simp only at hrun
      cases hti : tab_init dB name s1 with
      | mk ot dI =>
        have hteq := tab_init_eq dB name s1
        rw [hti] at hteq
        simp only [Prod.mk.injEq] at hteq
        obtain ⟨hot, hdI⟩ := hteq
        subst hot
        have f1 : dI.schemas = dB.schemas := by rw [hdI]
        have f2 : dI.tables.tail = dB.tables := by rw [hdI]; rfl
        have f2a : ∃ trec, dI.tables = (dB.num_pages, trec) :: dB.tables := by
          rw [hdI]; exact ⟨_, rfl⟩
        have f3 : dI.meta_table = (if name ∈ dB.meta_table.map (fun r => r.1) then dB.meta_table
            else dB.meta_table ++ [(name, dB.num_pages)]) := by rw [hdI]
        have f4 : dI.page_size = dB.page_size := by rw [hdI]
        have f5 : dI.num_pages = dB.num_pages + 1 := by rw [hdI]
        rw [hti] at hrun
        simp only at hrun
        by_cases hty : type = sf.type
        · simp only [hty, ne_eq, not_true_eq_false, if_false] at hrun
          obtain ⟨c1, c2, c3, c4, trec, c5⟩ := select_loop_shape cmp sel_table sel_schema
            { tabidx := dB.num_pages, schidx := s1.schidx } s1 sf cond
            (memcpy (malloc sf.size) 0 value 0 sf.size) sf.type dI.schemas dB.tables
            dI.meta_table dI.page_size dI.num_pages (tab_handles dI sel_table.tabidx) dI
            ⟨rfl, rfl, rfl, le_refl _, f2a⟩
          cases hl : tab_for_each_row sel_table sel_schema
              (select_body cmp { tabidx := dB.num_pages, schidx := s1.schidx } s1 sf cond
                (memcpy (malloc sf.size) 0 value 0 sf.size) sf.type)
              (tab_handles dI sel_table.tabidx) dI with
          | mk o dC =>
            rw [hl] at hrun c1 c2 c3 c4 c5
            simp only at c1 c2 c3 c4 c5
            cases o with
            | some _ => simp at hrun
            | none =>
              simp only [Prod.mk.injEq, Option.some.injEq] at hrun
              obtain ⟨e1, e2⟩ := hrun
              subst e2
              have hs1 : s1.schidx = db.num_pages := by
                have := (add_fields_schidx (sch_fields dA sel_table.schidx)
                  { schidx := db.num_pages, slot_size := 0 } dA)
                rw [hadd] at this
                exact this
              refine ⟨?_, ⟨srec, ?_⟩, ⟨trec, ?_⟩, ?_, ?_, ?_⟩
              · rw [← e1, b4, hnpA, hs1]
              · rw [c1, f1, b1]
              · rw [c5, b4, hnpA, b2, htabA]
              · rw [c2, f3, b3, hmA, b4, hnpA]
              · rw [c3, f4, b5, hpsA]
              · rw [f5, b4, hnpA] at c4; omega
        · simp [hty] at hrun

theorem mtab_erase_append (k : Nat) (name : String) (M : List (String × Nat))
    (h : k ∉ M.map (fun r => r.2)) : mtab_erase k (M ++ [(name, k)]) = M := by
  induction M with
  | nil => simp [mtab_erase]
  | cons r rest ih =>
    simp only [List.map_cons, List.mem_cons, not_or] at h
    have h1 : ¬ r.2 = k := fun e => h.1 e.symm
    have e := ih h.2
    simp only [List.cons_append, mtab_erase, h1, if_false]
    exact congrArg (List.cons r) e

/-- Dropping the table that was created last: the row at the end of the
metatable and the two entries at the front of the store go away. -/
theorem tab_drop_last (db1 : db_t) (t : table_t) (M : List (String × Nat)) (name : String)
    (S : List (Nat × schema_rec)) (T : List (Nat × table_rec)) (srec : schema_rec)
    (trec : table_rec) (hm : db1.meta_table = M ++ [(name, t.tabidx)])
    (hfresh : t.tabidx ∉ M.map (fun r => r.2))
    (hs : db1.schemas = (t.schidx, srec) :: S) (ht : db1.tables = (t.tabidx, trec) :: T) :
    tab_drop db1 t = (PPL_SUCCESS, { db1 with meta_table := M, schemas := S, tables := T }) := by
  have hmem : t.tabidx ∈ db1.meta_table.map (fun r => r.2) := by
    rw [hm]; simp
  have hne : ¬ (TABLE_SUCCESS : Int) = TABLE_FAIL := by decide
  unfold tab_drop mtab_delete
  rw [if_pos hmem]
  simp only [hne, if_false, lb_ppl_destroy, sch_delete, ht, idx_load, if_true, hs, idx_erase, hm,
    mtab_erase_append t.tabidx name M hfresh]

theorem schema_valid_of_same (db db2 : db_t) (s : schema_t) (h1 : db2.schemas = db.schemas)
    (h2 : db.num_pages ≤ db2.num_pages) (h : schema_valid db s) : schema_valid db2 s := by
  unfold schema_valid sch_fields at *
  rw [h1]
  exact ⟨by omega, h.2⟩

theorem table_valid_of_same (db db2 : db_t) (t : table_t) (s : schema_t)
    (h1 : db2.tables = db.tables) (h2 : db.num_pages ≤ db2.num_pages)
    (h : table_valid db t s) : table_valid db2 t s := by
  unfold table_valid tab_load tab_rows tab_chunks at *
  rw [h1]
  exact ⟨by omega, h.2⟩

/-- C16: on a stored table, with the compare value of the type of the field, a
name `name` that is not in the metatable and the page of the new table not
named by a metatable row, select followed by `tab_drop` of the result
succeeds and restores the directory: the metatable, the schemas and the tables
are those from before the select (so `name` is absent again and the rows of
the source table are unchanged), and a further select into the same name
succeeds. -/
theorem select_then_drop_restores
    (cmp : datatype_t → List Byte → List Byte → condition_t → Bool)
    (db : db_t) (sel_table : table_t) (sel_schema : schema_t) (sf : field_t) (name : String)
    (cond : condition_t) (value : List Byte) (type : datatype_t)
    (hs : schema_valid db sel_schema) (ht : table_valid db sel_table sel_schema)
    (hty : type = sf.type) (hcap : 0 < chunk_capacity db sel_schema.slot_size)
    (hname : name ∉ db.meta_table.map (fun r => r.1))
    (hfresh : db.num_pages + 1 ∉ db.meta_table.map (fun r => r.2)) :
    ∃ table db1 db2,
      tab_select_op_nova cmp db sel_table sel_schema sf name cond value type = (some table, db1) ∧
      name ∈ db1.meta_table.map (fun r => r.1) ∧
      tab_load db1 table.tabidx = some table ∧
      tab_drop db1 table = (PPL_SUCCESS, db2) ∧
      db2.meta_table = db.meta_table ∧
      name ∉ db2.meta_table.map (fun r => r.1) ∧
      db2.schemas = db.schemas ∧
      db2.tables = db.tables ∧
      tab_rows db2 sel_table.tabidx = tab_rows db sel_table.tabidx ∧
      ∃ table2 db3,
        tab_select_op_nova cmp db2 sel_table sel_schema sf name cond value type =
          (some table2, db3) := by
  obtain ⟨table, db1, hrun⟩ :=
    (select_core cmp db sel_table sel_schema sf name cond value type hs ht).2 hty hcap
  obtain ⟨-, -, -, -, hload⟩ :=
    (select_core cmp db sel_table sel_schema sf name cond value type hs ht).1 table db1 hrun
  obtain ⟨e1, ⟨srec, e2⟩, ⟨trec, e3⟩, e4, e5, e6⟩ :=
    select_shape cmp db sel_table sel_schema sf name cond value type table db1 hrun
  rw [if_neg hname] at e4
  have ht1 : table.tabidx = db.num_pages + 1 := by rw [e1]
  have ht2 : table.schidx = db.num_pages := by rw [e1]
  have hdrop := tab_drop_last db1 table db.meta_table name db.schemas db.tables srec trec
    (by rw [e4, ht1]) (by rw [ht1]; exact hfresh) (by rw [e2, ht2]) (by rw [e3, ht1])
  obtain ⟨db2, hdb2⟩ : ∃ d, d = { db1 with meta_table := db.meta_table, schemas := db.schemas,
                                            tables := db.tables } := ⟨_, rfl⟩
  rw [← hdb2] at hdrop
  have g1 : db2.meta_table = db.meta_table := by rw [hdb2]
  have g2 : db2.schemas = db.schemas := by rw [hdb2]
  have g3 : db2.tables = db.tables := by rw [hdb2]
  have g4 : db2.num_pages = db1.num_pages := by rw [hdb2]
  have g5 : db2.page_size = db.page_size := by rw [hdb2]; exact e5
  have hs2 : schema_valid db2 sel_schema :=
    schema_valid_of_same db db2 sel_schema g2 (by omega) hs
  have hv2 : table_valid db2 sel_table sel_schema :=
    table_valid_of_same db db2 sel_table sel_schema g3 (by omega) ht
  have hcap2 : 0 < chunk_capacity db2 sel_schema.slot_size := by
    unfold chunk_capacity at *
    rw [g5]; exact hcap
  refine ⟨table, db1, db2, hrun, ?_, hload, hdrop, g1, ?_, g2, g3, ?_,
    (select_core cmp db2 sel_table sel_schema sf name cond value type hs2 hv2).2 hty hcap2⟩
  · rw [e4]; simp
  · rw [g1]; exact hname
  · unfold tab_rows tab_chunks
    rw [g3]

/-- Instance of C16 on table `A` of the scenario: select `id = 2` into the
name `SELECT`, then drop the result. -/
theorem select_then_drop_restores_witness :
    schema_valid demo_db demo_A_schema ∧ table_valid demo_db demo_A demo_A_schema ∧
    0 < chunk_capacity demo_db demo_A_schema.slot_size ∧
    "SELECT" ∉ demo_db.meta_table.map (fun r => r.1) ∧
    demo_db.num_pages + 1 ∉ demo_db.meta_table.map (fun r => r.2) ∧
    ∃ table db1 db2,
      tab_select_op_nova bytes_compare demo_db demo_A demo_A_schema demo_id "SELECT" .COND_EQ
        (i64 2) .DT_INT = (some table, db1) ∧
      "SELECT" ∈ db1.meta_table.map (fun r => r.1) ∧
      tab_load db1 table.tabidx = some table ∧
      tab_drop db1 table = (PPL_SUCCESS, db2) ∧
      db2.meta_table = demo_db.meta_table ∧
      "SELECT" ∉ db2.meta_table.map (fun r => r.1) ∧
      db2.schemas = demo_db.schemas ∧
      db2.tables = demo_db.tables ∧
      tab_rows db2 demo_A.tabidx = tab_rows demo_db demo_A.tabidx ∧
      ∃ table2 db3,
        tab_select_op_nova bytes_compare db2 demo_A demo_A_schema demo_id "SELECT" .COND_EQ
          (i64 2) .DT_INT = (some table2, db3) :=
  ⟨by decide, by decide, by decide, by decide, by decide,
   select_then_drop_restores bytes_compare demo_db demo_A demo_A_schema demo_id "SELECT"
     .COND_EQ (i64 2) .DT_INT (by decide) (by decide) rfl (by decide) (by decide) (by decide)⟩

/-! ## File manager: growing the file by a page -/

/-- A state and system-call outcomes for evaluation: the state after
`init_file` on a new, empty file. -/
theorem init_file_new_file :
    init_file { open_fd := 3, content := [], lseek_end := 0, mmap_ok := true, msync_ok := true,
                munmap_ok := true, ftruncate_ok := true, unlink_ok := true } fm_start "db" =
      (FILE_SUCCESS, { filename := some "db", fd := 3, file_size := 0, mmaped_data := .NULL,
                       page_offset := 0, file := [], live := [] }) := by
  decide

/-- The half of C19 that holds: a failing `ftruncate` makes `init_page` return
`FILE_FAIL`. -/
theorem init_page_ftruncate_fails (PAGE_SIZE : Nat) (os : os_t) (st : fm_t)
    (h : os.ftruncate_ok = false) : (init_page PAGE_SIZE os st).1 = FILE_FAIL := by
  unfold init_page
  cases hu : (if st.mmaped_data ≠ .NULL then unmap_page os st else (FILE_SUCCESS, st)) with
  | mk r0 st1 =>
    simp only
    by_cases h1 : st.mmaped_data ≠ .NULL ∧ r0 = FILE_FAIL
    · rw [if_pos h1]
    · rw [if_neg h1, if_pos h]

/-- Once `ftruncate` has succeeded, `init_page` returns `FILE_SUCCESS` whatever
`mmap` does. -/
theorem init_page_status_after_ftruncate (PAGE_SIZE : Nat) (os : os_t) (st : fm_t)
    (h0 : st.mmaped_data = .NULL) (h : os.ftruncate_ok = true) :
    (init_page PAGE_SIZE os st).1 = FILE_SUCCESS := by
  unfold init_page
  simp [h0, h]

/-- C19 (evaluation of the code when the mapping fails): on the state after
`init_file` on a new, empty file, with `ftruncate` succeeding and `mmap`
failing, the inner `mmap_page` returns `FILE_FAIL` and `init_page` returns
`FILE_SUCCESS`; `mmaped_data` is `MAP_FAILED`, no window is mapped, and a
`write_page` that follows goes through the invalid pointer. -/
theorem init_page_mmap_failure_returns_success :
    (mmap_page
      { open_fd := 3, content := [], lseek_end := 0, mmap_ok := false, msync_ok := true,
        munmap_ok := true, ftruncate_ok := true, unlink_ok := true }
      { filename := some "db", fd := 3, file_size := 16, mmaped_data := .NULL,
        page_offset := 0, file := List.replicate 16 0, live := [] } 0).1 = FILE_FAIL ∧
    (init_page 16
      { open_fd := 3, content := [], lseek_end := 0, mmap_ok := false, msync_ok := true,
        munmap_ok := true, ftruncate_ok := true, unlink_ok := true }
      { filename := some "db", fd := 3, file_size := 0, mmaped_data := .NULL,
        page_offset := 0, file := [], live := [] }).1 = FILE_SUCCESS ∧
    (init_page 16
      { open_fd := 3, content := [], lseek_end := 0, mmap_ok := false, msync_ok := true,
        munmap_ok := true, ftruncate_ok := true, unlink_ok := true }
      { filename := some "db", fd := 3, file_size := 0, mmaped_data := .NULL,
        page_offset := 0, file := [], live := [] }).2 =
      { filename := some "db", fd := 3, file_size := 16, mmaped_data := .MAP_FAILED,
        page_offset := 0, file := List.replicate 16 0, live := [] } ∧
    write_page 16
      { open_fd := 3, content := [], lseek_end := 0, mmap_ok := false, msync_ok := true,
        munmap_ok := true, ftruncate_ok := true, unlink_ok := true }
      { filename := some "db", fd := 3, file_size := 16, mmaped_data := .MAP_FAILED,
        page_offset := 0, file := List.replicate 16 0, live := [] } [7] 1 0 = none := by
  decide

/-! ## File manager: reading and writing the mapped page -/

theorem getElem?_slice (f : List Byte) (k n i : Nat) (h : i < n) :
    (slice f k n)[i]? = f[k + i]? := by
  unfold slice
  rw [List.getElem?_take_of_lt h, List.getElem?_drop]

theorem getElem?_write_outside (f e : List Byte) (a n j : Nat) (he : e.length = n)
    (hb : a + n ≤ f.length) (hj : j < a ∨ a + n ≤ j) :
    (f.take a ++ e ++ f.drop (a + n))[j]? = f[j]? := by
  have hl : (f.take a).length = a := by simp; omega
  rcases hj with hj | hj
  · rw [List.append_assoc, List.getElem?_append_left (by rw [hl]; exact hj),
      List.getElem?_take_of_lt hj]
  · have hl2 : (f.take a ++ e).length = a + n := by simp; omega
    rw [List.getElem?_append_right (by rw [hl2]; exact hj), hl2, List.getElem?_drop]
    congr 1
    omega

theorem zero_pad_length (f : List Byte) (n : Nat) :
    (zero_pad f n).length = f.length + (n - f.length) := by
  unfold zero_pad
  simp

theorem zero_pad_of_le (f : List Byte) (n : Nat) (h : n ≤ f.length) : zero_pad f n = f := by
  unfold zero_pad
  simp [Nat.sub_eq_zero_of_le h]

theorem zero_pad_getD (f : List Byte) (n j : Nat) : (zero_pad f n).getD j 0 = f.getD j 0 := by
  unfold zero_pad
  rw [List.getD_eq_getElem?_getD, List.getD_eq_getElem?_getD]
  by_cases h : j < f.length
  · rw [List.getElem?_append_left h]
  · rw [List.getElem?_append_right (by omega), List.getElem?_eq_none (by omega : f.length ≤ j),
      List.getElem?_replicate]
    split <;> rfl

theorem zero_pad_getElem? (f : List Byte) (n j : Nat) (h : j < n) :
    (zero_pad f n)[j]? = some (f.getD j 0) := by
  have hl : j < (zero_pad f n).length := by rw [zero_pad_length]; omega
  rw [← zero_pad_getD f n j, List.getD_eq_getElem?_getD, List.getElem?_eq_getElem hl]
  rfl

theorem slice_slice (f : List Byte) (k n off size : Nat) (h : off + size ≤ n) :
    slice (slice f k n) off size = slice f (k + off) size := by
  apply List.ext_getElem?
  intro i
  by_cases hi : i < size
  · rw [getElem?_slice _ _ _ _ hi, getElem?_slice _ _ _ _ hi,
      getElem?_slice _ _ _ _ (by omega), Nat.add_assoc]
  · have l1 : (slice (slice f k n) off size).length ≤ i := by
      unfold slice; simp; omega
    have l2 : (slice f (k + off) size).length ≤ i := by
      unfold slice; simp; omega
    rw [List.getElem?_eq_none l1, List.getElem?_eq_none l2]

/-- C20: with a page of the file mapped (`mmaped_data` is a window that begins
inside the file, whether or not the file reaches the end of the window),
`offset + size ≤ PAGE_SIZE` and buffers of at least `size` bytes, `write_page`
returns `FILE_SUCCESS`, changes no global, and `read_page` with the same `size`
and `offset` afterwards returns `FILE_SUCCESS` with the first `size` bytes of
`dest` equal to the first `size` bytes of `src` (the rest of `dest` is as
before); every byte of the mapped page outside `[offset, offset + size)` is as
before the write, and so is every byte of the file outside the bytes
written. -/
theorem write_read_page_round_trip (PAGE_SIZE : Nat) (os : os_t) (st : fm_t) (o : Int)
    (src dest : List Byte) (size offset : Nat)
    (hm : st.mmaped_data = .mapped o) (hw : window_in_file st o)
    (hb : offset + size ≤ PAGE_SIZE) (hsrc : size ≤ src.length) (hdest : size ≤ dest.length) :
    ∃ st1, write_page PAGE_SIZE os st src size offset = some (FILE_SUCCESS, st1) ∧
      st1.mmaped_data = .mapped o ∧ st1.page_offset = st.page_offset ∧
      st1.file_size = st.file_size ∧ st1.fd = st.fd ∧ st1.live = st.live ∧
      (o.toNat + offset + size ≤ st.file.length → st1.file.length = st.file.length) ∧
      (∀ j, j < st.file.length → (j < o.toNat + offset ∨ o.toNat + offset + size ≤ j) →
        st1.file[j]? = st.file[j]?) ∧
      read_page PAGE_SIZE st1 dest size offset =
        some (FILE_SUCCESS, src.take size ++ dest.drop size) ∧
      slice (mapped_page PAGE_SIZE st1 o) offset size = src.take size ∧
      ∀ i, i < PAGE_SIZE → (i < offset ∨ offset + size ≤ i) →
        (mapped_page PAGE_SIZE st1 o)[i]? = (mapped_page PAGE_SIZE st o)[i]? := by
  obtain ⟨hw1, hw2⟩ := hw
  have hlen : (src.take size).length = size := by simp; omega
  obtain ⟨F, hF⟩ : ∃ F, F = zero_pad st.file (o.toNat + offset + size) := ⟨_, rfl⟩
  have hFlen : F.length = st.file.length + (o.toNat + offset + size - st.file.length) := by
    rw [hF, zero_pad_length]
  have hbf : o.toNat + offset + size ≤ F.length := by omega
  obtain ⟨w1, w2, w3, w4⟩ := field_write_spec F (src.take size) (o.toNat + offset) size
    hbf hlen
  have hcond : window_in_file st o ∧ (0 : Int) ≤ (offset : Int) ∧
      (offset : Int).toNat + size ≤ PAGE_SIZE ∧ size ≤ src.length :=
    ⟨⟨hw1, hw2⟩, Int.ofNat_nonneg _, by simpa using hb, hsrc⟩
  obtain ⟨st1, hst1⟩ : ∃ s, s = { st with file := memcpy (zero_pad st.file
      (o.toNat + (offset : Int).toNat + size)) (o.toNat + (offset : Int).toNat) src 0 size } :=
    ⟨_, rfl⟩
  have hfile : st1.file = F.take (o.toNat + offset) ++ src.take size ++
      F.drop (o.toNat + offset + size) := by
    rw [hst1, hF]; simp [memcpy, slice]
  have hmd : st1.mmaped_data = .mapped o := by rw [hst1]; exact hm
  have hwr : write_page PAGE_SIZE os st src size offset = some (FILE_SUCCESS, st1) := by
    unfold write_page
    rw [hm]
    simp only
    rw [if_pos hcond, hst1]
    simp [hm]
  have hlen1 : st1.file.length = F.length := by rw [hfile, w4]
  have hcond1 : window_in_file st1 o ∧ (0 : Int) ≤ (offset : Int) ∧
      (offset : Int).toNat + size ≤ PAGE_SIZE ∧ size ≤ dest.length := by
    refine ⟨⟨hw1, ?_⟩, Int.ofNat_nonneg _, by simpa using hb, hdest⟩
    rw [hlen1]; omega
  have hout : ∀ j, (j < o.toNat + offset ∨ o.toNat + offset + size ≤ j) →
      st1.file.getD j 0 = st.file.getD j 0 := by
    intro j hj
    rw [← zero_pad_getD st.file (o.toNat + offset + size) j, ← hF,
      List.getD_eq_getElem?_getD, List.getD_eq_getElem?_getD, hfile,
      getElem?_write_outside _ _ _ _ _ hlen hbf hj]
  refine ⟨st1, hwr, hmd, by rw [hst1], by rw [hst1], by rw [hst1], by rw [hst1], ?_, ?_, ?_, ?_,
    ?_⟩
  · intro hin
    rw [hlen1, hFlen]; omega
  · intro j hj hjo
    have h1 : j < st1.file.length := by rw [hlen1]; omega
    have := hout j hjo
    rw [List.getD_eq_getElem?_getD, List.getD_eq_getElem?_getD, List.getElem?_eq_getElem h1,
      List.getElem?_eq_getElem hj] at this
    rw [List.getElem?_eq_getElem h1, List.getElem?_eq_getElem hj]
    exact congrArg some this
  · unfold read_page
    rw [hmd]
    simp only
    rw [if_pos hcond1]
    simp only [memcpy, Int.toNat_ofNat, List.take_zero, List.nil_append, Nat.zero_add]
    rw [zero_pad_of_le _ _ (by rw [hlen1]; exact hbf), hfile, w1]
  · unfold mapped_page
    rw [slice_slice _ _ _ _ _ hb]
    apply List.ext_getElem?
    intro i
    by_cases hi : i < size
    · rw [getElem?_slice _ _ _ _ hi, zero_pad_getElem? _ _ _ (by omega),
        List.getD_eq_getElem?_getD, hfile, ← getElem?_slice _ _ _ _ hi, w1,
        List.getElem?_eq_getElem (by rw [hlen]; exact hi)]
      rfl
    · have l1 : (slice (zero_pad st1.file (o.toNat + PAGE_SIZE)) (o.toNat + offset) size).length
          ≤ i := by
        unfold slice; simp; omega
      rw [List.getElem?_eq_none l1, List.getElem?_eq_none (by rw [hlen]; omega)]
  · intro i hi hio
    unfold mapped_page
    rw [getElem?_slice _ _ _ _ hi, getElem?_slice _ _ _ _ hi,
      zero_pad_getElem? _ _ _ (by omega), zero_pad_getElem? _ _ _ (by omega),
      hout (o.toNat + i) (by omega)]

/-- Instance of C20 on a file shorter than a page: after `init_file` on a file
of 32 bytes the window of 4096 bytes is mapped at offset 0; 3 bytes are written
at offset 30 of the page, across the end of the file, and read back. -/
theorem write_read_page_round_trip_witness :
    (init_file (demo_os (List.range 32)) fm_start "db").2.mmaped_data = .mapped 0 ∧
    window_in_file (init_file (demo_os (List.range 32)) fm_start "db").2 0 ∧
    write_page 4096 (demo_os []) (init_file (demo_os (List.range 32)) fm_start "db").2
      [1, 2, 3] 3 0 =
      some (FILE_SUCCESS,
        { (init_file (demo_os (List.range 32)) fm_start "db").2 with
          file := [1, 2, 3] ++ (List.range 32).drop 3 }) ∧
    read_page 4096
      { (init_file (demo_os (List.range 32)) fm_start "db").2 with
        file := [1, 2, 3] ++ (List.range 32).drop 3 } [0, 0, 0] 3 0 =
      some (FILE_SUCCESS, [1, 2, 3]) ∧
    ∃ st1, write_page 4096
        { open_fd := 3, content := [], lseek_end := 0, mmap_ok := true, msync_ok := false,
          munmap_ok := true, ftruncate_ok := true, unlink_ok := true }
        (init_file (demo_os (List.range 32)) fm_start "db").2 [70, 71, 72, 73] 3 (30 : Nat) =
        some (FILE_SUCCESS, st1) ∧
      st1.mmaped_data = .mapped 0 ∧
      st1.page_offset = (init_file (demo_os (List.range 32)) fm_start "db").2.page_offset ∧
      st1.file_size = (init_file (demo_os (List.range 32)) fm_start "db").2.file_size ∧
      st1.fd = (init_file (demo_os (List.range 32)) fm_start "db").2.fd ∧
      st1.live = (init_file (demo_os (List.range 32)) fm_start "db").2.live ∧
      ((0 : Int).toNat + 30 + 3 ≤
          (init_file (demo_os (List.range 32)) fm_start "db").2.file.length →
        st1.file.length = (init_file (demo_os (List.range 32)) fm_start "db").2.file.length) ∧
      (∀ j, j < (init_file (demo_os (List.range 32)) fm_start "db").2.file.length →
        (j < (0 : Int).toNat + 30 ∨ (0 : Int).toNat + 30 + 3 ≤ j) →
        st1.file[j]? = (init_file (demo_os (List.range 32)) fm_start "db").2.file[j]?) ∧
      read_page 4096 st1 [0, 0, 0, 0, 0] 3 (30 : Nat) =
        some (FILE_SUCCESS, [70, 71, 72, 73].take 3 ++ [0, 0, 0, 0, 0].drop 3) ∧
      slice (mapped_page 4096 st1 0) 30 3 = [70, 71, 72, 73].take 3 ∧
      ∀ i, i < 4096 → (i < 30 ∨ 30 + 3 ≤ i) →
        (mapped_page 4096 st1 0)[i]? =
          (mapped_page 4096 (init_file (demo_os (List.range 32)) fm_start "db").2 0)[i]? :=
  ⟨by decide, by decide, by decide, by decide,
   write_read_page_round_trip 4096 _ _ 0 [70, 71, 72, 73] [0, 0, 0, 0, 0] 3 30 (by decide)
     (by decide) (by decide) (by decide) (by decide)⟩

/-! ## Lemmas: freeing a block -/

theorem filter_ne_self (l : List (chblix_t × List Byte)) (h : chblix_t)
    (hn : ∀ p ∈ l, ¬ p.1 = h) : l.filter (fun p => decide (¬ p.1 = h)) = l := by
  apply List.filter_eq_self.mpr
  intro p hp
  simpa using hn p hp

theorem filter_ne_split (A B : List (chblix_t × List Byte)) (h : chblix_t) (r : List Byte)
    (hnd : ((A ++ (h, r) :: B).map (fun p => p.1)).Nodup) :
    (A ++ (h, r) :: B).filter (fun p => decide (¬ p.1 = h)) = A ++ B := by
  simp only [List.map_append, List.map_cons] at hnd
  rw [List.nodup_append] at hnd
  obtain ⟨-, h2, h3⟩ := hnd
  simp only [List.nodup_cons, List.mem_map, not_exists, not_and] at h2
  have hA : ∀ p ∈ A, ¬ p.1 = h := by
    intro p hp e
    exact h3 (List.mem_map.mpr ⟨p, hp, e⟩) (List.mem_cons_self _ _)
  have hB : ∀ p ∈ B, ¬ p.1 = h := fun p hp => h2.1 p hp
  rw [List.filter_append, filter_ne_self A h hA]
  simp only [List.filter_cons, not_true_eq_false, decide_False]
  rw [filter_ne_self B h hB]
  simp

theorem blocks_rows_filter_ge (cidx : Nat) (bs : List (Option (List Byte))) (s i : Nat)
    (hi : i < s) :
    (blocks_rows cidx s bs).filter
      (fun p => decide (¬ p.1 = { chunk_idx := cidx, block_idx := i })) =
      blocks_rows cidx s bs := by
  apply filter_ne_self
  intro p hp e
  have := (mem_blocks_rows cidx bs s p hp).2.1
  rw [e] at this
  simp only at this
  omega

theorem blocks_free_rows (cidx : Nat) (bs : List (Option (List Byte))) (s i : Nat)
    (r : List Byte)
    (hm : ({ chunk_idx := cidx, block_idx := s + i }, r) ∈ blocks_rows cidx s bs) :
    ∃ bs1, blocks_free i bs = some bs1 ∧
      blocks_rows cidx s bs1 =
        (blocks_rows cidx s bs).filter
          (fun p => decide (¬ p.1 = { chunk_idx := cidx, block_idx := s + i })) := by
  induction bs generalizing s i with
  | nil => simp [blocks_rows] at hm
  | cons b rest ih =>
    cases i with
    | zero =>
      cases b with
      | none =>
        simp only [blocks_rows] at hm
        have := (mem_blocks_rows cidx rest (s + 1) _ hm).2.1
        simp only at this
        omega
      | some r0 =>
        refine ⟨none :: rest, rfl, ?_⟩
        simp only [blocks_rows, Nat.add_zero, List.filter_cons, not_true_eq_false, decide_False]
        rw [blocks_rows_filter_ge cidx rest (s + 1) s (by omega)]
        simp
    | succ j =>
      have hs : s + (j + 1) = (s + 1) + j := by omega
      cases b with
      | none =>
        simp only [blocks_rows] at hm ⊢
        rw [hs] at hm ⊢
        obtain ⟨bs1, h1, h2⟩ := ih (s + 1) j hm
        exact ⟨none :: bs1, by simp [blocks_free, h1], by simpa [blocks_rows] using h2⟩
      | some r0 =>
        simp only [blocks_rows, List.mem_cons] at hm
        rcases hm with hm | hm
        · simp only [Prod.mk.injEq, chblix_t.mk.injEq, true_and] at hm
          omega
        · rw [hs] at hm ⊢
          obtain ⟨bs1, h1, h2⟩ := ih (s + 1) j hm
          refine ⟨some r0 :: bs1, by simp [blocks_free, h1], ?_⟩
          have hne : ¬ ({ chunk_idx := cidx, block_idx := s } : chblix_t) =
              { chunk_idx := cidx, block_idx := s + 1 + j } := by
            simp only [chblix_t.mk.injEq, true_and]; omega
          simp only [blocks_rows, h2, List.filter_cons, hne, not_false_eq_true, decide_True,
            if_true]

theorem chunk_free_rows (c : chunk_t) (h : chblix_t) (r : List Byte)
    (hm : (h, r) ∈ chunk_rows c) :
    ∃ c1, chunk_free c h.block_idx = some c1 ∧
      chunk_rows c1 = (chunk_rows c).filter (fun p => decide (¬ p.1 = h)) ∧
      c1.chunk_idx = c.chunk_idx ∧ c1.capacity = c.capacity ∧
      c1.num_of_free_blocks = c.num_of_free_blocks + 1 := by
  have hc := (mem_blocks_rows c.chunk_idx c.blocks 0 (h, r) hm).1
  simp only at hc
  have he : h = { chunk_idx := c.chunk_idx, block_idx := 0 + h.block_idx } := by
    cases h
    simp only [chblix_t.mk.injEq] at hc ⊢
    exact ⟨hc, by omega⟩
  unfold chunk_rows at hm
  rw [he] at hm
  obtain ⟨bs1, h1, h2⟩ := blocks_free_rows c.chunk_idx c.blocks 0 h.block_idx r hm
  rw [← he] at h2
  refine ⟨{ c with first_free_block := h.block_idx :: c.first_free_block, blocks := bs1 },
    by simp [chunk_free, h1], h2, rfl, rfl, ?_⟩
  simp [chunk_t.num_of_free_blocks]

/-! ## Lemmas: the rows after a position -/

theorem blocks_rows_after (cidx : Nat) (bs : List (Option (List Byte))) (s b : Nat)
    (r : List Byte) (A B : List (chblix_t × List Byte))
    (hsplit : blocks_rows cidx s bs = A ++ ({ chunk_idx := cidx, block_idx := b }, r) :: B) :
    (blocks_rows cidx s bs).filter (fun p => decide ((b : Int) < (p.1.block_idx : Int))) = B := by
  induction bs generalizing s A with
  | nil =>
    simp only [blocks_rows] at hsplit
    exact absurd hsplit (by simp)
  | cons x rest ih =>
    cases x with
    | none =>
      simp only [blocks_rows] at hsplit ⊢
      exact ih (s + 1) A hsplit
    | some x0 =>
      simp only [blocks_rows] at hsplit ⊢
      have hrest : ∀ p ∈ blocks_rows cidx (s + 1) rest, s + 1 ≤ p.1.block_idx :=
        fun p hp => (mem_blocks_rows cidx rest (s + 1) p hp).2.1
      cases A with
      | nil =>
        simp only [List.nil_append, List.cons.injEq, Prod.mk.injEq, chblix_t.mk.injEq,
          true_and] at hsplit
        obtain ⟨⟨hsb, -⟩, hB⟩ := hsplit
        subst hsb
        simp only [List.filter_cons, lt_self_iff_false, decide_False]
        rw [← hB]
        apply List.filter_eq_self.mpr
        intro p hp
        have := hrest p hp
        simp only [decide_eq_true_eq]
        omega
      | cons a A1 =>
        simp only [List.cons_append, List.cons.injEq] at hsplit
        obtain ⟨ha, hr⟩ := hsplit
        have hmem : (({ chunk_idx := cidx, block_idx := b } : chblix_t), r) ∈
            blocks_rows cidx (s + 1) rest := by
          rw [hr]; simp
        have hb := hrest _ hmem
        simp only at hb
        have hlt : ¬ ((b : Int) < (s : Int)) := by omega
        simp only [List.filter_cons, hlt, decide_False]
        exact ih (s + 1) A1 hr

theorem rows_after_cursor_of (cs : List chunk_t) (hwf : chain_wf cs) (h : chblix_t)
    (r : List Byte) (A B : List (chblix_t × List Byte))
    (hsplit : chain_rows cs = A ++ (h, r) :: B) : rows_after (cursor_of h) cs = B := by
  induction cs generalizing A with
  | nil =>
    simp only [chain_rows] at hsplit
    exact absurd hsplit (by simp)
  | cons c rest ih =>
    have hwf0 := hwf
    unfold chain_wf at hwf
    simp only [List.map_cons, List.nodup_cons] at hwf
    simp only [chain_rows] at hsplit
    have hrestcase : ∀ A1, chain_rows rest = A1 ++ (h, r) :: B →
        rows_after (cursor_of h) (c :: rest) = B := by
      intro A1 h1
      have hmem : (h, r) ∈ chain_rows rest := by rw [h1]; simp
      have hidx := mem_chain_rows_idx rest (h, r) hmem
      have hne : ¬ (c.chunk_idx : Int) = (h.chunk_idx : Int) := by
        intro e
        have e1 : c.chunk_idx = h.chunk_idx := by exact_mod_cast e
        rw [e1] at hwf
        exact hwf.1 hidx
      simp only [rows_after, cursor_of, hne, if_false]
      exact ih hwf.2 A1 h1
    rcases List.append_eq_append_iff.mp hsplit with ⟨a1, h1, h2⟩ | ⟨c1, h1, h2⟩
    · exact hrestcase a1 h2
    · cases c1 with
      | nil =>
        simp only [List.nil_append] at h2
        exact hrestcase [] h2.symm
      | cons y c2 =>
        simp only [List.cons_append, List.cons.injEq] at h2
        obtain ⟨hy, hB⟩ := h2
        subst hy
        have hmem : (h, r) ∈ chunk_rows c := by rw [h1]; simp
        have hc := (mem_blocks_rows c.chunk_idx c.blocks 0 (h, r) hmem).1
        simp only at hc
        have he : h = { chunk_idx := c.chunk_idx, block_idx := h.block_idx } := by
          cases h
          simp only [chblix_t.mk.injEq] at hc ⊢
          simp [hc]
        have hk := blocks_rows_after c.chunk_idx c.blocks 0 h.block_idx r A c2
          (by
            have := h1
            unfold chunk_rows at this
            rw [this, ← he])
        simp only [rows_after, cursor_of, hc, if_true, hB]
        unfold chunk_rows
        rw [hk]

theorem rows_after_start (cs : List chunk_t) :
    rows_after (cursor_start cs) cs = chain_rows cs := by
  cases cs with
  | nil => rfl
  | cons c rest =>
    simp only [rows_after, cursor_start, if_true, chain_rows]
    congr 1
    apply List.filter_eq_self.mpr
    intro p _
    simp only [decide_eq_true_eq]
    omega

theorem cursor_start_idx (cs : List chunk_t) :
    (cursor_start cs).chunk_idx = -1 ∨
      ∃ n : Nat, n ∈ cs.map (fun c => c.chunk_idx) ∧ (cursor_start cs).chunk_idx = (n : Int) := by
  cases cs with
  | nil => exact Or.inl rfl
  | cons c rest => exact Or.inr ⟨c.chunk_idx, by simp, rfl⟩

theorem cursor_start_eq (cs : List chunk_t) :
    ({ chunk_idx := (cursor_start cs).chunk_idx, block_idx := -1 } : cursor_t) =
      cursor_start cs := by
  cases cs <;> rfl

theorem rows_after_skip (cur : cursor_t) (c : chunk_t) (rest : List chunk_t)
    (hne : ¬ (c.chunk_idx : Int) = cur.chunk_idx) :
    rows_after cur (c :: rest) = rows_after cur rest := by
  simp only [rows_after, hne, if_false]

theorem chunk_rows_filter_other (c : chunk_t) (h : chblix_t)
    (hne : ¬ c.chunk_idx = h.chunk_idx) :
    (chunk_rows c).filter (fun p => decide (¬ p.1 = h)) = chunk_rows c := by
  apply filter_ne_self
  intro p hp e
  have := (mem_blocks_rows c.chunk_idx c.blocks 0 p hp).1
  rw [e] at this
  exact hne this.symm

theorem chain_rows_filter_other (cs : List chunk_t) (h : chblix_t)
    (hne : h.chunk_idx ∉ cs.map (fun c => c.chunk_idx)) :
    (chain_rows cs).filter (fun p => decide (¬ p.1 = h)) = chain_rows cs := by
  apply filter_ne_self
  intro p hp e
  have := mem_chain_rows_idx cs p hp
  rw [e] at this
  exact hne this

/-- Freeing a block of the head chunk of a chain. -/
theorem lb_free_rec_head (h : chblix_t) (r : List Byte) (only : Bool) (c0 : chunk_t)
    (rest : List chunk_t) (hwf : chain_wf (c0 :: rest)) (hok0 : chunk_ok c0)
    (hokr : chain_ok rest) (hc : c0.chunk_idx = h.chunk_idx) (hin : (h, r) ∈ chunk_rows c0) :
    ∃ cs1, lb_free_rec h only (c0 :: rest) = some cs1 ∧
      chain_rows cs1 = (chain_rows (c0 :: rest)).filter (fun p => decide (¬ p.1 = h)) ∧
      chain_wf cs1 ∧ chain_ok cs1 ∧
      (∀ i ∈ cs1.map (fun c => c.chunk_idx), i ∈ (c0 :: rest).map (fun c => c.chunk_idx)) ∧
      rows_after (if c0.num_of_free_blocks + 1 = c0.capacity
                  then { chunk_idx := (cursor_start rest).chunk_idx, block_idx := -1 }
                  else cursor_of h) cs1 = rows_after (cursor_of h) (c0 :: rest) := by
  have hwf0 := hwf
  unfold chain_wf at hwf
  simp only [List.map_cons, List.nodup_cons] at hwf
  obtain ⟨c1, f1, f2, f3, f4, f5⟩ := chunk_free_rows c0 h r hin
  have hnotin : h.chunk_idx ∉ rest.map (fun c => c.chunk_idx) := by rw [← hc]; exact hwf.1
  have hrf := chain_rows_filter_other rest h hnotin
  obtain ⟨A, B, hAB⟩ := List.append_of_mem hin
  have hnd : ((A ++ (h, r) :: B).map (fun p => p.1)).Nodup := by
    rw [← hAB]; exact blocks_rows_nodup _ _ _
  have hfilt : (chunk_rows c0).filter (fun p => decide (¬ p.1 = h)) = A ++ B := by
    rw [hAB]; exact filter_ne_split A B h r hnd
  have hlen : (chunk_rows c0).length = (A ++ B).length + 1 := by
    rw [hAB]; simp; omega
  have hok1 : chunk_ok c1 := by
    unfold chunk_ok at hok0 ⊢
    rw [f5, f4, f2, hfilt]
    omega
  have hrhs : rows_after (cursor_of h) (c0 :: rest) =
      (chunk_rows c0).filter (fun p => decide ((h.block_idx : Int) < (p.1.block_idx : Int))) ++
        chain_rows rest := by
    simp only [rows_after, cursor_of, hc, if_true]
  have hafter1 : (chunk_rows c1).filter
      (fun p => decide ((h.block_idx : Int) < (p.1.block_idx : Int))) =
      (chunk_rows c0).filter (fun p => decide ((h.block_idx : Int) < (p.1.block_idx : Int))) := by
    rw [f2, List.filter_filter]
    apply List.filter_congr
    intro p _
    by_cases hlt : (h.block_idx : Int) < (p.1.block_idx : Int)
    · have hne : ¬ p.1 = h := by
        intro e; rw [e] at hlt; exact lt_irrefl _ hlt
      simp [hlt, hne]
    · simp [hlt]
  have hstartne : ¬ (c1.chunk_idx : Int) = (cursor_start rest).chunk_idx := by
    rw [f3]
    rcases cursor_start_idx rest with e | ⟨n, hn, e⟩
    · rw [e]; omega
    · rw [e]
      intro e2
      have e3 : c0.chunk_idx = n := by exact_mod_cast e2
      rw [e3] at hwf
      exact hwf.1 hn
  have hstart : rows_after { chunk_idx := (cursor_start rest).chunk_idx, block_idx := -1 } rest =
      chain_rows rest := by
    rw [cursor_start_eq]; exact rows_after_start rest
  have hidx1 : ∀ i ∈ (c1 :: rest).map (fun c => c.chunk_idx),
      i ∈ (c0 :: rest).map (fun c => c.chunk_idx) := by
    intro i hi
    simpa [f3] using hi
  have hwf1 : chain_wf (c1 :: rest) := by
    unfold chain_wf
    simp only [List.map_cons, List.nodup_cons, f3]
    exact hwf
  have hokc1 : chain_ok (c1 :: rest) := by
    intro c hcm
    rcases List.mem_cons.mp hcm with e | e
    · rw [e]; exact hok1
    · exact hokr c e
  have hrows1 : chain_rows (c1 :: rest) =
      (chain_rows (c0 :: rest)).filter (fun p => decide (¬ p.1 = h)) := by
    simp only [chain_rows, List.filter_append, hrf, f2]
  by_cases hflag : c0.num_of_free_blocks + 1 = c0.capacity
  · have hAB0 : A ++ B = [] := by
      unfold chunk_ok at hok0
      have : (A ++ B).length = 0 := by omega
      exact List.length_eq_zero.mp this
    have hA : A = [] := (List.append_eq_nil.mp hAB0).1
    have hB : B = [] := (List.append_eq_nil.mp hAB0).2
    have hc0rows : chunk_rows c0 = [(h, r)] := by rw [hAB, hA, hB]; rfl
    have hc1rows : chunk_rows c1 = [] := by rw [f2, hfilt, hAB0]
    have hrhs2 : rows_after (cursor_of h) (c0 :: rest) = chain_rows rest := by
      rw [hrhs, hc0rows]
      simp
    rw [if_pos hflag, hrhs2]
    by_cases hu : c1.num_of_free_blocks = c1.capacity ∧ only = false
    · refine ⟨rest, by simp only [lb_free_rec, hc, if_true, f1, hu, and_self], ?_, hwf.2, hokr,
        ?_, hstart⟩
      · simp only [chain_rows, List.filter_append, hrf, hfilt, hAB0, List.nil_append]
      · intro i hi
        simp only [List.map_cons, List.mem_cons]
        exact Or.inr hi
    · refine ⟨c1 :: rest, by simp only [lb_free_rec, hc, if_true, f1, hu, if_false], hrows1,
        hwf1, hokc1, hidx1, ?_⟩
      rw [rows_after_skip { chunk_idx := (cursor_start rest).chunk_idx, block_idx := -1 } c1 rest
        hstartne, hstart]
  · have hu : ¬ (c1.num_of_free_blocks = c1.capacity ∧ only = false) := by
      rw [f5, f4]
      intro hh
      exact hflag hh.1
    rw [if_neg hflag, hrhs]
    refine ⟨c1 :: rest, by simp only [lb_free_rec, hc, if_true, f1, hu, if_false], hrows1,
      hwf1, hokc1, hidx1, ?_⟩
    have hc1 : (c1.chunk_idx : Int) = (cursor_of h).chunk_idx := by
      rw [f3, hc]; rfl
    simp only [rows_after, hc1, if_true]
    rw [← hafter1]
    rfl

/-- Freeing an allocated block of a chain: the chunk of the block and its
link are found, the rows of the chain are the old ones without the block, the
invariants of the chain survive, and the rows after the position the delete
loop goes on from are the rows that came after the block. -/
theorem lb_free_rec_spec (h : chblix_t) (r : List Byte) (only : Bool) (cs : List chunk_t)
    (hwf : chain_wf cs) (hok : chain_ok cs) (hm : (h, r) ∈ chain_rows cs) :
    ∃ c nxt cs1, chain_find h.chunk_idx cs = some (c, nxt) ∧
      lb_free_rec h only cs = some cs1 ∧
      chain_rows cs1 = (chain_rows cs).filter (fun p => decide (¬ p.1 = h)) ∧
      chain_wf cs1 ∧ chain_ok cs1 ∧
      (∀ i ∈ cs1.map (fun c => c.chunk_idx), i ∈ cs.map (fun c => c.chunk_idx)) ∧
      (nxt = -1 ∨ ∃ n : Nat, n ∈ cs.map (fun c => c.chunk_idx) ∧ nxt = (n : Int)) ∧
      rows_after (if c.num_of_free_blocks + 1 = c.capacity
                  then { chunk_idx := nxt, block_idx := -1 }
                  else cursor_of h) cs1 = rows_after (cursor_of h) cs := by
  induction cs with
  | nil => simp [chain_rows] at hm
  | cons c0 rest ih =>
    have hwf0 := hwf
    unfold chain_wf at hwf
    simp only [List.map_cons, List.nodup_cons] at hwf
    have hok0 : chunk_ok c0 := hok c0 (List.mem_cons_self _ _)
    have hokr : chain_ok rest := fun c hc => hok c (List.mem_cons_of_mem _ hc)
    simp only [chain_rows, List.mem_append] at hm
    by_cases hc : c0.chunk_idx = h.chunk_idx
    · have hin : (h, r) ∈ chunk_rows c0 := by
        rcases hm with hm | hm
        · exact hm
        · have := mem_chain_rows_idx rest (h, r) hm
          simp only at this
          rw [← hc] at this
          exact absurd this hwf.1
      obtain ⟨cs1, g1, g2, g3, g4, g5, g6⟩ :=
        lb_free_rec_head h r only c0 rest hwf0 hok0 hokr hc hin
      refine ⟨c0, (cursor_start rest).chunk_idx, cs1, by simp only [chain_find, hc, if_true],
        g1, g2, g3, g4, g5, ?_, g6⟩
      rcases cursor_start_idx rest with e | ⟨n, hn, e⟩
      · exact Or.inl e
      · exact Or.inr ⟨n, by simp only [List.map_cons, List.mem_cons]; exact Or.inr hn, e⟩
    · have hin : (h, r) ∈ chain_rows rest := by
        rcases hm with hm | hm
        · have := (mem_blocks_rows c0.chunk_idx c0.blocks 0 (h, r) hm).1
          simp only at this
          exact absurd this.symm hc
        · exact hm
      obtain ⟨c, nxt, rest1, g0, g1, g2, g3, g4, g5, g6, g7⟩ := ih hwf.2 hokr hin
      have hnot1 : c0.chunk_idx ∉ rest1.map (fun c => c.chunk_idx) := fun hi => hwf.1 (g5 _ hi)
      have hcur : ¬ (c0.chunk_idx : Int) =
          (if c.num_of_free_blocks + 1 = c.capacity
           then ({ chunk_idx := nxt, block_idx := -1 } : cursor_t)
           else cursor_of h).chunk_idx := by
        split
        · simp only
          rcases g6 with e | ⟨n, hn, e⟩
          · rw [e]; omega
          · rw [e]
            intro e2
            have e3 : c0.chunk_idx = n := by exact_mod_cast e2
            rw [e3] at hwf
            exact hwf.1 hn
        · simp only [cursor_of]
          intro e2
          exact hc (by exact_mod_cast e2)
      have hcur2 : ¬ (c0.chunk_idx : Int) = (cursor_of h).chunk_idx := by
        simp only [cursor_of]
        intro e2
        exact hc (by exact_mod_cast e2)
      refine ⟨c, nxt, c0 :: rest1, by simp only [chain_find, hc, if_false]; exact g0,
        by simp only [lb_free_rec, hc, if_false, g1], ?_, ?_, ?_, ?_, ?_, ?_⟩
      · simp only [chain_rows, List.filter_append, g2, chunk_rows_filter_other c0 h hc]
      · unfold chain_wf
        simp only [List.map_cons, List.nodup_cons]
        exact ⟨hnot1, g3⟩
      · intro x hx
        rcases List.mem_cons.mp hx with e | e
        · rw [e]; exact hok0
        · exact g4 x e
      · intro i hi
        simp only [List.map_cons, List.mem_cons] at hi ⊢
        rcases hi with e | e
        · exact Or.inl e
        · exact Or.inr (g5 i e)
      · rcases g6 with e | ⟨n, hn, e⟩
        · exact Or.inl e
        · exact Or.inr ⟨n, by simp only [List.map_cons, List.mem_cons]; exact Or.inr hn, e⟩
      · rw [rows_after_skip _ c0 rest1 hcur, rows_after_skip _ c0 rest hcur2]
        exact g7

/-! ## Delete by predicate -/

theorem delete_body_eq (cmp : datatype_t → List Byte → List Byte → condition_t → Bool)
    (table : table_t) (fc : field_t) (cond : condition_t) (cv : List Byte) (c : chunk_t)
    (nxt : Int) (h : chblix_t) (el : List Byte) (db : db_t) :
    delete_body cmp table fc cond cv c nxt h el db =
      if cmp fc.type (slice el fc.offset fc.size) cv cond then
        (if (tab_delete_nova db table c h).1 = TABLE_FAIL
         then (some TABLE_FAIL, cursor_of h, (tab_delete_nova db table c h).2)
         else (none,
               (if c.num_of_free_blocks + 1 = c.capacity
                then ({ chunk_idx := nxt, block_idx := -1 } : cursor_t) else cursor_of h),
               (tab_delete_nova db table c h).2))
      else (none, cursor_of h, db) := by
  unfold delete_body
  simp only [memcpy_malloc]
  by_cases hm : cmp fc.type (slice el fc.offset fc.size) cv cond = true
  · simp only [hm, if_true]
    by_cases hf : (tab_delete_nova db table c h).1 = TABLE_FAIL
    · simp only [hf, if_true]
    · simp only [hf, if_false]
      by_cases hflag : c.num_of_free_blocks + 1 = c.capacity
      · simp [hflag]
      · simp [hflag]
  · simp only [hm, if_false]
    simp

/-- A successful `tab_delete_nova` on an allocated block. -/
theorem tab_delete_nova_spec (db : db_t) (table : table_t) (t : table_rec) (h : chblix_t)
    (r : List Byte) (hl : idx_load table.tabidx db.tables = some t)
    (hwf : chain_wf t.chunks) (hok : chain_ok t.chunks) (hm : (h, r) ∈ chain_rows t.chunks) :
    ∃ c nxt db1, chain_find h.chunk_idx t.chunks = some (c, nxt) ∧
      (∀ x, tab_delete_nova db table x h = (TABLE_SUCCESS, db1)) ∧
      tab_rows db1 table.tabidx = (chain_rows t.chunks).filter (fun p => decide (¬ p.1 = h)) ∧
      chain_wf (tab_chunks db1 table.tabidx) ∧ chain_ok (tab_chunks db1 table.tabidx) ∧
      rows_after (if c.num_of_free_blocks + 1 = c.capacity
                  then { chunk_idx := nxt, block_idx := -1 }
                  else cursor_of h) (tab_chunks db1 table.tabidx) =
        rows_after (cursor_of h) t.chunks ∧
      (∀ k, k ≠ table.tabidx → idx_load k db1.tables = idx_load k db.tables) ∧
      (∃ t1, idx_load table.tabidx db1.tables = some t1) ∧
      db1.schemas = db.schemas ∧ db1.meta_table = db.meta_table ∧
      db1.num_pages = db.num_pages ∧ db1.page_size = db.page_size := by
  obtain ⟨c, nxt, cs1, g0, g1, g2, g3, g4, -, -, g7⟩ :=
    lb_free_rec_spec h r (decide (t.chunks.length ≤ 1)) t.chunks hwf hok hm
  obtain ⟨t1, ht1⟩ : ∃ x : table_rec, x = { t with chunks := cs1 } := ⟨_, rfl⟩
  have ht1c : t1.chunks = cs1 := by rw [ht1]
  obtain ⟨db1, hdb1⟩ : ∃ d : db_t, d = { db with tables := idx_store table.tabidx t1 db.tables } :=
    ⟨_, rfl⟩
  have hload1 : idx_load table.tabidx db1.tables = some t1 := by
    rw [hdb1]
    exact idx_load_store_same table.tabidx _ t db.tables hl
  have hch : tab_chunks db1 table.tabidx = cs1 := by
    rw [tab_chunks_of_load db1 table.tabidx _ hload1, ht1c]
  refine ⟨c, nxt, db1, g0, ?_, ?_, ?_, ?_, ?_, ?_, ⟨_, hload1⟩, ?_, ?_, ?_, ?_⟩
  · intro x
    simp only [tab_delete_nova, hl, lb_free, g1, hdb1, ht1]
  · unfold tab_rows
    rw [hch, g2]
  · rw [hch]; exact g3
  · rw [hch]; exact g4
  · rw [hch]; exact g7
  · intro k hk
    rw [hdb1]
    exact idx_load_store_other table.tabidx k _ db.tables hk
  · rw [hdb1]
  · rw [hdb1]
  · rw [hdb1]
  · rw [hdb1]

/-- What the loop of `tab_delete_op_nova` does from a position: with `R` the
rows after the position and `A` the rows before them, and more fuel than rows
in `R`, the loop ends without a `return`, the body has run on the handles of
`R` in order, and the rows of the table are `A` followed by the rows of `R`
that do not satisfy the condition. -/
theorem delete_loop_spec (cmp : datatype_t → List Byte → List Byte → condition_t → Bool)
    (table : table_t) (schema : schema_t) (fc : field_t) (cond : condition_t)
    (cv : List Byte) :
    ∀ (R A : List (chblix_t × List Byte)) (cur : cursor_t) (seen : List chblix_t) (db : db_t)
      (fuel : Nat),
      chain_wf (tab_chunks db table.tabidx) → chain_ok (tab_chunks db table.tabidx) →
      (∃ t, idx_load table.tabidx db.tables = some t) →
      tab_rows db table.tabidx = A ++ R →
      rows_after cur (tab_chunks db table.tabidx) = R →
      R.length < fuel →
      ∃ db1,
        tab_for_each_row_cur table schema (delete_body cmp table fc cond cv) fuel cur seen db =
          some (none, seen ++ R.map (fun p => p.1), db1) ∧
        tab_rows db1 table.tabidx =
          A ++ R.filter (fun p =>
            !cmp fc.type (slice (p.2.take schema.slot_size) fc.offset fc.size) cv cond) ∧
        chain_wf (tab_chunks db1 table.tabidx) ∧ chain_ok (tab_chunks db1 table.tabidx) ∧
        (∀ k, k ≠ table.tabidx → idx_load k db1.tables = idx_load k db.tables) ∧
        (∃ t1, idx_load table.tabidx db1.tables = some t1) ∧
        db1.schemas = db.schemas ∧ db1.meta_table = db.meta_table ∧
        db1.num_pages = db.num_pages ∧ db1.page_size = db.page_size := by
  intro R
  induction R with
  | nil =>
    intro A cur seen db fuel hwf hok ht hrows hafter hfuel
    cases fuel with
    | zero => simp at hfuel
    | succ f =>
      refine ⟨db, ?_, by simpa using hrows, hwf, hok, fun _ _ => rfl, ht, rfl, rfl, rfl, rfl⟩
      simp only [tab_for_each_row_cur, hafter, List.head?_nil, List.map_nil, List.append_nil]
  | cons x R1 ih =>
    intro A cur seen db fuel hwf hok ht hrows hafter hfuel
    obtain ⟨h, r⟩ := x
    cases fuel with
    | zero => simp at hfuel
    | succ f =>
      have hf : R1.length < f := by simp only [List.length_cons] at hfuel; omega
      obtain ⟨t, hl⟩ := ht
      have hch : tab_chunks db table.tabidx = t.chunks := tab_chunks_of_load db _ t hl
      have hrows0 : chain_rows t.chunks = A ++ (h, r) :: R1 := by
        rw [← hch]; exact hrows
      rw [hch] at hwf hok hafter
      have hmem : (h, r) ∈ chain_rows t.chunks := by rw [hrows0]; simp
      have hnext : rows_after (cursor_of h) t.chunks = R1 :=
        rows_after_cursor_of t.chunks hwf h r A R1 hrows0
      obtain ⟨c, nxt, db1, d0, d1, d2, d3, d4, d5, d6, d7, d8, d9, d10, d11⟩ :=
        tab_delete_nova_spec db table t h r hl hwf hok hmem
      simp only [tab_for_each_row_cur, hch, hafter, List.head?_cons, d0, delete_body_eq]
      by_cases hmatch : cmp fc.type (slice (r.take schema.slot_size) fc.offset fc.size) cv cond
          = true
      · have hne : ¬ (TABLE_SUCCESS : Int) = TABLE_FAIL := by decide
        simp only [hmatch, if_true, d1 c, hne, if_false]
        have hrows1 : tab_rows db1 table.tabidx = A ++ R1 := by
          rw [d2, hrows0]
          apply filter_ne_split
          rw [← hrows0]
          exact chain_handles_nodup t.chunks hwf
        obtain ⟨db2, e1, e2, e3, e4, e5, e6, e7, e8, e9, e10⟩ :=
          ih A _ (seen ++ [h]) db1 f d3 d4 d7 hrows1 (by rw [d5, hnext]) hf
        refine ⟨db2, ?_, ?_, e3, e4, fun k hk => (e5 k hk).trans (d6 k hk), e6, e7.trans d8,
          e8.trans d9, e9.trans d10, e10.trans d11⟩
        · rw [e1]; simp
        · rw [e2]; simp [hmatch]
      · have hm2 : cmp fc.type (slice (r.take schema.slot_size) fc.offset fc.size) cv cond
            = false := by simpa using hmatch
        simp only [hm2, Bool.false_eq_true, if_false]
        have hrows1 : tab_rows db table.tabidx = (A ++ [(h, r)]) ++ R1 := by
          rw [hrows]; simp
        obtain ⟨db2, e1, e2, e3, e4, e5, e6, e7, e8, e9, e10⟩ :=
          ih (A ++ [(h, r)]) (cursor_of h) (seen ++ [h]) db f (by rw [hch]; exact hwf)
            (by rw [hch]; exact hok) ⟨t, hl⟩ hrows1 (by rw [hch]; exact hnext) hf
        refine ⟨db2, ?_, ?_, e3, e4, e5, e6, e7, e8, e9, e10⟩
        · rw [e1]; simp
        · rw [e2]; simp [hm2]

/-- What `tab_delete_op_nova` does on a stored table whose chunks satisfy the
chunk invariant, with more fuel than rows. -/
theorem tab_delete_op_nova_core
    (cmp : datatype_t → List Byte → List Byte → condition_t → Bool) (fuel : Nat)
    (db : db_t) (table : table_t) (schema : schema_t) (field_comp : field_t)
    (condition : condition_t) (value : List Byte)
    (ht : table_valid db table schema) (hok : chain_ok (tab_chunks db table.tabidx))
    (hfuel : (tab_rows db table.tabidx).length < fuel) :
    ∃ db1,
      tab_delete_op_nova cmp fuel db table schema field_comp condition value =
        some (TABLE_SUCCESS, db1) ∧
      tab_rows db1 table.tabidx =
        (tab_rows db table.tabidx).filter (fun p =>
          !cmp field_comp.type (slice p.2 field_comp.offset field_comp.size)
            (value.take field_comp.size) condition) ∧
      (∀ k, k ≠ table.tabidx → tab_rows db1 k = tab_rows db k) ∧
      db1.schemas = db.schemas ∧ db1.meta_table = db.meta_table := by
  obtain ⟨-, -, ht3, ht4, ht5⟩ := ht
  have hex : ∃ t, idx_load table.tabidx db.tables = some t := by
    cases hl : idx_load table.tabidx db.tables with
    | none => simp [tab_load, hl] at ht3
    | some t => exact ⟨t, rfl⟩
  obtain ⟨db1, e1, e2, -, -, e5, -, e7, e8, -, -⟩ :=
    delete_loop_spec cmp table schema field_comp condition
      (memcpy (malloc field_comp.size) 0 value 0 field_comp.size)
      (tab_rows db table.tabidx) [] (cursor_start (tab_chunks db table.tabidx)) [] db fuel
      ht4 hok hex rfl (rows_after_start _) hfuel
  refine ⟨db1, ?_, ?_, ?_, e7, e8⟩
  · unfold tab_delete_op_nova
    simp only [e1]
  · rw [e2, List.nil_append]
    apply List.filter_congr
    intro p hp
    rw [take_of_length p.2 _ (ht5 p hp), memcpy_malloc, slice_zero]
  · intro k hk
    simp only [tab_rows, tab_chunks, e5 k hk]

/-- C12: on a stored table whose chunks satisfy the chunk invariant,
`tab_delete_op_nova` ends (with more fuel than the table has rows) and returns
`TABLE_SUCCESS`; afterwards a scan of the table yields exactly the rows whose
compare-field bytes did not satisfy the condition, each with its original
handle and bytes, in the original scan order, and none of the matching rows;
the other tables, the schemas and the metatable are untouched.  The statement
covers every chain, so also deletions that empty chunks or the whole table. -/
theorem tab_delete_op_nova_rows
    (cmp : datatype_t → List Byte → List Byte → condition_t → Bool) (fuel : Nat)
    (db : db_t) (table : table_t) (schema : schema_t) (field_comp : field_t)
    (condition : condition_t) (value : List Byte)
    (ht : table_valid db table schema) (hok : chain_ok (tab_chunks db table.tabidx))
    (hfuel : (tab_rows db table.tabidx).length < fuel) :
    ∃ db1,
      tab_delete_op_nova cmp fuel db table schema field_comp condition value =
        some (TABLE_SUCCESS, db1) ∧
      tab_rows db1 table.tabidx =
        (tab_rows db table.tabidx).filter (fun p =>
          !cmp field_comp.type (slice p.2 field_comp.offset field_comp.size)
            (value.take field_comp.size) condition) ∧
      (∀ p ∈ tab_rows db table.tabidx,
        cmp field_comp.type (slice p.2 field_comp.offset field_comp.size)
          (value.take field_comp.size) condition = true → p ∉ tab_rows db1 table.tabidx) ∧
      (∀ k, k ≠ table.tabidx → tab_rows db1 k = tab_rows db k) ∧
      db1.schemas = db.schemas ∧ db1.meta_table = db.meta_table := by
  obtain ⟨db1, h1, h2, h3, h4, h5⟩ :=
    tab_delete_op_nova_core cmp fuel db table schema field_comp condition value ht hok hfuel
  refine ⟨db1, h1, h2, ?_, h3, h4, h5⟩
  intro p _ hm hin
  rw [h2, List.mem_filter] at hin
  simp [hm] at hin

/-- Instance of C12 on the table of three chunks: deleting the rows with
`id = 2` frees a block of the first chunk and empties the second chunk, which
is unlinked; the rows left are `(1,"a")` and `(3,"e")` under their handles.
Deleting `id ≥ 0` empties the whole table. -/
theorem tab_delete_op_nova_rows_witness :
    table_valid demo_db_chunks demo_A demo_A_schema ∧
    chain_ok (tab_chunks demo_db_chunks demo_A.tabidx) ∧
    (tab_delete_op_nova bytes_compare 6 demo_db_chunks demo_A demo_A_schema demo_id .COND_EQ
        (i64 2)).map (fun r => (r.1, tab_rows r.2 2, (tab_chunks r.2 2).map (fun c => c.chunk_idx))) =
      some (TABLE_SUCCESS,
        [({ chunk_idx := 2, block_idx := 0 }, i64 1 ++ [97, 0, 0, 0]),
         ({ chunk_idx := 4, block_idx := 0 }, i64 3 ++ [101, 0, 0, 0])], [2, 4]) ∧
    (tab_delete_op_nova bytes_compare 6 demo_db_chunks demo_A demo_A_schema demo_id .COND_GTE
        (i64 0)).map (fun r => (r.1, tab_rows r.2 2)) = some (TABLE_SUCCESS, []) ∧
    ∃ db1,
      tab_delete_op_nova bytes_compare 6 demo_db_chunks demo_A demo_A_schema demo_id .COND_EQ
        (i64 2) = some (TABLE_SUCCESS, db1) ∧
      tab_rows db1 demo_A.tabidx =
        (tab_rows demo_db_chunks demo_A.tabidx).filter (fun p =>
          !bytes_compare demo_id.type (slice p.2 demo_id.offset demo_id.size)
            ((i64 2).take demo_id.size) .COND_EQ) ∧
      (∀ p ∈ tab_rows demo_db_chunks demo_A.tabidx,
        bytes_compare demo_id.type (slice p.2 demo_id.offset demo_id.size)
          ((i64 2).take demo_id.size) .COND_EQ = true → p ∉ tab_rows db1 demo_A.tabidx) ∧
      (∀ k, k ≠ demo_A.tabidx → tab_rows db1 k = tab_rows demo_db_chunks k) ∧
      db1.schemas = demo_db_chunks.schemas ∧ db1.meta_table = demo_db_chunks.meta_table :=
  ⟨by decide, by decide, by decide, by decide,
   tab_delete_op_nova_rows bytes_compare 6 demo_db_chunks demo_A demo_A_schema demo_id .COND_EQ
     (i64 2) (by decide) (by decide) (by decide)⟩

theorem chain_find_of_idx (cs : List chunk_t) (idx : Nat)
    (h : idx ∈ cs.map (fun c => c.chunk_idx)) : ∃ c nxt, chain_find idx cs = some (c, nxt) := by
  induction cs with
  | nil => simp at h
  | cons c rest ih =>
    by_cases hc : c.chunk_idx = idx
    · exact ⟨c, (cursor_start rest).chunk_idx, by simp only [chain_find, hc, if_true]⟩
    · simp only [List.map_cons, List.mem_cons] at h
      rcases h with e | e
      · exact absurd e.symm hc
      · obtain ⟨c1, nxt, h1⟩ := ih e
        exact ⟨c1, nxt, by simp only [chain_find, hc, if_false]; exact h1⟩

/-- For a body that leaves the chain of the scanned table as it is and does not
assign to the loop variables, the loop with the cursor runs the body on the
same handles and rows, in the same order, as the loop over the handles taken
at loop entry. -/
theorem for_each_cur_eq_snapshot {ρ : Type} (table : table_t) (schema : schema_t)
    (b : chblix_t → List Byte → db_t → Option ρ × db_t)
    (hpres : ∀ h row d, tab_chunks (b h row d).2 table.tabidx = tab_chunks d table.tabidx) :
    ∀ (R A : List (chblix_t × List Byte)) (cur : cursor_t) (seen : List chblix_t) (db : db_t)
      (fuel : Nat),
      chain_wf (tab_chunks db table.tabidx) →
      tab_rows db table.tabidx = A ++ R →
      rows_after cur (tab_chunks db table.tabidx) = R →
      R.length < fuel →
      (tab_for_each_row_cur table schema
          (fun _ _ h row d => ((b h row d).1, cursor_of h, (b h row d).2)) fuel cur seen db).map
          (fun r => (r.1, r.2.2)) =
        some (tab_for_each_row table schema b (R.map (fun p => p.1)) db) := by
  intro R
  induction R with
  | nil =>
    intro A cur seen db fuel _ _ hafter hfuel
    cases fuel with
    | zero => simp at hfuel
    | succ f =>
      simp only [tab_for_each_row_cur, hafter, List.head?_nil, List.map_nil, tab_for_each_row,
        Option.map_some']
  | cons x R1 ih =>
    intro A cur seen db fuel hwf hrows hafter hfuel
    obtain ⟨h, r⟩ := x
    cases fuel with
    | zero => simp at hfuel
    | succ f =>
      have hf : R1.length < f := by simp only [List.length_cons] at hfuel; omega
      have hmem : (h, r) ∈ chain_rows (tab_chunks db table.tabidx) := by
        have : (h, r) ∈ tab_rows db table.tabidx := by rw [hrows]; simp
        exact this
      obtain ⟨c, nxt, hfind⟩ := chain_find_of_idx _ _ (mem_chain_rows_idx _ _ hmem)
      have hread : tab_read_row db table.tabidx h = some r :=
        chain_read_of_mem _ hwf (h, r) hmem
      have hnext : rows_after (cursor_of h) (tab_chunks db table.tabidx) = R1 :=
        rows_after_cursor_of _ hwf h r A R1 hrows
      simp only [tab_for_each_row_cur, hafter, List.head?_cons, hfind, List.map_cons,
        tab_for_each_row, hread]
      cases hb : b h (List.take schema.slot_size r) db with
      | mk o d1 =>
        have hch : tab_chunks d1 table.tabidx = tab_chunks db table.tabidx := by
          have := hpres h (List.take schema.slot_size r) db
          rw [hb] at this
          exact this
        cases o with
        | some r0 => simp only [Option.map_some']
        | none =>
          simp only
          have hrows1 : tab_rows d1 table.tabidx = (A ++ [(h, r)]) ++ R1 := by
            unfold tab_rows at hrows ⊢
            rw [hch, hrows]; simp
          exact ih (A ++ [(h, r)]) (cursor_of h) (seen ++ [h]) d1 f (by rw [hch]; exact hwf)
            hrows1 (by rw [hch]; exact hnext) hf

/-- The whole loop: from the start of the chain, with more fuel than rows. -/
theorem for_each_cur_eq_for_each {ρ : Type} (table : table_t) (schema : schema_t)
    (b : chblix_t → List Byte → db_t → Option ρ × db_t)
    (hpres : ∀ h row d, tab_chunks (b h row d).2 table.tabidx = tab_chunks d table.tabidx)
    (db : db_t) (fuel : Nat) (hwf : chain_wf (tab_chunks db table.tabidx))
    (hfuel : (tab_rows db table.tabidx).length < fuel) :
    (tab_for_each_row_cur table schema
        (fun _ _ h row d => ((b h row d).1, cursor_of h, (b h row d).2)) fuel
        (cursor_start (tab_chunks db table.tabidx)) [] db).map (fun r => (r.1, r.2.2)) =
      some (tab_for_each_row table schema b (tab_handles db table.tabidx) db) :=
  for_each_cur_eq_snapshot table schema b hpres (tab_rows db table.tabidx) [] _ [] db fuel hwf
    rfl (rows_after_start _) hfuel

/-! ## The two forms of update by predicate -/

theorem tab_load_tabidx (db : db_t) (tablix : Nat) (table : table_t)
    (h : tab_load db tablix = some table) : table.tabidx = tablix := by
  unfold tab_load at h
  cases hl : idx_load tablix db.tables with
  | none => simp [hl] at h
  | some t =>
    simp only [hl, Option.some.injEq] at h
    rw [← h]

/-- C26: when the table `tablix` loads as `table`, its schema loads as
`schema`, the field `field_name` exists with descriptor `field` and the supplied
type is the datatype of the field, `tab_update_row_op` on the index and the
name and `tab_update_row_op_nova` on `table`, `schema` and `field` return the
same status and the same final state, for every condition, value and row. -/
theorem tab_update_row_op_eq_nova
    (cmp : datatype_t → List Byte → List Byte → condition_t → Bool)
    (db : db_t) (tablix : Nat) (row : List Byte) (field_name : String)
    (condition : condition_t) (value : List Byte) (type : datatype_t)
    (table : table_t) (schema : schema_t) (field : field_t)
    (ht : tab_load db tablix = some table) (hs : sch_load db table.schidx = some schema)
    (hf : sch_get_field db schema field_name = some field) (hty : type = field.type) :
    tab_update_row_op cmp db tablix row field_name condition value type =
      tab_update_row_op_nova cmp db table schema field condition value type row := by
  have hix := tab_load_tabidx db tablix table ht
  subst hix
  subst hty
  unfold tab_update_row_op tab_update_row_op_nova
  simp only [ht, hs, hf, ne_eq, not_true_eq_false, if_false]

/-- Instance of C26 on table `A` of the scenario: rows with `id = 2` are
overwritten; both forms return `TABLE_SUCCESS` and the same rows. -/
theorem tab_update_row_op_eq_nova_witness :
    tab_load demo_db 2 = some demo_A ∧ sch_load demo_db demo_A.schidx = some demo_A_schema ∧
    sch_get_field demo_db demo_A_schema "id" = some demo_id ∧
    (tab_update_row_op_nova bytes_compare demo_db demo_A demo_A_schema demo_id .COND_EQ (i64 2)
      .DT_INT (i64 7 ++ [1, 1, 1, 1])).1 = TABLE_SUCCESS ∧
    tab_rows (tab_update_row_op_nova bytes_compare demo_db demo_A demo_A_schema demo_id .COND_EQ
      (i64 2) .DT_INT (i64 7 ++ [1, 1, 1, 1])).2 2 =
      [({ chunk_idx := 2, block_idx := 0 }, i64 1 ++ [97, 0, 0, 0]),
       ({ chunk_idx := 2, block_idx := 1 }, i64 7 ++ [1, 1, 1, 1]),
       ({ chunk_idx := 2, block_idx := 2 }, i64 7 ++ [1, 1, 1, 1])] ∧
    tab_update_row_op bytes_compare demo_db 2 (i64 7 ++ [1, 1, 1, 1]) "id" .COND_EQ (i64 2)
      .DT_INT =
      tab_update_row_op_nova bytes_compare demo_db demo_A demo_A_schema demo_id .COND_EQ (i64 2)
        .DT_INT (i64 7 ++ [1, 1, 1, 1]) :=
  ⟨by decide, by decide, by decide, by decide, by decide,
   tab_update_row_op_eq_nova bytes_compare demo_db 2 (i64 7 ++ [1, 1, 1, 1]) "id" .COND_EQ
     (i64 2) .DT_INT demo_A demo_A_schema demo_id (by decide) (by decide) (by decide) rfl⟩

/-! ## File manager: no window mapped -/

/-- C25: when `mmaped_data` is `NULL`, `write_page` returns `FILE_FAIL` with
the state of the file manager unchanged and `read_page` returns `FILE_FAIL`
with the destination buffer unchanged (it has no access to the state).
`mmaped_data` is still `NULL` after `init_file` on an empty file, and it is
`NULL` after an `unmap_page` that returns `FILE_SUCCESS` on a file of non-zero
size. -/
theorem unmapped_read_write_fail (PAGE_SIZE : Nat) (os : os_t) (st : fm_t)
    (src dest : List Byte) (size : Nat) (offset : Int) (h : st.mmaped_data = .NULL) :
    write_page PAGE_SIZE os st src size offset = some (FILE_FAIL, st) ∧
    read_page PAGE_SIZE st dest size offset = some (FILE_FAIL, dest) ∧
    (∀ (os1 : os_t) (file_name : String), to_uint64 os1.lseek_end = 0 →
      (init_file os1 st file_name).2.mmaped_data = .NULL) ∧
    (∀ (os1 : os_t) (st0 : fm_t), st0.file_size ≠ 0 →
      (unmap_page os1 st0).1 = FILE_SUCCESS → (unmap_page os1 st0).2.mmaped_data = .NULL) := by
  refine ⟨?_, ?_, ?_, ?_⟩
  · simp only [write_page, h]
  · simp only [read_page, h]
  · intro os1 file_name hz
    unfold init_file
    by_cases ho : os1.open_fd = -1
    · simp only [ho, if_true]
      exact h
    · simp only [ho, if_false, hz, ne_eq, not_true_eq_false]
      exact h
  · intro os1 st0 hz hs
    unfold unmap_page at hs ⊢
    rw [if_neg hz] at hs ⊢
    by_cases h1 : sync_page os1 st0 = FILE_FAIL
    · rw [if_pos h1] at hs
      exact absurd (show FILE_FAIL = FILE_SUCCESS from hs) (by decide)
    · rw [if_neg h1] at hs ⊢
      by_cases h2 : os1.munmap_ok = false
      · rw [if_pos h2] at hs
        exact absurd (show FILE_FAIL = FILE_SUCCESS from hs) (by decide)
      · rw [if_neg h2]

/-- Instance of C25 on the state after `init_file` on a new, empty file. -/
theorem unmapped_read_write_fail_witness :
    (init_file (demo_os []) fm_start "db").2.mmaped_data = .NULL ∧
    write_page 16 (demo_os []) (init_file (demo_os []) fm_start "db").2 [1, 2, 3] 3 0 =
      some (FILE_FAIL, (init_file (demo_os []) fm_start "db").2) ∧
    read_page 16 (init_file (demo_os []) fm_start "db").2 [9, 9, 9] 3 0 =
      some (FILE_FAIL, [9, 9, 9]) ∧
    (∀ (os1 : os_t) (file_name : String), to_uint64 os1.lseek_end = 0 →
      (init_file os1 (init_file (demo_os []) fm_start "db").2 file_name).2.mmaped_data =
        .NULL) ∧
    (∀ (os1 : os_t) (st0 : fm_t), st0.file_size ≠ 0 →
      (unmap_page os1 st0).1 = FILE_SUCCESS → (unmap_page os1 st0).2.mmaped_data = .NULL) :=
  ⟨by decide,
   unmapped_read_write_fail 16 (demo_os []) (init_file (demo_os []) fm_start "db").2 [1, 2, 3]
     [9, 9, 9] 3 0 (by decide)⟩

/-! ## File manager: opening a file -/

theorem to_uint64_of_nat (n : Nat) (h : n < 2 ^ 64) : to_uint64 (n : Int) = n := by
  unfold to_uint64
  have h1 : ((n : Int) % 2 ^ 64) = (n : Int) := by
    apply Int.emod_eq_of_lt (Int.ofNat_nonneg n)
    exact_mod_cast h
  rw [h1]
  exact Int.toNat_ofNat n

/-- What `init_file` returns and leaves behind, case by case. -/
theorem init_file_cases (os : os_t) (st : fm_t) (file_name : String) :
    (os.open_fd = -1 → (init_file os st file_name).1 = FILE_FAIL) ∧
    (os.open_fd ≠ -1 → to_uint64 os.lseek_end = 0 →
      (init_file os st file_name).1 = FILE_SUCCESS ∧
      (init_file os st file_name).2.file_size = 0 ∧
      (init_file os st file_name).2.mmaped_data = st.mmaped_data ∧
      (init_file os st file_name).2.live = st.live) ∧
    (os.open_fd ≠ -1 → to_uint64 os.lseek_end ≠ 0 → os.mmap_ok = true →
      (init_file os st file_name).1 = FILE_SUCCESS ∧
      (init_file os st file_name).2.file_size = to_uint64 os.lseek_end ∧
      (init_file os st file_name).2.mmaped_data = .mapped st.page_offset ∧
      (init_file os st file_name).2.page_offset = st.page_offset ∧
      (init_file os st file_name).2.live = st.page_offset :: st.live) ∧
    (os.open_fd ≠ -1 → to_uint64 os.lseek_end ≠ 0 → os.mmap_ok = false →
      (init_file os st file_name).1 = FILE_FAIL) := by
  refine ⟨?_, ?_, ?_, ?_⟩
  · intro ho
    simp only [init_file, ho, if_true]
  · intro ho hz
    simp only [init_file, ho, if_false, hz, ne_eq, not_true_eq_false]
    refine ⟨?_, ?_, ?_, ?_⟩ <;> first | rfl | trivial
  · intro ho hz hm
    have hne : ¬ (FILE_SUCCESS : Int) = FILE_FAIL := by decide
    simp only [init_file, ho, if_false, hz, ne_eq, not_false_eq_true, if_true, mmap_page, hm,
      hne]
    refine ⟨?_, ?_, ?_, ?_, ?_⟩ <;> first | rfl | trivial
  · intro ho hz hm
    simp only [init_file, ho, if_false, hz, ne_eq, not_false_eq_true, if_true, mmap_page, hm,
      Bool.false_eq_true]

/-- C21 (the claim fails for a re-open): a new file is opened, two pages are
added, the file is closed and opened again.  Every call returns
`FILE_SUCCESS`; the last `init_file` maps the window at offset 16 (page 1, the
value `page_offset` was left with), not page 0. -/
theorem init_file_reopen_maps_stale_offset :
    fm_statuses 16 fm_start
      [(demo_os [], .init_file "db"), (demo_os [], .init_page), (demo_os [], .init_page),
       (demo_os [], .close_file), (demo_os (List.replicate 32 0), .init_file "db")] =
      [FILE_SUCCESS, FILE_SUCCESS, FILE_SUCCESS, FILE_SUCCESS, FILE_SUCCESS] ∧
    (fm_run 16 fm_start
      [(demo_os [], .init_file "db"), (demo_os [], .init_page), (demo_os [], .init_page),
       (demo_os [], .close_file)]).file = List.replicate 32 0 ∧
    (fm_run 16 fm_start
      [(demo_os [], .init_file "db"), (demo_os [], .init_page), (demo_os [], .init_page),
       (demo_os [], .close_file), (demo_os (List.replicate 32 0), .init_file "db")]).mmaped_data =
      .mapped 16 ∧
    (fm_run 16 fm_start
      [(demo_os [], .init_file "db"), (demo_os [], .init_page), (demo_os [], .init_page),
       (demo_os [], .close_file), (demo_os (List.replicate 32 0), .init_file "db")]).page_offset ≠
      0 := by
  decide

/-- C21 (amended): with `lseek` reporting the length of the file and
`page_offset` equal to 0 at the call (as at program start), `init_file` on a
new or empty file returns `FILE_SUCCESS` with `file_size` 0 and maps nothing
(`mmaped_data` and the live windows are those from before the call); on a
non-empty file with `mmap` succeeding it returns `FILE_SUCCESS` having mapped
the window at offset 0, with `page_offset` 0; and it returns `FILE_FAIL` exactly
when `open` fails or the file is non-empty and `mmap` fails. -/
theorem init_file_opens (os : os_t) (st : fm_t) (file_name : String)
    (hseek : os.lseek_end = (os.content.length : Int)) (hlt : os.content.length < 2 ^ 64)
    (hpo : st.page_offset = 0) :
    (os.open_fd ≠ -1 → os.content = [] →
      (init_file os st file_name).1 = FILE_SUCCESS ∧
      (init_file os st file_name).2.file_size = 0 ∧
      (init_file os st file_name).2.mmaped_data = st.mmaped_data ∧
      (init_file os st file_name).2.live = st.live) ∧
    (os.open_fd ≠ -1 → os.content ≠ [] → os.mmap_ok = true →
      (init_file os st file_name).1 = FILE_SUCCESS ∧
      (init_file os st file_name).2.file_size = os.content.length ∧
      (init_file os st file_name).2.mmaped_data = .mapped 0 ∧
      (init_file os st file_name).2.page_offset = 0 ∧
      (init_file os st file_name).2.live = 0 :: st.live) ∧
    ((init_file os st file_name).1 = FILE_FAIL ↔
      (os.open_fd = -1 ∨ (os.content ≠ [] ∧ os.mmap_ok = false))) ∧
    ((init_file os st file_name).1 = FILE_SUCCESS ∨
      (init_file os st file_name).1 = FILE_FAIL) := by
  have hfs : to_uint64 os.lseek_end = os.content.length := by
    rw [hseek]; exact to_uint64_of_nat _ hlt
  have hz : os.content = [] ↔ to_uint64 os.lseek_end = 0 := by
    rw [hfs]; exact List.length_eq_zero.symm
  obtain ⟨c1, c2, c3, c4⟩ := init_file_cases os st file_name
  have hne : ¬ (FILE_SUCCESS : Int) = FILE_FAIL := by decide
  refine ⟨?_, ?_, ?_, ?_⟩
  · intro ho he
    exact c2 ho (hz.mp he)
  · intro ho he hm
    obtain ⟨d1, d2, d3, d4, d5⟩ := c3 ho (fun e => he (hz.mpr e)) hm
    rw [hpo] at d3 d4 d5
    exact ⟨d1, d2.trans hfs, d3, d4, d5⟩
  · constructor
    · intro hfail
      by_cases ho : os.open_fd = -1
      · exact Or.inl ho
      · by_cases he : os.content = []
        · have := (c2 ho (hz.mp he)).1
          rw [this] at hfail
          exact absurd hfail hne
        · cases hm : os.mmap_ok with
          | true =>
            have := (c3 ho (fun e => he (hz.mpr e)) hm).1
            rw [this] at hfail
            exact absurd hfail hne
          | false => exact Or.inr ⟨he, rfl⟩
    · intro h
      rcases h with ho | ⟨he, hm⟩
      · exact c1 ho
      · by_cases ho : os.open_fd = -1
        · exact c1 ho
        · exact c4 ho (fun e => he (hz.mpr e)) hm
  · by_cases ho : os.open_fd = -1
    · exact Or.inr (c1 ho)
    · by_cases he : os.content = []
      · exact Or.inl (c2 ho (hz.mp he)).1
      · cases hm : os.mmap_ok with
        | true => exact Or.inl (c3 ho (fun e => he (hz.mpr e)) hm).1
        | false => exact Or.inr (c4 ho (fun e => he (hz.mpr e)) hm)

/-- Instance of the amended C21 at program start, on a file of 32 bytes. -/
theorem init_file_opens_witness :
    (demo_os (List.replicate 32 0)).lseek_end =
      ((demo_os (List.replicate 32 0)).content.length : Int) ∧
    (demo_os (List.replicate 32 0)).content.length < 2 ^ 64 ∧
    fm_start.page_offset = 0 ∧
    init_file (demo_os (List.replicate 32 0)) fm_start "db" =
      (FILE_SUCCESS, { filename := some "db", fd := 3, file_size := 32, mmaped_data := .mapped 0,
                       page_offset := 0, file := List.replicate 32 0, live := [0] }) ∧
    init_file (demo_os []) fm_start "db" =
      (FILE_SUCCESS, { filename := some "db", fd := 3, file_size := 0, mmaped_data := .NULL,
                       page_offset := 0, file := [], live := [] }) ∧
    ((demo_os (List.replicate 32 0)).open_fd ≠ -1 → (demo_os (List.replicate 32 0)).content = [] →
      (init_file (demo_os (List.replicate 32 0)) fm_start "db").1 = FILE_SUCCESS ∧
      (init_file (demo_os (List.replicate 32 0)) fm_start "db").2.file_size = 0 ∧
      (init_file (demo_os (List.replicate 32 0)) fm_start "db").2.mmaped_data =
        fm_start.mmaped_data ∧
      (init_file (demo_os (List.replicate 32 0)) fm_start "db").2.live = fm_start.live) ∧
    ((demo_os (List.replicate 32 0)).open_fd ≠ -1 → (demo_os (List.replicate 32 0)).content ≠ [] →
      (demo_os (List.replicate 32 0)).mmap_ok = true →
      (init_file (demo_os (List.replicate 32 0)) fm_start "db").1 = FILE_SUCCESS ∧
      (init_file (demo_os (List.replicate 32 0)) fm_start "db").2.file_size =
        (demo_os (List.replicate 32 0)).content.length ∧
      (init_file (demo_os (List.replicate 32 0)) fm_start "db").2.mmaped_data = .mapped 0 ∧
      (init_file (demo_os (List.replicate 32 0)) fm_start "db").2.page_offset = 0 ∧
      (init_file (demo_os (List.replicate 32 0)) fm_start "db").2.live = 0 :: fm_start.live) ∧
    ((init_file (demo_os (List.replicate 32 0)) fm_start "db").1 = FILE_FAIL ↔
      ((demo_os (List.replicate 32 0)).open_fd = -1 ∨
        ((demo_os (List.replicate 32 0)).content ≠ [] ∧
          (demo_os (List.replicate 32 0)).mmap_ok = false))) ∧
    ((init_file (demo_os (List.replicate 32 0)) fm_start "db").1 = FILE_SUCCESS ∨
      (init_file (demo_os (List.replicate 32 0)) fm_start "db").1 = FILE_FAIL) :=
  ⟨by decide, by decide, by decide, by decide, by decide,
   init_file_opens (demo_os (List.replicate 32 0)) fm_start "db" (by decide) (by decide)
     (by decide)⟩

/-! ## File manager: the size of the file -/

theorem unmap_page_file (os : os_t) (st : fm_t) : (unmap_page os st).2.file = st.file := by
  unfold unmap_page
  split
  · rfl
  · split
    · rfl
    · split <;> rfl

theorem fm_one_window_iff (st : fm_t) :
    fm_one_window st = true ↔
      (∀ o, st.mmaped_data = .mapped o → st.file_size ≠ 0 ∧ st.live = [o]) ∧
      (st.mmaped_data.is_window = false → st.live = []) := by
  obtain ⟨fn, fd, fs, md, po, file, live⟩ := st
  cases md <;> simp [fm_one_window, ptr_t.is_window]

theorem fm_one_window_live (st : fm_t) (h : fm_one_window st = true) : st.live.length ≤ 1 := by
  obtain ⟨h1, h2⟩ := (fm_one_window_iff st).mp h
  cases hm : st.mmaped_data with
  | NULL => rw [h2 (by rw [hm]; rfl)]; simp
  | MAP_FAILED => rw [h2 (by rw [hm]; rfl)]; simp
  | mapped o => rw [(h1 o hm).2]; simp

theorem mmap_page_one_window (os : os_t) (st : fm_t) (o : Int)
    (h : fm_one_window st = true) (hn : st.mmaped_data.is_window = false) :
    fm_one_window (mmap_page os st o).2 = true := by
  obtain ⟨-, h2⟩ := (fm_one_window_iff st).mp h
  have hl := h2 hn
  unfold mmap_page
  by_cases hz : st.file_size = 0
  · rw [if_pos hz]; exact h
  · rw [if_neg hz]
    cases hm : os.mmap_ok with
    | true =>
      simp only [if_true]
      rw [fm_one_window_iff]
      simp [hl, hz, ptr_t.is_window]
    | false =>
      simp only [Bool.false_eq_true, if_false]
      rw [fm_one_window_iff]
      simp [hl, ptr_t.is_window]

theorem unmap_page_one_window (os : os_t) (st : fm_t) (h : fm_one_window st = true) :
    fm_one_window (unmap_page os st).2 = true ∧
    ((unmap_page os st).1 ≠ FILE_FAIL → (unmap_page os st).2.mmaped_data.is_window = false) := by
  obtain ⟨h1, h2⟩ := (fm_one_window_iff st).mp h
  unfold unmap_page
  by_cases hz : st.file_size = 0
  · rw [if_pos hz]
    refine ⟨h, fun _ => ?_⟩
    cases hm : st.mmaped_data with
    | NULL => rfl
    | MAP_FAILED => rfl
    | mapped o => exact absurd hz (h1 o hm).1
  · rw [if_neg hz]
    by_cases hs : sync_page os st = FILE_FAIL
    · rw [if_pos hs]
      exact ⟨h, fun hc => absurd rfl hc⟩
    · rw [if_neg hs]
      by_cases hu : os.munmap_ok = false
      · rw [if_pos hu]
        exact ⟨h, fun hc => absurd rfl hc⟩
      · rw [if_neg hu]
        refine ⟨?_, fun _ => rfl⟩
        rw [fm_one_window_iff]
        cases hm : st.mmaped_data with
        | NULL =>
          have := h2 (by rw [hm]; rfl)
          simp [this, ptr_t.is_window]
        | MAP_FAILED =>
          have := h2 (by rw [hm]; rfl)
          simp [this, ptr_t.is_window]
        | mapped o =>
          have := (h1 o hm).2
          simp [this, ptr_t.is_window]

theorem init_file_one_window (os : os_t) (st : fm_t) (file_name : String)
    (h : fm_one_window st = true) (hn : st.mmaped_data.is_window = false) :
    fm_one_window (init_file os st file_name).2 = true := by
  obtain ⟨h1, h2⟩ := (fm_one_window_iff st).mp h
  have hl := h2 hn
  have hno : ∀ o, ¬ st.mmaped_data = .mapped o := by
    intro o e
    rw [e] at hn
    simp [ptr_t.is_window] at hn
  unfold init_file
  by_cases ho : os.open_fd = -1
  · simp only [ho, if_true]
    rw [fm_one_window_iff]
    exact ⟨fun o e => absurd e (hno o), fun _ => hl⟩
  · simp only [ho, if_false]
    by_cases hz : to_uint64 os.lseek_end = 0
    · simp only [hz, ne_eq, not_true_eq_false, if_false]
      rw [fm_one_window_iff]
      exact ⟨fun o e => absurd e (hno o), fun _ => hl⟩
    · simp only [hz, ne_eq, not_false_eq_true, if_true]
      have hJ : fm_one_window
          { filename := some file_name, fd := os.open_fd, file_size := to_uint64 os.lseek_end,
            mmaped_data := st.mmaped_data, page_offset := st.page_offset, file := os.content,
            live := st.live } = true := by
        rw [fm_one_window_iff]
        exact ⟨fun o e => absurd e (hno o), fun _ => hl⟩
      have := mmap_page_one_window os _ st.page_offset hJ hn
      split <;> exact this

theorem close_file_one_window (os : os_t) (st : fm_t) (h : fm_one_window st = true) :
    fm_one_window (close_file os st).2 = true := by
  obtain ⟨g1, -⟩ := unmap_page_one_window os st h
  unfold close_file
  cases hu : unmap_page os st with
  | mk r st1 =>
    rw [hu] at g1
    simp only at g1 ⊢
    by_cases hr : r = FILE_FAIL
    · rw [if_pos hr]; exact g1
    · rw [if_neg hr]
      obtain ⟨k1, k2⟩ := (fm_one_window_iff st1).mp g1
      rw [fm_one_window_iff]
      refine ⟨fun o e => ⟨?_, (k1 o e).2⟩, fun e => k2 e⟩
      show to_uint64 (-1) ≠ 0
      decide

theorem init_page_one_window (PAGE_SIZE : Nat) (os : os_t) (st : fm_t)
    (h : fm_one_window st = true) : fm_one_window (init_page PAGE_SIZE os st).2 = true := by
  obtain ⟨g1, g2⟩ := unmap_page_one_window os st h
  obtain ⟨h1, h2⟩ := (fm_one_window_iff st).mp h
  unfold init_page
  cases hu : (if st.mmaped_data ≠ .NULL then unmap_page os st else (FILE_SUCCESS, st)) with
  | mk r0 st1 =>
    have hJ1 : fm_one_window st1 = true := by
      by_cases hn : st.mmaped_data ≠ .NULL
      · rw [if_pos hn] at hu
        rw [hu] at g1
        exact g1
      · rw [if_neg hn] at hu
        simp only [Prod.mk.injEq] at hu
        rw [← hu.2]; exact h
    have hnw : ¬ (st.mmaped_data ≠ .NULL ∧ r0 = FILE_FAIL) →
        st1.mmaped_data.is_window = false := by
      intro hc
      by_cases hn : st.mmaped_data ≠ .NULL
      · rw [if_pos hn] at hu
        rw [hu] at g2
        exact g2 (fun e => hc ⟨hn, e⟩)
      · rw [if_neg hn] at hu
        simp only [Prod.mk.injEq] at hu
        rw [← hu.2]
        have : st.mmaped_data = .NULL := not_not.mp hn
        rw [this]; rfl
    simp only
    by_cases hc : st.mmaped_data ≠ .NULL ∧ r0 = FILE_FAIL
    · rw [if_pos hc]; exact hJ1
    · rw [if_neg hc]
      by_cases hf : os.ftruncate_ok = false
      · rw [if_pos hf]; exact hJ1
      · rw [if_neg hf]
        have hn1 := hnw hc
        obtain ⟨k1, k2⟩ := (fm_one_window_iff st1).mp hJ1
        have hno : ∀ o, ¬ st1.mmaped_data = .mapped o := by
          intro o e
          rw [e] at hn1
          simp [ptr_t.is_window] at hn1
        apply mmap_page_one_window
        · rw [fm_one_window_iff]
          exact ⟨fun o e => absurd e (hno o), fun _ => k2 hn1⟩
        · exact hn1

/-- In a sequence where `init_file` and `mmap_page` are only called while no
window is mapped, the live windows stay the window of `mmaped_data`. -/
theorem fm_run_one_window (PAGE_SIZE : Nat) :
    ∀ (cs : List (os_t × fm_op)) (st : fm_t), fm_one_window st = true →
      fm_disciplined PAGE_SIZE st cs = true → fm_one_window (fm_run PAGE_SIZE st cs) = true := by
  intro cs
  induction cs with
  | nil => intro st h _; exact h
  | cons c rest ih =>
    intro st h hd
    simp only [fm_disciplined, Bool.and_eq_true, Bool.or_eq_true, Bool.not_eq_true'] at hd
    obtain ⟨hd1, hd2⟩ := hd
    simp only [fm_run]
    apply ih _ _ hd2
    obtain ⟨os, op⟩ := c
    cases op with
    | init_file file_name =>
      have hn : st.mmaped_data.is_window = false := by
        rcases hd1 with e | e
        · simp [fm_op.maps_raw] at e
        · exact e
      exact init_file_one_window os st file_name h hn
    | mmap_page offset =>
      have hn : st.mmaped_data.is_window = false := by
        rcases hd1 with e | e
        · simp [fm_op.maps_raw] at e
        · exact e
      exact mmap_page_one_window os st offset h hn
    | init_page => exact init_page_one_window PAGE_SIZE os st h
    | unmap_page => exact (unmap_page_one_window os st h).1
    | close_file => exact close_file_one_window os st h

/-- C23 (the claim fails): at program start a file of two pages is opened,
which maps the window at offset 0, and `mmap_page(16)` is called.  Both calls
return `FILE_SUCCESS` and two windows are live, at offsets 16 and 0:
`mmap_page` does not unmap the current window.  After a following
`unmap_page` the window at offset 0 is still live and `mmaped_data` is
`NULL`. -/
theorem mmap_page_leaves_two_windows :
    fm_statuses 16 fm_start
      [(demo_os (List.replicate 32 0), .init_file "db"), (demo_os [], .mmap_page 16)] =
      [FILE_SUCCESS, FILE_SUCCESS] ∧
    (fm_run 16 fm_start
      [(demo_os (List.replicate 32 0), .init_file "db"), (demo_os [], .mmap_page 16)]).live =
      [16, 0] ∧
    ¬ (fm_run 16 fm_start
      [(demo_os (List.replicate 32 0), .init_file "db"),
       (demo_os [], .mmap_page 16)]).live.length ≤ 1 ∧
    (fm_run 16 fm_start
      [(demo_os (List.replicate 32 0), .init_file "db"), (demo_os [], .mmap_page 16),
       (demo_os [], .unmap_page)]).live = [0] ∧
    (fm_run 16 fm_start
      [(demo_os (List.replicate 32 0), .init_file "db"), (demo_os [], .mmap_page 16),
       (demo_os [], .unmap_page)]).mmaped_data = .NULL := by
  decide

/-- C23 (amended): from a state in which the live windows are the window of
`mmaped_data` (such as program start), every sequence of `init_file`,
`mmap_page`, `init_page`, `unmap_page` and `close_file` in which `init_file` and
`mmap_page` are only called while no window is mapped leaves at most one live
window, and the live windows are still the window of `mmaped_data`.
`init_page` keeps this by itself, in every such state: it unmaps the current
window before it maps the new page. -/
theorem disciplined_run_one_window (PAGE_SIZE : Nat) (st : fm_t) (cs : List (os_t × fm_op))
    (h : fm_one_window st = true) (hd : fm_disciplined PAGE_SIZE st cs = true) :
    (fm_run PAGE_SIZE st cs).live.length ≤ 1 ∧
    fm_one_window (fm_run PAGE_SIZE st cs) = true ∧
    (∀ (os : os_t) (st1 : fm_t), fm_one_window st1 = true →
      fm_one_window (init_page PAGE_SIZE os st1).2 = true ∧
      (init_page PAGE_SIZE os st1).2.live.length ≤ 1) := by
  have hJ := fm_run_one_window PAGE_SIZE cs st h hd
  refine ⟨fm_one_window_live _ hJ, hJ, fun os st1 h1 => ?_⟩
  have := init_page_one_window PAGE_SIZE os st1 h1
  exact ⟨this, fm_one_window_live _ this⟩

/-- Instance of the amended C23 from program start: a new file is opened, two
pages are added, the window is unmapped, page 0 is mapped and the file is
closed. -/
theorem disciplined_run_one_window_witness :
    fm_one_window fm_start = true ∧
    fm_disciplined 16 fm_start
      [(demo_os [], .init_file "db"), (demo_os [], .init_page), (demo_os [], .init_page),
       (demo_os [], .unmap_page), (demo_os [], .mmap_page 0), (demo_os [], .close_file)] =
      true ∧
    (fm_run 16 fm_start
      [(demo_os [], .init_file "db"), (demo_os [], .init_page), (demo_os [], .init_page),
       (demo_os [], .unmap_page), (demo_os [], .mmap_page 0)]).live = [0] ∧
    ((fm_run 16 fm_start
      [(demo_os [], .init_file "db"), (demo_os [], .init_page), (demo_os [], .init_page),
       (demo_os [], .unmap_page), (demo_os [], .mmap_page 0),
       (demo_os [], .close_file)]).live.length ≤ 1 ∧
    fm_one_window (fm_run 16 fm_start
      [(demo_os [], .init_file "db"), (demo_os [], .init_page), (demo_os [], .init_page),
       (demo_os [], .unmap_page), (demo_os [], .mmap_page 0), (demo_os [], .close_file)]) =
      true ∧
    (∀ (os : os_t) (st1 : fm_t), fm_one_window st1 = true →
      fm_one_window (init_page 16 os st1).2 = true ∧
      (init_page 16 os st1).2.live.length ≤ 1)) :=
  ⟨by decide, by decide, by decide,
   disciplined_run_one_window 16 fm_start
     [(demo_os [], .init_file "db"), (demo_os [], .init_page), (demo_os [], .init_page),
      (demo_os [], .unmap_page), (demo_os [], .mmap_page 0), (demo_os [], .close_file)]
     (by decide) (by decide)⟩

/-! ## Delete by predicate: the rows the loop visits -/

theorem chain_find_split (pre post : List chunk_t) (c : chunk_t)
    (hwf : chain_wf (pre ++ c :: post)) :
    chain_find c.chunk_idx (pre ++ c :: post) = some (c, (cursor_start post).chunk_idx) := by
  induction pre with
  | nil => simp only [List.nil_append, chain_find, if_true]
  | cons p rest ih =>
    unfold chain_wf at hwf
    simp only [List.cons_append, List.map_cons, List.nodup_cons, List.map_append,
      List.mem_append, List.mem_cons, not_or] at hwf
    have hne : ¬ p.chunk_idx = c.chunk_idx := hwf.1.2.1
    simp only [List.cons_append, chain_find, hne, if_false]
    apply ih
    unfold chain_wf
    simpa using hwf.2

theorem rows_after_split (pre post : List chunk_t) (c : chunk_t) (cur : cursor_t)
    (hwf : chain_wf (pre ++ c :: post)) (hc : (c.chunk_idx : Int) = cur.chunk_idx) :
    rows_after cur (pre ++ c :: post) =
      (chunk_rows c).filter (fun p => decide (cur.block_idx < (p.1.block_idx : Int))) ++
        chain_rows post := by
  induction pre with
  | nil => simp only [List.nil_append, rows_after, hc, if_true]
  | cons p rest ih =>
    unfold chain_wf at hwf
    simp only [List.cons_append, List.map_cons, List.nodup_cons, List.map_append,
      List.mem_append, List.mem_cons, not_or] at hwf
    have hne : ¬ (p.chunk_idx : Int) = cur.chunk_idx := by
      rw [← hc]
      intro e
      exact hwf.1.2.1 (by exact_mod_cast e)
    rw [List.cons_append, rows_after_skip cur p _ hne]
    apply ih
    unfold chain_wf
    simpa using hwf.2

theorem chunk_rows_single (c : chunk_t) (h : chblix_t) (r : List Byte) (hok : chunk_ok c)
    (hflag : c.num_of_free_blocks + 1 = c.capacity) (hm : (h, r) ∈ chunk_rows c) :
    chunk_rows c = [(h, r)] := by
  unfold chunk_ok at hok
  have hlen : (chunk_rows c).length = 1 := by omega
  obtain ⟨x, hx⟩ := List.length_eq_one.mp hlen
  rw [hx] at hm ⊢
  simp only [List.mem_singleton] at hm
  rw [hm]

/-- The step of the delete loop at a matching row that is the last allocated
block of its chunk: the body takes the link of the chunk as it is before the
delete, and the rows after the new position are the rows of the chunks that
followed the chunk in the chain before the delete. -/
theorem delete_body_emptying_step
    (cmp : datatype_t → List Byte → List Byte → condition_t → Bool)
    (db : db_t) (table : table_t) (schema : schema_t) (fc : field_t) (cond : condition_t)
    (cv : List Byte) (ht : table_valid db table schema)
    (hok : chain_ok (tab_chunks db table.tabidx))
    (pre post : List chunk_t) (c : chunk_t) (h : chblix_t) (r : List Byte)
    (hsplit : tab_chunks db table.tabidx = pre ++ c :: post) (hm : (h, r) ∈ chunk_rows c)
    (hflag : c.num_of_free_blocks + 1 = c.capacity)
    (hmatch : cmp fc.type (slice (r.take schema.slot_size) fc.offset fc.size) cv cond = true) :
    chain_find h.chunk_idx (tab_chunks db table.tabidx) =
      some (c, (cursor_start post).chunk_idx) ∧
    (delete_body cmp table fc cond cv c (cursor_start post).chunk_idx h
      (r.take schema.slot_size) db).1 = none ∧
    (delete_body cmp table fc cond cv c (cursor_start post).chunk_idx h
      (r.take schema.slot_size) db).2.1 = cursor_start post ∧
    rows_after (cursor_start post)
      (tab_chunks (delete_body cmp table fc cond cv c (cursor_start post).chunk_idx h
        (r.take schema.slot_size) db).2.2 table.tabidx) = chain_rows post ∧
    (post = [] →
      rows_after (cursor_start post)
        (tab_chunks (delete_body cmp table fc cond cv c (cursor_start post).chunk_idx h
          (r.take schema.slot_size) db).2.2 table.tabidx) = []) := by
  obtain ⟨-, -, ht3, ht4, -⟩ := ht
  obtain ⟨t, hl⟩ : ∃ t, idx_load table.tabidx db.tables = some t := by
    cases hl : idx_load table.tabidx db.tables with
    | none => simp [tab_load, hl] at ht3
    | some t => exact ⟨t, rfl⟩
  have hch : tab_chunks db table.tabidx = t.chunks := tab_chunks_of_load db _ t hl
  rw [hch] at ht4 hok hsplit
  have hcidx : h.chunk_idx = c.chunk_idx := (mem_blocks_rows c.chunk_idx c.blocks 0 (h, r) hm).1
  have hcmem : c ∈ t.chunks := by rw [hsplit]; simp
  have hrows_c := chunk_rows_single c h r (hok c hcmem) hflag hm
  have hmem : (h, r) ∈ chain_rows t.chunks := by
    rw [hsplit, chain_rows_append]
    simp only [chain_rows, List.mem_append]
    exact Or.inr (Or.inl hm)
  have hfind : chain_find h.chunk_idx t.chunks = some (c, (cursor_start post).chunk_idx) := by
    rw [hcidx, hsplit]
    apply chain_find_split
    rw [← hsplit]; exact ht4
  obtain ⟨c1, nxt, db1, d0, d1, -, -, -, d5, -⟩ :=
    tab_delete_nova_spec db table t h r hl ht4 hok hmem
  rw [hfind] at d0
  simp only [Option.some.injEq, Prod.mk.injEq] at d0
  obtain ⟨e1, e2⟩ := d0
  subst e1
  subst e2
  rw [if_pos hflag, cursor_start_eq] at d5
  have hafter : rows_after (cursor_of h) t.chunks = chain_rows post := by
    rw [hsplit, rows_after_split pre post c (cursor_of h) (by rw [← hsplit]; exact ht4)
      (by simp only [cursor_of, hcidx]), hrows_c]
    simp [cursor_of]
  have hne : ¬ (TABLE_SUCCESS : Int) = TABLE_FAIL := by decide
  have hbody : delete_body cmp table fc cond cv c (cursor_start post).chunk_idx h
      (r.take schema.slot_size) db = (none, cursor_start post, db1) := by
    rw [delete_body_eq]
    simp only [hmatch, if_true, d1 c, hne, if_false, hflag, cursor_start_eq]
  rw [hch, hbody]
  refine ⟨hfind, rfl, rfl, by rw [d5, hafter], fun hp => ?_⟩
  show rows_after (cursor_start post) (tab_chunks db1 table.tabidx) = []
  rw [d5, hafter, hp]
  rfl

/-- C22: on a stored table whose chunks satisfy the chunk invariant, the loop
of `tab_delete_op_nova` ends (with more fuel than the table has rows) without
a `return`, and the handles its body has run on are exactly the handles of
the rows present on entry, in scan order; they are pairwise distinct, so every
row is examined exactly once, none is skipped and none is visited twice.  When
the matching row `h` is the last allocated block of its chunk `c`, with the
chain `pre ++ c :: post` before the delete, the body goes on from the position
before the first block of the head of `post` (the link of `c` read before the
delete), the rows after that position in the chain after the delete are the
rows of `post`, and there are none when `c` was the last chunk, so the loop
ends. -/
theorem delete_loop_visits_each_row_once
    (cmp : datatype_t → List Byte → List Byte → condition_t → Bool) (fuel : Nat)
    (db : db_t) (table : table_t) (schema : schema_t) (field_comp : field_t)
    (condition : condition_t) (value : List Byte)
    (ht : table_valid db table schema) (hok : chain_ok (tab_chunks db table.tabidx))
    (hfuel : (tab_rows db table.tabidx).length < fuel) :
    (∃ db1,
      tab_for_each_row_cur table schema
        (delete_body cmp table field_comp condition
          (memcpy (malloc field_comp.size) 0 value 0 field_comp.size)) fuel
        (cursor_start (tab_chunks db table.tabidx)) [] db =
        some (none, tab_handles db table.tabidx, db1) ∧
      tab_delete_op_nova cmp fuel db table schema field_comp condition value =
        some (TABLE_SUCCESS, db1)) ∧
    (tab_handles db table.tabidx).Nodup ∧
    (∀ (pre post : List chunk_t) (c : chunk_t) (h : chblix_t) (r : List Byte),
      tab_chunks db table.tabidx = pre ++ c :: post → (h, r) ∈ chunk_rows c →
      c.num_of_free_blocks + 1 = c.capacity →
      cmp field_comp.type (slice (r.take schema.slot_size) field_comp.offset field_comp.size)
        (memcpy (malloc field_comp.size) 0 value 0 field_comp.size) condition = true →
      chain_find h.chunk_idx (tab_chunks db table.tabidx) =
        some (c, (cursor_start post).chunk_idx) ∧
      (delete_body cmp table field_comp condition
        (memcpy (malloc field_comp.size) 0 value 0 field_comp.size) c
        (cursor_start post).chunk_idx h (r.take schema.slot_size) db).1 = none ∧
      (delete_body cmp table field_comp condition
        (memcpy (malloc field_comp.size) 0 value 0 field_comp.size) c
        (cursor_start post).chunk_idx h (r.take schema.slot_size) db).2.1 = cursor_start post ∧
      rows_after (cursor_start post)
        (tab_chunks (delete_body cmp table field_comp condition
          (memcpy (malloc field_comp.size) 0 value 0 field_comp.size) c
          (cursor_start post).chunk_idx h (r.take schema.slot_size) db).2.2 table.tabidx) =
        chain_rows post ∧
      (post = [] →
        rows_after (cursor_start post)
          (tab_chunks (delete_body cmp table field_comp condition
            (memcpy (malloc field_comp.size) 0 value 0 field_comp.size) c
            (cursor_start post).chunk_idx h (r.take schema.slot_size) db).2.2 table.tabidx) =
          [])) := by
  have hwf := ht.2.2.2.1
  have hex : ∃ t, idx_load table.tabidx db.tables = some t := by
    cases hl : idx_load table.tabidx db.tables with
    | none =>
      have := ht.2.2.1
      simp [tab_load, hl] at this
    | some t => exact ⟨t, rfl⟩
  obtain ⟨db1, e1, -⟩ :=
    delete_loop_spec cmp table schema field_comp condition
      (memcpy (malloc field_comp.size) 0 value 0 field_comp.size)
      (tab_rows db table.tabidx) [] (cursor_start (tab_chunks db table.tabidx)) [] db fuel
      hwf hok hex rfl (rows_after_start _) hfuel
  rw [List.nil_append] at e1
  refine ⟨⟨db1, e1, ?_⟩, chain_handles_nodup _ hwf, ?_⟩
  · unfold tab_delete_op_nova
    simp only [e1]
  · intro pre post c h r hsplit hm hflag hmatch
    exact delete_body_emptying_step cmp db table schema field_comp condition _ ht hok pre post c
      h r hsplit hm hflag hmatch

/-- Instance of C22 on the table of three chunks, condition `id = 2`: the body
runs on the five handles of the table in scan order, although the second
chunk is emptied and unlinked on the way.  In the state where the first row of
the second chunk is already deleted, the body at the second row goes on from
the position before the first block of chunk 4, the link of chunk 3. -/
theorem delete_loop_visits_each_row_once_witness :
    table_valid demo_db_chunks demo_A demo_A_schema ∧
    chain_ok (tab_chunks demo_db_chunks demo_A.tabidx) ∧
    (tab_rows demo_db_chunks demo_A.tabidx).length < 6 ∧
    (tab_for_each_row_cur demo_A demo_A_schema
      (delete_body bytes_compare demo_A demo_id .COND_EQ
        (memcpy (malloc demo_id.size) 0 (i64 2) 0 demo_id.size)) 6
      (cursor_start (tab_chunks demo_db_chunks demo_A.tabidx)) [] demo_db_chunks).map
      (fun res => (res.1, res.2.1)) =
      some (none, [{ chunk_idx := 2, block_idx := 0 }, { chunk_idx := 2, block_idx := 1 },
                   { chunk_idx := 3, block_idx := 0 }, { chunk_idx := 3, block_idx := 1 },
                   { chunk_idx := 4, block_idx := 0 }]) ∧
    (chain_find 3 (tab_chunks (tab_delete_nova demo_db_chunks demo_A
        { chunk_idx := 3, capacity := 2, first_free_block := [], blocks := [] }
        { chunk_idx := 3, block_idx := 0 }).2 2)).map
      (fun p => (p.2, (delete_body bytes_compare demo_A demo_id .COND_EQ (i64 2) p.1 p.2
        { chunk_idx := 3, block_idx := 1 } (i64 2 ++ [100, 0, 0, 0])
        (tab_delete_nova demo_db_chunks demo_A
          { chunk_idx := 3, capacity := 2, first_free_block := [], blocks := [] }
          { chunk_idx := 3, block_idx := 0 }).2).2.1)) =
      some (4, { chunk_idx := 4, block_idx := -1 }) ∧
    ((∃ db1,
      tab_for_each_row_cur demo_A demo_A_schema
        (delete_body bytes_compare demo_A demo_id .COND_EQ
          (memcpy (malloc demo_id.size) 0 (i64 2) 0 demo_id.size)) 6
        (cursor_start (tab_chunks demo_db_chunks demo_A.tabidx)) [] demo_db_chunks =
        some (none, tab_handles demo_db_chunks demo_A.tabidx, db1) ∧
      tab_delete_op_nova bytes_compare 6 demo_db_chunks demo_A demo_A_schema demo_id .COND_EQ
        (i64 2) = some (TABLE_SUCCESS, db1)) ∧
    (tab_handles demo_db_chunks demo_A.tabidx).Nodup ∧
    (∀ (pre post : List chunk_t) (c : chunk_t) (h : chblix_t) (r : List Byte),
      tab_chunks demo_db_chunks demo_A.tabidx = pre ++ c :: post → (h, r) ∈ chunk_rows c →
      c.num_of_free_blocks + 1 = c.capacity →
      bytes_compare demo_id.type
        (slice (r.take demo_A_schema.slot_size) demo_id.offset demo_id.size)
        (memcpy (malloc demo_id.size) 0 (i64 2) 0 demo_id.size) .COND_EQ = true →
      chain_find h.chunk_idx (tab_chunks demo_db_chunks demo_A.tabidx) =
        some (c, (cursor_start post).chunk_idx) ∧
      (delete_body bytes_compare demo_A demo_id .COND_EQ
        (memcpy (malloc demo_id.size) 0 (i64 2) 0 demo_id.size) c
        (cursor_start post).chunk_idx h (r.take demo_A_schema.slot_size) demo_db_chunks).1 =
        none ∧
      (delete_body bytes_compare demo_A demo_id .COND_EQ
        (memcpy (malloc demo_id.size) 0 (i64 2) 0 demo_id.size) c
        (cursor_start post).chunk_idx h (r.take demo_A_schema.slot_size) demo_db_chunks).2.1 =
        cursor_start post ∧
      rows_after (cursor_start post)
        (tab_chunks (delete_body bytes_compare demo_A demo_id .COND_EQ
          (memcpy (malloc demo_id.size) 0 (i64 2) 0 demo_id.size) c
          (cursor_start post).chunk_idx h (r.take demo_A_schema.slot_size)
          demo_db_chunks).2.2 demo_A.tabidx) = chain_rows post ∧
      (post = [] →
        rows_after (cursor_start post)
          (tab_chunks (delete_body bytes_compare demo_A demo_id .COND_EQ
            (memcpy (malloc demo_id.size) 0 (i64 2) 0 demo_id.size) c
            (cursor_start post).chunk_idx h (r.take demo_A_schema.slot_size)
            demo_db_chunks).2.2 demo_A.tabidx) = []))) :=
  ⟨by decide, by decide, by decide, by decide, by decide,
   delete_loop_visits_each_row_once bytes_compare 6 demo_db_chunks demo_A demo_A_schema demo_id
     .COND_EQ (i64 2) (by decide) (by decide) (by decide)⟩

end LLP
